import Mathlib

/-! JSONPath query evaluator (`libjsonpath/path.cpp`).

A shallow embedding of the tree-walking evaluator of `src/src/libjsonpath/path.cpp`
(`normalized_index`, `is_truthy`, `descend`, `ExpressionVisitor`, `SelectorVisitor`,
`SegmentVisitor`, `resolve_segment`, `query_`) together with the properties of it that
the specification states.

Modelling conventions.

* The document is a Python object reached through nanobind.  `Value` is the JSON-like
  part of that universe (`None`, `bool`, `int`, `float`, `str`, `list`, `dict`) plus
  `sentinel k`, an object of some other class that is equal only to itself (this is what
  the `nothing` argument of `query_` is in practice).  Floats are represented by their
  exact rational value, which is all that `==` and `<` observe for finite floats.
* `size_t` values are natural numbers, `std::int64_t` values are integers.  The two places
  where the width is observable are explicit: the unsigned-to-signed conversions go
  through `toInt64`, and the loop counter of `slice_indicies`, whose increment
  `i += step` is a signed addition, reports `Error.signedOverflow` when the sum leaves the
  64-bit range (the C++ behaviour is undefined there).
* A `std::string` is a `String`, which may hold U+0000.  The two places where the code
  builds a Python string from `c_str()` (the key a name selector looks up and the value
  of a string literal) read it back through `c_str`, which stops at the first U+0000.
* C++ exceptions abort the whole evaluation; every function that can throw returns
  `Except Error _`.
-/

namespace JsonPath

/-! ## Data model -/

/-- JSON-like Python objects: the values a document is made of. -/
inductive Value where
  | null
  | bool (b : Bool)
  | int (i : Int)
  | float (q : Rat)
  | str (s : String)
  | array (xs : List Value)
  | object (members : List (String × Value))
  | sentinel (id : Nat)

/-- One component of a location: `std::variant<size_t, std::string>`. -/
inductive PathElem where
  | index (i : Nat)
  | key (s : String)
  deriving DecidableEq

/-- The type `location_t` of `node.hpp`. -/
abbrev location_t := List PathElem

/-- A JSON-like object and its location within a JSON document (`node.hpp`). -/
structure JSONPathNode where
  value : Value
  location : location_t

/-- The type `JSONPathNodeList` of `node.hpp`. -/
abbrev JSONPathNodeList := List JSONPathNode

/-- An `nb::object` as the expression visitor sees it: a document value, or a node list
that was cast to a Python object (`nb::cast(nodes)`). -/
inductive PyObject where
  | value (v : Value)
  | nodes (ns : JSONPathNodeList)

/-- The result of evaluating a filter expression:
`std::variant<JSONPathNodeList, nb::object>`. -/
inductive expression_rv where
  | nodes (ns : JSONPathNodeList)
  | object (o : PyObject)

/-- The ways an evaluation can be aborted. -/
inductive Error where
  /-- `IndexError("array index out of range")` thrown by `normalized_index`. -/
  | indexError
  /-- `NameError` thrown for a function call without function or without signature. -/
  | nameError
  /-- `nb::cast<JSONPathNodeList>` applied to an object that is not a node list. -/
  | castError
  /-- An exception raised by a function extension. -/
  | extensionError
  /-- Signed 64-bit overflow of the slice loop counter (undefined behaviour). -/
  | signedOverflow
  /-- An unchecked access past the end of a vector or list (undefined behaviour). -/
  | outOfBounds
  deriving DecidableEq

/-- Binary operators of an `InfixExpression`, as exported by the bindings. -/
inductive BinaryOperator where
  | none | logical_and | logical_or | eq | ge | gt | le | lt | ne
  deriving DecidableEq

/-- Declared type of a function extension parameter or result. -/
inductive ExpressionType where
  | value | logical | nodes
  deriving DecidableEq

/-- Signature of a function extension: `args` and `res`. -/
structure FunctionExtensionTypes where
  args : List ExpressionType
  res : ExpressionType

/-- A Python callable used as a function extension: it receives the argument list and
returns an object or raises. -/
abbrev PyCallable := List PyObject → Except Error PyObject

/-- The map `std::unordered_map<std::string, nb::callable>`, by its `find`. -/
abbrev function_extension_map := String → Option PyCallable

/-- The map `std::unordered_map<std::string, FunctionExtensionTypes>`, by its `find`. -/
abbrev function_signature_map := String → Option FunctionExtensionTypes

mutual
/-- Filter expressions (`expression_t`). `binary` is the `InfixExpression`. -/
inductive Expression where
  | nullLiteral
  | booleanLiteral (value : Bool)
  | integerLiteral (value : Int)
  | floatLiteral (value : Rat)
  | stringLiteral (value : String)
  | logicalNot (right : Expression)
  | binary (left : Expression) (op : BinaryOperator) (right : Expression)
  | relativeQuery (query : List Segment)
  | rootQuery (query : List Segment)
  | functionCall (name : String) (args : List Expression)
/-- Selectors (`selector_t`). -/
inductive Selector where
  | name (name : String)
  | index (index : Int)
  | wild
  | slice (start stop step : Option Int)
  | filter (expression : Expression)
/-- Segments: `Segment` is `child`, `RecursiveSegment` is `recursive`. -/
inductive Segment where
  | child (selectors : List Selector)
  | recursive (selectors : List Selector)
end

/-- The type `segments_t`: a query is a sequence of segments. -/
abbrev segments_t := List Segment

/-- Mirror of the class `QueryContext`. -/
structure QueryContext where
  root : Value
  functions : function_extension_map
  signatures : function_signature_map
  nothing : Value

/-- Contextual objects a JSONPath filter will operate on. -/
structure FilterContext where
  query : QueryContext
  current : Value

/-! ## Python object protocol used by the evaluator -/

/-- The Python string `nb::str(s.c_str())`: a C string ends at its first NUL, so only the
characters of `s` before the first U+0000 are read back (`path.cpp` l.141 and l.372). -/
def c_str (s : String) : String :=
  ⟨s.data.takeWhile (fun c => c != Char.ofNat 0)⟩

/-- Member lookup `obj[name]` in a dict; `none` when `obj.contains(name)` is false. -/
def lookupMember (k : String) : List (String × Value) → Option Value
  | [] => none
  | (k', v) :: ms => if k' = k then some v else lookupMember k ms

/-- The number a Python `bool`, `int` or `float` denotes (`bool` is a subclass of `int`). -/
def Value.numeric? : Value → Option Rat
  | .bool b => some (if b then 1 else 0)
  | .int i => some (i : Rat)
  | .float q => some q
  | _ => none

mutual
/-- Python `==` on JSON-like objects, which is what `nb::object::equal` computes: numbers
compare by value across `bool`, `int` and `float`; lists compare element by element; dicts
compare as sets of key/value pairs; any other object is equal only to itself. -/
def Value.equal : Value → Value → Bool
  | .null, .null => true
  | .bool a, w => w.numeric? == some (if a then 1 else 0)
  | .int a, w => w.numeric? == some (a : Rat)
  | .float a, w => w.numeric? == some a
  | .str a, .str b => a == b
  | .array xs, .array ys => equalElems xs ys
  | .object ms, .object ns => ms.length == ns.length && equalMembers ms ns
  | .sentinel a, .sentinel b => a == b
  | _, _ => false
/-- Element-wise comparison of two lists. -/
def equalElems : List Value → List Value → Bool
  | [], [] => true
  | x :: xs, y :: ys => x.equal y && equalElems xs ys
  | _, _ => false
/-- Every member of the left dict has an equal member under the same key on the right. -/
def equalMembers : List (String × Value) → List (String × Value) → Bool
  | [], _ => true
  | (k, v) :: ms, ns =>
    (match lookupMember k ns with
      | some w => v.equal w
      | none => false) && equalMembers ms ns
end

/-- The method `nb::object::equal` on arbitrary objects; a node list wrapped as a Python
object has no `__eq__` and a fresh wrapper is never identical to another object. -/
def PyObject.equal : PyObject → PyObject → Bool
  | .value a, .value b => a.equal b
  | _, _ => false

/-- Python `<` between two objects, for the pairs `less_than` lets through. -/
def Value.lt : Value → Value → Bool
  | .str a, .str b => decide (a < b)
  | a, b =>
    match a.numeric?, b.numeric? with
    | some x, some y => decide (x < y)
    | _, _ => false

/-! ## Integer helpers -/

/-- Largest `std::int64_t`. -/
def INT64_MAX : Int := 9223372036854775807

/-- Smallest `std::int64_t`. -/
def INT64_MIN : Int := -9223372036854775808

/-- Conversion of an integer to `std::int64_t` (two's complement, modulo `2^64`). -/
def toInt64 (x : Int) : Int := (x + 9223372036854775808) % 18446744073709551616 - 9223372036854775808

/-- Convert negative indicies to their positive equivalents given an "array" length. -/
def normalized_index (length : Nat) (index : Int) : Except Error Nat :=
  if index ≥ 0 then .ok index.toNat
  else if (length : Int) > INT64_MAX then .error .indexError
  else
    let positive_index := toInt64 ((length : Int) + index)
    .ok (if positive_index ≥ 0 then positive_index.toNat else length)

/-- JSONPath expression result truthiness test. -/
def is_truthy : expression_rv → Bool
  | .nodes ns => !ns.isEmpty
  | .object (.value (.bool b)) => b
  | .object _ => true

mutual
/-- Visit every object with `value` at the root: the node itself, then its children in
iteration order, each followed by its own descendants. -/
def descendValue : Value → location_t → JSONPathNodeList
  | .object ms, loc => ⟨.object ms, loc⟩ :: descendMembers ms loc
  | .array xs, loc => ⟨.array xs, loc⟩ :: descendElems xs loc 0
  | v, loc => [⟨v, loc⟩]
/-- The loop of `descend` over the items of a dict. -/
def descendMembers : List (String × Value) → location_t → JSONPathNodeList
  | [], _ => []
  | (k, v) :: ms, loc => descendValue v (loc ++ [.key k]) ++ descendMembers ms loc
/-- The loop of `descend` over the items of a list, `index` counting up. -/
def descendElems : List Value → location_t → Nat → JSONPathNodeList
  | [], _, _ => []
  | x :: xs, loc, index => descendValue x (loc ++ [.index index]) ++ descendElems xs loc (index + 1)
end

/-- The function `descend`: the nodes pushed to `out_nodes`, in order. -/
def descend (node : JSONPathNode) : JSONPathNodeList :=
  descendValue node.value node.location

/-! ## Selector loops -/

/-- The body of the `for` loop with `step > 0` in `slice_indicies`; `fuel` bounds the
number of iterations and is chosen by the caller so that it is never exhausted. -/
def sliceLoopUp (stop step : Int) : Nat → Int → Except Error (List Int)
  | 0, _ => .ok []
  | fuel + 1, i =>
    if i < stop then
      if i + step ≤ INT64_MAX then
        match sliceLoopUp stop step fuel (i + step) with
        | .ok rest => .ok (i :: rest)
        | .error e => .error e
      else .error .signedOverflow
    else .ok []

/-- The body of the `for` loop with `step < 0` in `slice_indicies`. -/
def sliceLoopDown (stop step : Int) : Nat → Int → Except Error (List Int)
  | 0, _ => .ok []
  | fuel + 1, i =>
    if i > stop then
      if INT64_MIN ≤ i + step then
        match sliceLoopDown stop step fuel (i + step) with
        | .ok rest => .ok (i :: rest)
        | .error e => .error e
      else .error .signedOverflow
    else .ok []

/-- The method `SelectorVisitor::slice_indicies`. `length` is `size` converted to
`std::int64_t`; the conditional expressions `step < 0 ? length - 1 : 0UL` and
`step < 0 ? -1 : size` are computed in `size_t` and converted back, which gives
`length - 1`, `0`, `-1` and `length`. -/
def slice_indicies (start stop step : Option Int) (size : Nat) : Except Error (List Int) :=
  if size = 0 then .ok []
  else
    let length : Int := toInt64 size
    let step : Int := step.getD 1
    if step = 0 then .ok []
    else
      let start : Int :=
        match start with
        | none => if step < 0 then length - 1 else 0
        | some s => if s < 0 then max (length + s) 0 else min s (length - 1)
      let stop : Int :=
        match stop with
        | none => if step < 0 then -1 else length
        | some s => if s < 0 then max (length + s) (-1) else min s length
      if step > 0 then sliceLoopUp stop step (stop - start).toNat start
      else sliceLoopDown stop step (start - stop).toNat start

/-- The loop of the slice selector over the indices returned by `slice_indicies`:
`obj[i]` is an unchecked access, then the index is normalized and pushed. -/
def sliceNodes (xs : List Value) (location : location_t) :
    List Int → Except Error JSONPathNodeList
  | [] => .ok []
  | i :: rest =>
    if 0 ≤ i then
      match xs[i.toNat]? with
      | none => .error .outOfBounds
      | some val =>
        match normalized_index xs.length i with
        | .error e => .error e
        | .ok norm_index =>
          match sliceNodes xs location rest with
          | .error e => .error e
          | .ok out => .ok (⟨val, location ++ [.index norm_index]⟩ :: out)
    else .error .outOfBounds

/-- The loop of the wildcard selector over the items of a dict. -/
def wildMembers (location : location_t) : List (String × Value) → JSONPathNodeList
  | [] => []
  | (k, val) :: ms => ⟨val, location ++ [.key k]⟩ :: wildMembers location ms

/-- The loop of the wildcard selector over the items of a list, `index` counting up. -/
def wildElems (location : location_t) : Nat → List Value → JSONPathNodeList
  | _, [] => []
  | index, val :: xs => ⟨val, location ++ [.index index]⟩ :: wildElems location (index + 1) xs

/-- The loop of the filter selector over the items of a dict; `test val` is
`is_truthy(std::visit(visitor, selector->expression))` with `current = val`. -/
def filterMembers (test : Value → Except Error Bool) (location : location_t) :
    List (String × Value) → Except Error JSONPathNodeList
  | [] => .ok []
  | (k, val) :: ms =>
    match test val with
    | .error e => .error e
    | .ok b =>
      match filterMembers test location ms with
      | .error e => .error e
      | .ok out => .ok (if b then ⟨val, location ++ [.key k]⟩ :: out else out)

/-- The loop of the filter selector over the items of a list, `index` counting up. -/
def filterElems (test : Value → Except Error Bool) (location : location_t) :
    Nat → List Value → Except Error JSONPathNodeList
  | _, [] => .ok []
  | index, val :: xs =>
    match test val with
    | .error e => .error e
    | .ok b =>
      match filterElems test location (index + 1) xs with
      | .error e => .error e
      | .ok out => .ok (if b then ⟨val, location ++ [.index index]⟩ :: out else out)

/-- Run `f` on every element in order and concatenate the outputs, stopping at the first
error: the shape of the nested loops of `SegmentVisitor`, which all push to one
`out_nodes`. -/
def concatMapM {α β : Type} (f : α → Except Error (List β)) : List α → Except Error (List β)
  | [] => .ok []
  | a :: as =>
    match f a with
    | .error e => .error e
    | .ok out =>
      match concatMapM f as with
      | .error e => .error e
      | .ok rest => .ok (out ++ rest)

/-! ## Comparison of expression results -/

/-- The method `ExpressionVisitor::node_list_equals`. -/
def node_list_equals (nothing : Value) (left : JSONPathNodeList) :
    expression_rv → Bool
  | .object right =>
    match left with
    | [] => right.equal (.value nothing)
    | [n] => (PyObject.value n.value).equal right
    | _ => false
  | .nodes right =>
    match left, right with
    | [], [] => true
    | [l], [r] => l.value.equal r.value
    | _, _ => false

/-- The method `ExpressionVisitor::equals`. -/
def equals (nothing : Value) : expression_rv → expression_rv → Bool
  | .nodes left, right_ => node_list_equals nothing left right_
  | left_, .nodes right => node_list_equals nothing right left_
  | .object left, .object right => left.equal right

/-- The method `ExpressionVisitor::less_than`. The `isinstance` tests for `nb::int_`
are reached only for objects that are not `bool`. -/
def less_than : expression_rv → expression_rv → Bool
  | .object (.value left), .object (.value right) =>
    match left, right with
    | .bool _, _ => false
    | _, .bool _ => false
    | .str a, .str b => Value.lt (.str a) (.str b)
    | .int a, .int b => Value.lt (.int a) (.int b)
    | .int a, .float b => Value.lt (.int a) (.float b)
    | .float a, .float b => Value.lt (.float a) (.float b)
    | .float a, .int b => Value.lt (.float a) (.int b)
    | _, _ => false
  | _, _ => false

/-- The method `ExpressionVisitor::compare`. -/
def compare (nothing : Value) (left : expression_rv) (op : BinaryOperator)
    (right : expression_rv) : Bool :=
  match op with
  | .eq => equals nothing left right
  | .ne => !equals nothing left right
  | .lt => less_than left right
  | .gt => less_than right left
  | .ge => less_than right left || equals nothing left right
  | .le => less_than left right || equals nothing left right
  | _ => false

/-- The step "Unpack single value node list" of the infix expression visitor. -/
def unpack : expression_rv → expression_rv
  | .nodes [n] => .object (.value n.value)
  | rv => rv

/-- What the infix expression visitor returns once both operands are evaluated. -/
def infixResult (nothing : Value) (left : expression_rv) (op : BinaryOperator)
    (right : expression_rv) : expression_rv :=
  let left := unpack left
  let right := unpack right
  if op = .logical_and then .object (.value (.bool (is_truthy left && is_truthy right)))
  else if op = .logical_or then .object (.value (.bool (is_truthy left || is_truthy right)))
  else .object (.value (.bool (compare nothing left op right)))

/-- The argument passed to a function extension for an evaluated argument expression,
`index` being its position in the call. -/
def coerceArg (nothing : Value) (func_sig : FunctionExtensionTypes) (index : Nat) :
    expression_rv → Except Error PyObject
  | .nodes nodes =>
    match func_sig.args[index]? with
    | none => .error .outOfBounds
    | some t =>
      if t ≠ .nodes then
        match nodes with
        | [] => .ok (.value nothing)
        | [n] => .ok (.value n.value)
        | _ => .ok (.nodes nodes)
      else .ok (.nodes nodes)
  | .object o => .ok o

/-- The end of the function call visitor: a result declared `nodes` is cast back to a
node list, any other result is returned as the object it is. -/
def castResult (func_sig : FunctionExtensionTypes) (rv : PyObject) : Except Error expression_rv :=
  if func_sig.res = .nodes then
    match rv with
    | .nodes ns => .ok (.nodes ns)
    | .value _ => .error .castError
  else .ok (.object rv)

/-! ## The evaluator -/

mutual
/-- The class `ExpressionVisitor`, one case per `operator()`. -/
def Expression.eval (ctx : FilterContext) : Expression → Except Error expression_rv
  | .nullLiteral => .ok (.object (.value .null))
  | .booleanLiteral value => .ok (.object (.value (.bool value)))
  | .integerLiteral value => .ok (.object (.value (.int value)))
  | .floatLiteral value => .ok (.object (.value (.float value)))
  | .stringLiteral value => .ok (.object (.value (.str (c_str value))))
  | .logicalNot right =>
    match right.eval ctx with
    | .error e => .error e
    | .ok rv => .ok (.object (.value (.bool (!is_truthy rv))))
  | .binary left op right =>
    match left.eval ctx with
    | .error e => .error e
    | .ok l =>
      match right.eval ctx with
      | .error e => .error e
      | .ok r => .ok (infixResult ctx.query.nothing l op r)
  | .relativeQuery query =>
    -- the call `query_(expression->query, m_context.current, ...)`, body of `query_` inlined
    match resolveSegments
        ⟨ctx.current, ctx.query.functions, ctx.query.signatures, ctx.query.nothing⟩
        [⟨ctx.current, []⟩] query with
    | .error e => .error e
    | .ok nodes => .ok (.nodes nodes)
  | .rootQuery query =>
    -- the call `query_(expression->query, m_context.query.root, ...)`, body inlined
    match resolveSegments
        ⟨ctx.query.root, ctx.query.functions, ctx.query.signatures, ctx.query.nothing⟩
        [⟨ctx.query.root, []⟩] query with
    | .error e => .error e
    | .ok nodes => .ok (.nodes nodes)
  | .functionCall name args =>
    match ctx.query.functions name with
    | none => .error .nameError
    | some func =>
      match ctx.query.signatures name with
      | none => .error .nameError
      | some func_sig =>
        match evalArgs ctx func_sig 0 args with
        | .error e => .error e
        | .ok args =>
          match func args with
          | .error e => .error e
          | .ok rv => castResult func_sig rv
/-- The loop of the function call visitor over the argument expressions. -/
def evalArgs (ctx : FilterContext) (func_sig : FunctionExtensionTypes) (index : Nat) :
    List Expression → Except Error (List PyObject)
  | [] => .ok []
  | arg :: rest =>
    match arg.eval ctx with
    | .error e => .error e
    | .ok arg_rv =>
      match coerceArg ctx.query.nothing func_sig index arg_rv with
      | .error e => .error e
      | .ok a =>
        match evalArgs ctx func_sig (index + 1) rest with
        | .error e => .error e
        | .ok as => .ok (a :: as)
/-- The class `SelectorVisitor`, one case per `operator()`: the nodes it pushes. -/
def Selector.apply (ctx : QueryContext) (node : JSONPathNode) :
    Selector → Except Error JSONPathNodeList
  | .name name =>
    match node.value with
    | .object obj =>
      -- the key looked up is `nb::str name{selector.name.c_str()}`, the location gets
      -- the whole `selector.name`
      match lookupMember (c_str name) obj with
      | some val => .ok [⟨val, node.location ++ [.key name]⟩]
      | none => .ok []
    | _ => .ok []
  | .index index =>
    match node.value with
    | .array obj =>
      match normalized_index obj.length index with
      | .error e => .error e
      | .ok index =>
        match obj[index]? with
        | some val => .ok [⟨val, node.location ++ [.index index]⟩]
        | none => .ok []
    | _ => .ok []
  | .wild =>
    match node.value with
    | .object obj => .ok (wildMembers node.location obj)
    | .array obj => .ok (wildElems node.location 0 obj)
    | _ => .ok []
  | .slice start stop step =>
    match node.value with
    | .array obj =>
      match slice_indicies start stop step obj.length with
      | .error e => .error e
      | .ok indicies => sliceNodes obj node.location indicies
    | _ => .ok []
  | .filter expression =>
    match node.value with
    | .object obj =>
      filterMembers
        (fun val =>
          match expression.eval ⟨ctx, val⟩ with
          | .error e => .error e
          | .ok rv => .ok (is_truthy rv))
        node.location obj
    | .array obj =>
      filterElems
        (fun val =>
          match expression.eval ⟨ctx, val⟩ with
          | .error e => .error e
          | .ok rv => .ok (is_truthy rv))
        node.location 0 obj
    | _ => .ok []
/-- The inner loop of `SegmentVisitor` over the selectors of a segment. -/
def applySelectors (ctx : QueryContext) (node : JSONPathNode) :
    List Selector → Except Error JSONPathNodeList
  | [] => .ok []
  | selector :: rest =>
    match selector.apply ctx node with
    | .error e => .error e
    | .ok out =>
      match applySelectors ctx node rest with
      | .error e => .error e
      | .ok more => .ok (out ++ more)
/-- The function `resolve_segment`: the class `SegmentVisitor` applied to a segment. -/
def resolve_segment (ctx : QueryContext) (nodes : JSONPathNodeList) :
    Segment → Except Error JSONPathNodeList
  | .child selectors => concatMapM (fun node => applySelectors ctx node selectors) nodes
  | .recursive selectors =>
    concatMapM
      (fun node =>
        concatMapM (fun descendant => applySelectors ctx descendant selectors) (descend node))
      nodes
/-- The loop of `query_` over the segments, starting from the node list `nodes`. -/
def resolveSegments (ctx : QueryContext) (nodes : JSONPathNodeList) :
    List Segment → Except Error JSONPathNodeList
  | [] => .ok nodes
  | segment :: rest =>
    match resolve_segment ctx nodes segment with
    | .error e => .error e
    | .ok nodes => resolveSegments ctx nodes rest
end

/-- The function `query_` on parsed segments: apply the JSONPath query represented by
`segments` to JSON-like data `obj`. It makes a query context whose root is `obj` and
bootstraps the node list with the root object and an empty location. -/
def query_ (segments : segments_t) (obj : Value) (functions : function_extension_map)
    (signatures : function_signature_map) (nothing : Value) :
    Except Error JSONPathNodeList :=
  resolveSegments ⟨obj, functions, signatures, nothing⟩ [⟨obj, []⟩] segments

/-! ## Notions the specification uses -/

/-- A selector a singular query may hold: a name selector or an index selector. -/
def Selector.isNameOrIndex : Selector → Bool
  | .name _ => true
  | .index _ => true
  | _ => false

/-- A segment of a singular query: a child segment holding exactly one selector, which
is a name or an index selector. -/
def Segment.isSingular : Segment → Bool
  | .child [selector] => selector.isNameOrIndex
  | _ => false

/-- One step from a value along a location component: a string key is member lookup in
an Object, an index is element lookup in an Array. -/
def followStep (v : Value) : PathElem → Option Value
  | .key k =>
    match v with
    | .object ms => lookupMember k ms
    | _ => none
  | .index i =>
    match v with
    | .array xs => xs[i]?
    | _ => none

/-- Follow a location from a value, component by component. -/
def follow (v : Value) : location_t → Option Value
  | [] => some v
  | c :: rest =>
    match followStep v c with
    | some w => follow w rest
    | none => none

/-- The values directly below a value: the members of an Object, the elements of an
Array. -/
def Value.children : Value → List Value
  | .array xs => xs
  | .object ms => ms.map Prod.snd
  | _ => []

/-- The values at depth `d` below a value. -/
def valuesAtDepth : Nat → Value → List Value
  | 0, v => [v]
  | d + 1, v => v.children.flatMap (valuesAtDepth d)

/-- No key occurs twice in a member list. -/
def distinctKeys : List (String × Value) → Bool
  | [] => true
  | (k, _) :: ms => (lookupMember k ms).isNone && distinctKeys ms

mutual
/-- Every dict of the document has pairwise distinct keys, as every Python dict has. -/
def Value.uniqueKeys : Value → Bool
  | .array xs => uniqueKeysElems xs
  | .object ms => distinctKeys ms && uniqueKeysMembers ms
  | _ => true
/-- All elements of a list have dicts with distinct keys. -/
def uniqueKeysElems : List Value → Bool
  | [] => true
  | x :: xs => x.uniqueKeys && uniqueKeysElems xs
/-- All member values of a dict have dicts with distinct keys. -/
def uniqueKeysMembers : List (String × Value) → Bool
  | [] => true
  | (_, v) :: ms => v.uniqueKeys && uniqueKeysMembers ms
end

/-- The outcome of a test that may fail, read as a condition: it holds when the test
succeeds with `true`. -/
def testHolds : Except Error Bool → Bool
  | .ok b => b
  | .error _ => false

/-- The filter expression `e`, evaluated with `current` as the current value and the
root of `ctx`, gives a truthy result. -/
def filterHolds (ctx : QueryContext) (e : Expression) (current : Value) : Bool :=
  match e.eval ⟨ctx, current⟩ with
  | .ok rv => is_truthy rv
  | .error _ => false

/-- The node `m` is a child of `node`: its location is the location of `node` extended by
one component, and that component leads from the value of `node` to the value of `m`. -/
def IsChildOf (node m : JSONPathNode) : Prop :=
  ∃ c, m.location = node.location ++ [c] ∧ followStep node.value c = some m.value

/-- The node `m` lies below (or is) `node`: its location extends the location of `node`
by a path that leads from the value of `node` to the value of `m`. -/
def IsBelow (node m : JSONPathNode) : Prop :=
  ∃ path, m.location = node.location ++ path ∧ follow node.value path = some m.value

/-- The resolved step of a slice as the specification gives it: `step`, or `1` when
absent. -/
def specSliceStep (step : Option Int) : Int := step.getD 1

/-- The resolved start of a slice as the specification gives it: `0` if absent and the
step is positive, `n - 1` if absent and the step is negative, `max (n + start) 0` if
negative, `min start (n - 1)` otherwise. -/
def specSliceStart (n : Nat) (start : Option Int) (step : Int) : Int :=
  match start with
  | none => if step > 0 then 0 else (n : Int) - 1
  | some s => if s < 0 then max ((n : Int) + s) 0 else min s ((n : Int) - 1)

/-- The resolved stop of a slice as the specification gives it: `n` if absent and the
step is positive, `-1` if absent and the step is negative, `max (n + stop) (-1)` if
negative, `min stop n` otherwise. -/
def specSliceStop (n : Nat) (stop : Option Int) (step : Int) : Int :=
  match stop with
  | none => if step > 0 then (n : Int) else -1
  | some s => if s < 0 then max ((n : Int) + s) (-1) else min s (n : Int)

/-- The indices `start, start + step, ...` taken while `i < stop` (positive step) or
`i > stop` (negative step). The progression is cut after `|stop - start|` terms, by
which point it has passed `stop` whatever the non-zero step is. -/
def progressionWhile (start stop step : Int) : List Int :=
  ((List.range (stop - start).natAbs).map (fun k : Nat => start + (k : Int) * step)).takeWhile
    (fun i => if step > 0 then decide (i < stop) else decide (i > stop))

/-- The index sequence the specification gives for a slice selector on an array of
length `n`: nothing for step `0`, otherwise the progression from the resolved start
while the resolved stop is not reached. -/
def specSliceIndices (n : Nat) (start stop step : Option Int) : List Int :=
  if specSliceStep step = 0 then []
  else
    progressionWhile (specSliceStart n start (specSliceStep step))
      (specSliceStop n stop (specSliceStep step)) (specSliceStep step)

/-- A query context without function extensions, for closed examples. -/
def plainContext (root : Value) : QueryContext :=
  ⟨root, fun _ => none, fun _ => none, .sentinel 0⟩

/-- Normalization of a slice bound in RFC 9535, section 2.3.4.2.2:
`x ≥ 0 ? x : n + x`. -/
def rfcNormalize (n : Nat) (x : Int) : Int := if x ≥ 0 then x else (n : Int) + x

/-- The indices RFC 9535, section 2.3.4.2.2, selects for a slice on an array of length
`n`: start and stop are defaulted (`0` and `n` for a positive step, `n - 1` and
`-n - 1` for a negative one) and normalized; for a positive step the indices run from
`lower = min (max start 0) n` while below `upper = min (max stop 0) n`; for a negative
step from `upper = min (max start (-1)) (n - 1)` while above
`lower = min (max stop (-1)) (n - 1)`; a zero step selects nothing. -/
def rfcSliceIndices (n : Nat) (start stop step : Option Int) : List Int :=
  let step : Int := step.getD 1
  if step > 0 then
    let lower := min (max (rfcNormalize n (start.getD 0)) 0) (n : Int)
    let upper := min (max (rfcNormalize n (stop.getD n)) 0) (n : Int)
    progressionWhile lower upper step
  else if step < 0 then
    let upper := min (max (rfcNormalize n (start.getD ((n : Int) - 1))) (-1)) ((n : Int) - 1)
    let lower := min (max (rfcNormalize n (stop.getD (-(n : Int) - 1))) (-1)) ((n : Int) - 1)
    progressionWhile upper lower step
  else []

/-- The value is a string. -/
def Value.isStr : Value → Bool
  | .str _ => true
  | _ => false

/-- The value is a number in the sense of JSON: an integer or a float, not a boolean. -/
def Value.isNumber : Value → Bool
  | .int _ => true
  | .float _ => true
  | _ => false

/-- The nodes an operation pushed, for an operation that did not throw. -/
def resultNodes {β : Type} : Except Error (List β) → List β
  | .ok out => out
  | .error _ => []

/-- The nodes directly below a node, in iteration order, each with its key or index
appended to the location: one per member of an Object, one per element of an Array. -/
def childNodes (node : JSONPathNode) : JSONPathNodeList :=
  match node.value with
  | .object ms => wildMembers node.location ms
  | .array xs => wildElems node.location 0 xs
  | _ => []

/-- The value is an Object whose members `a` and `b` are both present and equal in the
sense of `==`. -/
def memberEqual (a b : String) : Value → Bool
  | .object ms =>
    match lookupMember a ms, lookupMember b ms with
    | some x, some y => x.equal y
    | _, _ => false
  | _ => false

/-- The pair of evaluated operands is one `less_than` orders: two strings, or two numbers
(integer or float in any combination). -/
def orderedPair : expression_rv → expression_rv → Bool
  | .object (.value v), .object (.value w) =>
    (v.isStr && w.isStr) || (v.isNumber && w.isNumber)
  | _, _ => false

/-- A context with one function extension, `first`, declared to take one value and to
return a value, which returns its first argument; the current value is `current`. -/
def firstArgContext (current : Value) : FilterContext :=
  ⟨⟨.null,
      fun name => if name = "first" then some (fun args => .ok (args.headD (.value .null)))
        else none,
      fun name => if name = "first" then some ⟨[.value], .value⟩ else none,
      .sentinel 0⟩,
    current⟩

/-- A selector that is neither a filter nor a wildcard selector. -/
def Selector.notFilterNorWild : Selector → Bool
  | .filter _ => false
  | .wild => false
  | _ => true

/-- A segment that is not a descendant segment and holds no filter and no wildcard
selector. -/
def Segment.noDescendantFilterWild : Segment → Bool
  | .child selectors => selectors.all Selector.notFilterNorWild
  | .recursive _ => false

/-- A segment that is not a descendant segment and holds at most one selector, which is
a name or an index selector (so neither a filter, nor a wildcard, nor a slice). -/
def Segment.atMostOneNameOrIndex : Segment → Bool
  | .child [] => true
  | .child [selector] => selector.isNameOrIndex
  | _ => false

/-- A selector that looks up the very name it appends to the location: a name selector
whose name holds no U+0000 (`c_str` returns the whole name), or any other selector. -/
def Selector.nameIsCStr : Selector → Bool
  | .name k => decide (c_str k = k)
  | _ => true

/-- A segment all of whose name selectors hold no U+0000. -/
def Segment.namesAreCStr : Segment → Bool
  | .child selectors => selectors.all Selector.nameIsCStr
  | .recursive selectors => selectors.all Selector.nameIsCStr

/-- The members named `name` found anywhere in a document, in document pre-order: the
elements of the descendant list of the root whose location ends with the key `name`. -/
def membersInPreorder (name : String) (root : Value) : JSONPathNodeList :=
  (descend ⟨root, []⟩).filter (fun d => d.location.getLast? == some (PathElem.key name))

/-! # Properties of the evaluator -/

/-! ## Truthiness and equality of expression results -/

/-- C9: `is_truthy` holds for a node list exactly when it is non-empty and for an object
exactly when it is not the boolean `false`; a sentinel object, `null`, the integer `0`
and the empty string are truthy; a logical-not expression evaluates to the negated
truthiness of its operand's result (and fails exactly when the operand fails). -/
theorem is_truthy_spec :
    (∀ ns : JSONPathNodeList, is_truthy (.nodes ns) = true ↔ ns ≠ []) ∧
    (∀ o : PyObject, is_truthy (.object o) = true ↔ o ≠ .value (.bool false)) ∧
    (∀ k : Nat, is_truthy (.object (.value (.sentinel k))) = true) ∧
    is_truthy (.object (.value .null)) = true ∧
    is_truthy (.object (.value (.int 0))) = true ∧
    is_truthy (.object (.value (.str ""))) = true ∧
    (∀ (ctx : FilterContext) (e : Expression),
      (Expression.logicalNot e).eval ctx =
        (e.eval ctx).map (fun rv => .object (.value (.bool (!is_truthy rv))))) := by
  refine ⟨?_, ?_, ?_, rfl, rfl, rfl, ?_⟩
  · intro ns
    cases ns <;> simp [is_truthy]
  · intro o
    cases o with
    | nodes ns => simp [is_truthy]
    | value v => cases v <;> simp [is_truthy]
  · intro k
    rfl
  · intro ctx e
    rw [Expression.eval]
    cases e.eval ctx <;> rfl

/-- A sentinel object is equal, in the sense of Python `==`, only to itself. -/
theorem Value.equal_sentinel (v : Value) (k : Nat) :
    v.equal (.sentinel k) = true ↔ v = .sentinel k := by
  cases v <;> simp [Value.equal, Value.numeric?]

/-- C10: `==` on evaluated operands. An empty node list equals an object exactly when
that object equals `nothing` (for a sentinel `nothing`: when it is that sentinel); a
single-element node list equals an object exactly when the node's value equals it; a
node list of two or more elements equals no object; two node lists are equal exactly
when both are empty or both hold one node and the two values are equal. -/
theorem equals_spec (nothing : Value) :
    (∀ l r, compare nothing l .eq r = equals nothing l r) ∧
    (∀ s : PyObject,
      equals nothing (.nodes []) (.object s) = s.equal (.value nothing) ∧
      equals nothing (.object s) (.nodes []) = s.equal (.value nothing)) ∧
    (∀ (k : Nat) (s : PyObject),
      equals (.sentinel k) (.nodes []) (.object s) = true ↔ s = .value (.sentinel k)) ∧
    (∀ (n : JSONPathNode) (s : PyObject),
      equals nothing (.nodes [n]) (.object s) = (PyObject.value n.value).equal s ∧
      equals nothing (.object s) (.nodes [n]) = (PyObject.value n.value).equal s) ∧
    (∀ (a b : JSONPathNode) (rest : JSONPathNodeList) (s : PyObject),
      equals nothing (.nodes (a :: b :: rest)) (.object s) = false ∧
      equals nothing (.object s) (.nodes (a :: b :: rest)) = false) ∧
    (∀ xs ys : JSONPathNodeList,
      equals nothing (.nodes xs) (.nodes ys) = true ↔
        (xs = [] ∧ ys = []) ∨
        (∃ x y, xs = [x] ∧ ys = [y] ∧ x.value.equal y.value = true)) := by
  refine ⟨fun _ _ => rfl, fun s => ⟨rfl, rfl⟩, ?_, fun n s => ⟨rfl, rfl⟩,
    fun a b rest s => ⟨rfl, rfl⟩, ?_⟩
  · intro k s
    cases s with
    | nodes ns => simp [equals, node_list_equals, PyObject.equal]
    | value v => simp [equals, node_list_equals, PyObject.equal, Value.equal_sentinel]
  · intro xs ys
    match xs, ys with
    | [], [] => simp [equals, node_list_equals]
    | [], _ :: _ => simp [equals, node_list_equals]
    | [x], [] => simp [equals, node_list_equals]
    | [x], [y] => simp [equals, node_list_equals]
    | [x], _ :: _ :: _ => simp [equals, node_list_equals]
    | _ :: _ :: _, [] => simp [equals, node_list_equals]
    | _ :: _ :: _, [_] => simp [equals, node_list_equals]
    | _ :: _ :: _, _ :: _ :: _ => simp [equals, node_list_equals]

/-! ## Index selector -/

/-- Conversion to `std::int64_t` leaves a value that fits unchanged. -/
theorem toInt64_of_fits (x : Int) (h1 : INT64_MIN ≤ x) (h2 : x ≤ INT64_MAX) :
    toInt64 x = x := by
  unfold toInt64
  unfold INT64_MIN at h1
  unfold INT64_MAX at h2
  omega

/-- A non-negative index is returned as it is. -/
theorem normalized_index_nonneg (length : Nat) (index : Int) (h : 0 ≤ index) :
    normalized_index length index = .ok index.toNat := by
  simp [normalized_index, h]

/-- A negative 64-bit index on a list of at most `INT64_MAX` elements is counted from
the end, and clamped to `length` when it reaches before the first element. -/
theorem normalized_index_neg (length : Nat) (index : Int) (h : index < 0)
    (hn : (length : Int) ≤ INT64_MAX) (hi : INT64_MIN ≤ index) :
    normalized_index length index =
      .ok (if 0 ≤ (length : Int) + index then ((length : Int) + index).toNat else length) := by
  have hfit : toInt64 ((length : Int) + index) = (length : Int) + index := by
    apply toInt64_of_fits
    · unfold INT64_MIN at *; omega
    · unfold INT64_MAX at *; omega
  have h1 : ¬ (index ≥ 0) := by omega
  have h2 : ¬ ((length : Int) > INT64_MAX) := by omega
  simp only [normalized_index, h1, h2, if_false, hfit, ge_iff_le]

/-- C3: on an array of length `n ≤ 2^63-1`, an index selector `i` (a 64-bit integer)
yields exactly element `i` located at `i` when `0 ≤ i < n`, exactly element `n+i`
located at the non-negative index `n+i` when `-n ≤ i < 0`, and no node, without error,
for every other `i`. -/
theorem index_selector_spec (ctx : QueryContext) (xs : List Value) (loc : location_t)
    (i : Int) (hn : (xs.length : Int) ≤ INT64_MAX) (hi : INT64_MIN ≤ i) :
    (0 ≤ i ∧ i < xs.length →
      ∃ v, xs[i.toNat]? = some v ∧
        Selector.apply ctx ⟨.array xs, loc⟩ (.index i) = .ok [⟨v, loc ++ [.index i.toNat]⟩]) ∧
    (-(xs.length : Int) ≤ i ∧ i < 0 →
      ∃ v, xs[((xs.length : Int) + i).toNat]? = some v ∧
        Selector.apply ctx ⟨.array xs, loc⟩ (.index i) =
          .ok [⟨v, loc ++ [.index ((xs.length : Int) + i).toNat]⟩]) ∧
    (¬ (-(xs.length : Int) ≤ i ∧ i < xs.length) →
      Selector.apply ctx ⟨.array xs, loc⟩ (.index i) = .ok []) := by
  refine ⟨?_, ?_, ?_⟩
  · rintro ⟨h0, h1⟩
    have hlt : i.toNat < xs.length := by omega
    refine ⟨xs[i.toNat], List.getElem?_eq_getElem hlt, ?_⟩
    simp [Selector.apply, normalized_index_nonneg _ _ h0, List.getElem?_eq_getElem hlt]
  · rintro ⟨h0, h1⟩
    have hlt : ((xs.length : Int) + i).toNat < xs.length := by omega
    have hpos : 0 ≤ (xs.length : Int) + i := by omega
    refine ⟨xs[((xs.length : Int) + i).toNat], List.getElem?_eq_getElem hlt, ?_⟩
    simp [Selector.apply, normalized_index_neg _ _ h1 hn hi, hpos,
      List.getElem?_eq_getElem hlt]
  · intro h
    by_cases h0 : 0 ≤ i
    · have hge : xs.length ≤ i.toNat := by omega
      simp [Selector.apply, normalized_index_nonneg _ _ h0, List.getElem?_eq_none hge]
    · have h1 : i < 0 := by omega
      have hneg : ¬ (0 ≤ (xs.length : Int) + i) := by omega
      simp [Selector.apply, normalized_index_neg _ _ h1 hn hi, hneg]

/-- Witness for C3: index `-1` on `[10, 20, 30]` is the last element, located at `2`. -/
theorem index_selector_spec_witness :
    Selector.apply ⟨.null, fun _ => none, fun _ => none, .sentinel 0⟩
      ⟨.array [.int 10, .int 20, .int 30], []⟩ (.index (-1)) =
        .ok [⟨.int 30, [.index 2]⟩] := by
  obtain ⟨v, hv, h⟩ :=
    (index_selector_spec ⟨.null, fun _ => none, fun _ => none, .sentinel 0⟩
      [.int 10, .int 20, .int 30] [] (-1) (by decide) (by decide)).2.1 (by decide)
  have hv30 : v = .int 30 := by
    have : ([Value.int 10, .int 20, .int 30] : List Value)[2]? = some v := hv
    simpa using this.symm
  rw [h, hv30]
  rfl

/-! ## Singular queries -/

/-- Running over the empty node list gives the empty node list. -/
theorem concatMapM_nil {α β : Type} (f : α → Except Error (List β)) :
    concatMapM f [] = .ok [] := rfl

/-- Running over a single element gives what `f` gives for it. -/
theorem concatMapM_singleton {α β : Type} (f : α → Except Error (List β)) (a : α) :
    concatMapM f [a] = f a := by
  simp only [concatMapM]
  cases f a <;> simp

/-- A name or index selector yields at most one node; it can only fail with the
`IndexError` of `normalized_index`. -/
theorem Selector.apply_nameOrIndex (ctx : QueryContext) (node : JSONPathNode)
    (selector : Selector) (h : selector.isNameOrIndex = true) :
    (∃ out, selector.apply ctx node = .ok out ∧ out.length ≤ 1) ∨
      selector.apply ctx node = .error .indexError := by
  cases selector with
  | name name =>
    left
    rw [Selector.apply]
    split
    · split
      · exact ⟨_, rfl, by simp⟩
      · exact ⟨_, rfl, by simp⟩
    · exact ⟨_, rfl, by simp⟩
  | index index =>
    rw [Selector.apply]
    split
    · rename_i obj _
      by_cases h0 : index ≥ 0
      · left
        simp only [normalized_index, h0, if_true]
        split
        · exact ⟨_, rfl, by simp⟩
        · exact ⟨_, rfl, by simp⟩
      · by_cases h1 : (obj.length : Int) > INT64_MAX
        · right
          simp [normalized_index, h0, h1]
        · left
          simp only [normalized_index, h0, h1, if_false]
          split
          · exact ⟨_, rfl, by simp⟩
          · exact ⟨_, rfl, by simp⟩
    · left
      exact ⟨_, rfl, by simp⟩
  | wild => simp [Selector.isNameOrIndex] at h
  | slice _ _ _ => simp [Selector.isNameOrIndex] at h
  | filter _ => simp [Selector.isNameOrIndex] at h

/-- A singular segment maps a node list of at most one node to a node list of at most
one node, unless `normalized_index` throws. -/
theorem resolve_segment_singular (ctx : QueryContext) (nodes : JSONPathNodeList)
    (segment : Segment) (h : segment.isSingular = true) (hn : nodes.length ≤ 1) :
    (∃ out, resolve_segment ctx nodes segment = .ok out ∧ out.length ≤ 1) ∨
      resolve_segment ctx nodes segment = .error .indexError := by
  match segment, h with
  | .child [selector], h =>
    have hs : selector.isNameOrIndex = true := h
    match nodes, hn with
    | [], _ =>
      left
      exact ⟨[], rfl, by simp⟩
    | [node], _ =>
      rw [resolve_segment, concatMapM_singleton]
      have happ : applySelectors ctx node [selector] =
          (match selector.apply ctx node with
            | .error e => .error e
            | .ok out => .ok (out ++ [])) := by
        simp only [applySelectors]
      rw [happ]
      rcases Selector.apply_nameOrIndex ctx node selector hs with ⟨out, ho, hl⟩ | he
      · left
        rw [ho]
        exact ⟨out ++ [], rfl, by simpa using hl⟩
      · right
        rw [he]

/-- The loop over singular segments keeps the node list at no more than one node. -/
theorem resolveSegments_singular (ctx : QueryContext) (segments : List Segment)
    (h : ∀ segment ∈ segments, segment.isSingular = true) :
    ∀ nodes : JSONPathNodeList, nodes.length ≤ 1 →
      (∃ out, resolveSegments ctx nodes segments = .ok out ∧ out.length ≤ 1) ∨
        resolveSegments ctx nodes segments = .error .indexError := by
  induction segments with
  | nil =>
    intro nodes hn
    left
    exact ⟨nodes, rfl, hn⟩
  | cons segment rest ih =>
    intro nodes hn
    rw [resolveSegments]
    rcases resolve_segment_singular ctx nodes segment
        (h segment (List.mem_cons_self _ _)) hn with ⟨out, ho, hl⟩ | he
    · rw [ho]
      exact ih (fun s hs => h s (List.mem_cons_of_mem _ hs)) out hl
    · right
      rw [he]

/-- C1: for every document and every query whose segments are all child segments
holding exactly one name or index selector, `query_` returns at most one node; the only
way it does not return is the `IndexError` that `normalized_index` throws for an array
longer than `INT64_MAX`. -/
theorem singular_query_at_most_one (segments : segments_t) (obj : Value)
    (functions : function_extension_map) (signatures : function_signature_map)
    (nothing : Value) (h : ∀ segment ∈ segments, segment.isSingular = true) :
    (∃ out, query_ segments obj functions signatures nothing = .ok out ∧ out.length ≤ 1) ∨
      query_ segments obj functions signatures nothing = .error .indexError :=
  resolveSegments_singular _ segments h _ (by simp)

/-- Witness for C1: `$.a[-1]` on `{"a": [1, 2]}` returns one node. -/
theorem singular_query_at_most_one_witness :
    (∀ segment ∈ [Segment.child [.name "a"], Segment.child [.index (-1)]],
      segment.isSingular = true) ∧
    ((∃ out, query_ [.child [.name "a"], .child [.index (-1)]]
        (.object [("a", .array [.int 1, .int 2])]) (fun _ => none) (fun _ => none)
        (.sentinel 0) = .ok out ∧ out.length ≤ 1) ∨
      query_ [.child [.name "a"], .child [.index (-1)]]
        (.object [("a", .array [.int 1, .int 2])]) (fun _ => none) (fun _ => none)
        (.sentinel 0) = .error .indexError) :=
  ⟨by decide,
    singular_query_at_most_one _ _ _ _ _ (by decide)⟩

/-! ## Locations lead to the values they name -/

/-- Following a concatenated location is following its two parts in turn. -/
theorem follow_append (v : Value) (p q : location_t) :
    follow v (p ++ q) = (follow v p).bind (fun w => follow w q) := by
  induction p generalizing v with
  | nil => rfl
  | cons c rest ih =>
    simp only [List.cons_append, follow]
    cases followStep v c with
    | none => rfl
    | some w => exact ih w

/-- A member found by lookup belongs to a dict whose member values are well formed. -/
theorem lookupMember_uniqueKeys (k : String) (w : Value) :
    ∀ ms : List (String × Value), lookupMember k ms = some w →
      uniqueKeysMembers ms = true → w.uniqueKeys = true := by
  intro ms
  induction ms with
  | nil => intro h; simp [lookupMember] at h
  | cons m rest ih =>
    obtain ⟨k', v⟩ := m
    intro h hu
    simp only [uniqueKeysMembers, Bool.and_eq_true] at hu
    simp only [lookupMember] at h
    split at h
    · cases h
      exact hu.1
    · exact ih h hu.2

/-- An element of a list of well-formed values is well formed. -/
theorem getElem?_uniqueKeys (w : Value) :
    ∀ (xs : List Value) (i : Nat), xs[i]? = some w →
      uniqueKeysElems xs = true → w.uniqueKeys = true := by
  intro xs
  induction xs with
  | nil => intro i h; simp at h
  | cons x rest ih =>
    intro i h hu
    simp only [uniqueKeysElems, Bool.and_eq_true] at hu
    cases i with
    | zero =>
      simp at h
      cases h
      exact hu.1
    | succ j =>
      simp at h
      exact ih j h hu.2

/-- One step down from a well-formed value reaches a well-formed value. -/
theorem followStep_uniqueKeys (v w : Value) (c : PathElem) (h : followStep v c = some w)
    (hu : v.uniqueKeys = true) : w.uniqueKeys = true := by
  cases c with
  | key k =>
    cases v <;> simp [followStep] at h
    rename_i ms
    simp only [Value.uniqueKeys, Bool.and_eq_true] at hu
    exact lookupMember_uniqueKeys k w ms h hu.2
  | index i =>
    cases v <;> simp [followStep] at h
    rename_i xs
    simp only [Value.uniqueKeys] at hu
    exact getElem?_uniqueKeys w xs i h hu

/-- Every value reached by following a location from a well-formed value is well
formed. -/
theorem follow_uniqueKeys (loc : location_t) :
    ∀ (v w : Value), follow v loc = some w → v.uniqueKeys = true → w.uniqueKeys = true := by
  induction loc with
  | nil =>
    intro v w h hu
    simp only [follow, Option.some.injEq] at h
    exact h ▸ hu
  | cons c rest ih =>
    intro v w h hu
    simp only [follow] at h
    split at h
    · rename_i u hstep
      exact ih u w h (followStep_uniqueKeys v u c hstep hu)
    · cases h

/-- A value reached by one step is one of the children. -/
theorem followStep_mem_children (v w : Value) (c : PathElem) (h : followStep v c = some w) :
    w ∈ v.children := by
  cases c with
  | key k =>
    cases v <;> simp [followStep] at h
    rename_i ms
    simp only [Value.children, List.mem_map]
    induction ms with
    | nil => simp [lookupMember] at h
    | cons m rest ih =>
      obtain ⟨k', u⟩ := m
      simp only [lookupMember] at h
      split at h
      · cases h
        exact ⟨(k', w), List.mem_cons_self _ _, rfl⟩
      · obtain ⟨a, ha, hw⟩ := ih h
        exact ⟨a, List.mem_cons_of_mem _ ha, hw⟩
  | index i =>
    cases v <;> simp [followStep] at h
    rename_i xs
    exact List.getElem?_mem h

/-- A value reached by following a location lies at the depth given by the location's
length. -/
theorem follow_mem_valuesAtDepth (loc : location_t) :
    ∀ (v w : Value), follow v loc = some w → w ∈ valuesAtDepth loc.length v := by
  induction loc with
  | nil =>
    intro v w h
    simp only [follow, Option.some.injEq] at h
    simp [valuesAtDepth, h]
  | cons c rest ih =>
    intro v w h
    simp only [follow] at h
    split at h
    · rename_i u hstep
      simp only [List.length_cons, valuesAtDepth, List.mem_flatMap]
      exact ⟨u, followStep_mem_children v u c hstep, ih u w h⟩
    · cases h

/-! ## The loops over the children of a node -/

/-- The wildcard loop over a dict emits one node per member, in order, with the member's
key appended to the location. -/
theorem wildMembers_eq_map (loc : location_t) (ms : List (String × Value)) :
    wildMembers loc ms = ms.map (fun kv => ⟨kv.2, loc ++ [.key kv.1]⟩) := by
  induction ms with
  | nil => rfl
  | cons m rest ih =>
    obtain ⟨k, v⟩ := m
    simp [wildMembers, ih]

/-- The wildcard loop over a list emits one node per element, in order, with the
element's position (counted from `index`) appended to the location. -/
theorem wildElems_eq_map (loc : location_t) (xs : List Value) :
    ∀ index : Nat, wildElems loc index xs =
      (xs.enumFrom index).map (fun p => ⟨p.2, loc ++ [.index p.1]⟩) := by
  induction xs with
  | nil => intro index; rfl
  | cons x rest ih =>
    intro index
    simp [wildElems, List.enumFrom, ih]

/-- When the filter loop over a dict succeeds, every test succeeded and the output is
the wildcard output restricted to the members whose test gave `true`. -/
theorem filterMembers_ok (test : Value → Except Error Bool) (loc : location_t) :
    ∀ (ms : List (String × Value)) (out : JSONPathNodeList),
      filterMembers test loc ms = .ok out →
        out = (wildMembers loc ms).filter (fun c => testHolds (test c.value)) ∧
        ∀ c ∈ wildMembers loc ms, ∃ b, test c.value = .ok b := by
  intro ms
  induction ms with
  | nil =>
    intro out h
    simp only [filterMembers, Except.ok.injEq] at h
    subst h
    simp [wildMembers]
  | cons m rest ih =>
    obtain ⟨k, v⟩ := m
    intro out h
    simp only [filterMembers] at h
    cases ht : test v with
    | error e => simp [ht] at h
    | ok b =>
      simp only [ht] at h
      cases hr : filterMembers test loc rest with
      | error e => simp [hr] at h
      | ok more =>
        simp only [hr, Except.ok.injEq] at h
        obtain ⟨hmore, hall⟩ := ih more hr
        constructor
        · have hv : testHolds (test v) = b := by rw [ht]; rfl
          subst h
          cases b <;> simp [wildMembers, List.filter_cons, hv, ← hmore]
        · intro c hc
          simp only [wildMembers, List.mem_cons] at hc
          rcases hc with rfl | hc
          · exact ⟨b, ht⟩
          · exact hall c hc

/-- When every test succeeds, the filter loop over a dict succeeds. -/
theorem filterMembers_of_ok (test : Value → Except Error Bool) (loc : location_t) :
    ∀ ms : List (String × Value),
      (∀ c ∈ wildMembers loc ms, ∃ b, test c.value = .ok b) →
        filterMembers test loc ms =
          .ok ((wildMembers loc ms).filter (fun c => testHolds (test c.value))) := by
  intro ms
  induction ms with
  | nil => intro _; rfl
  | cons m rest ih =>
    obtain ⟨k, v⟩ := m
    intro hall
    obtain ⟨b, hb⟩ := hall ⟨v, loc ++ [.key k]⟩ (by simp [wildMembers])
    have hrest := ih (fun c hc => hall c (by simp [wildMembers, hc]))
    have hb' : test v = .ok b := hb
    simp only [filterMembers, hb', hrest, wildMembers, List.filter_cons]
    cases b <;> rfl

/-- When the filter loop over a list succeeds, every test succeeded and the output is
the wildcard output restricted to the elements whose test gave `true`. -/
theorem filterElems_ok (test : Value → Except Error Bool) (loc : location_t) :
    ∀ (xs : List Value) (index : Nat) (out : JSONPathNodeList),
      filterElems test loc index xs = .ok out →
        out = (wildElems loc index xs).filter (fun c => testHolds (test c.value)) ∧
        ∀ c ∈ wildElems loc index xs, ∃ b, test c.value = .ok b := by
  intro xs
  induction xs with
  | nil =>
    intro index out h
    simp only [filterElems, Except.ok.injEq] at h
    subst h
    simp [wildElems]
  | cons v rest ih =>
    intro index out h
    simp only [filterElems] at h
    cases ht : test v with
    | error e => simp [ht] at h
    | ok b =>
      simp only [ht] at h
      cases hr : filterElems test loc (index + 1) rest with
      | error e => simp [hr] at h
      | ok more =>
        simp only [hr, Except.ok.injEq] at h
        obtain ⟨hmore, hall⟩ := ih (index + 1) more hr
        constructor
        · have hv : testHolds (test v) = b := by rw [ht]; rfl
          subst h
          cases b <;> simp [wildElems, List.filter_cons, hv, ← hmore]
        · intro c hc
          simp only [wildElems, List.mem_cons] at hc
          rcases hc with rfl | hc
          · exact ⟨b, ht⟩
          · exact hall c hc

/-- When every test succeeds, the filter loop over a list succeeds. -/
theorem filterElems_of_ok (test : Value → Except Error Bool) (loc : location_t) :
    ∀ (xs : List Value) (index : Nat),
      (∀ c ∈ wildElems loc index xs, ∃ b, test c.value = .ok b) →
        filterElems test loc index xs =
          .ok ((wildElems loc index xs).filter (fun c => testHolds (test c.value))) := by
  intro xs
  induction xs with
  | nil => intro _ _; rfl
  | cons v rest ih =>
    intro index hall
    obtain ⟨b, hb⟩ := hall ⟨v, loc ++ [.index index]⟩ (by simp [wildElems])
    have hrest := ih (index + 1) (fun c hc => hall c (by simp [wildElems, hc]))
    have hb' : test v = .ok b := hb
    simp only [filterElems, hb', hrest, wildElems, List.filter_cons]
    cases b <;> rfl

/-! ## Filter selector -/

/-- The test the filter selector runs on a child holds exactly when the filter expression
is truthy for that child. -/
theorem testHolds_filter (ctx : QueryContext) (e : Expression) (val : Value) :
    testHolds
      (match e.eval ⟨ctx, val⟩ with
        | .error err => .error err
        | .ok rv => .ok (is_truthy rv)) = filterHolds ctx e val := by
  unfold filterHolds
  cases e.eval ⟨ctx, val⟩ <;> rfl

/-- The test the filter selector runs on a child succeeds exactly when the evaluation of
the filter expression does. -/
theorem test_filter_ok_iff (ctx : QueryContext) (e : Expression) (val : Value) :
    (∃ b, (match e.eval ⟨ctx, val⟩ with
        | .error err => (.error err : Except Error Bool)
        | .ok rv => .ok (is_truthy rv)) = .ok b) ↔ ∃ rv, e.eval ⟨ctx, val⟩ = .ok rv := by
  cases e.eval ⟨ctx, val⟩ <;> simp

/-- C8: on any node, with `w` the wildcard selector's output (one node per Object member
in insertion order with its key appended, one node per Array element in index order
with its index appended), the filter selector, when it returns, returns exactly the
nodes of `w` for which the filter expression evaluated with the child's value as current
value is truthy, in the order of `w`, hence a sublist of `w`; and it returns whenever
the expression evaluates without error on every child. -/
theorem filter_selector_spec (ctx : QueryContext) (node : JSONPathNode) (e : Expression) :
    ∃ w, Selector.apply ctx node .wild = .ok w ∧
      w = (match node.value with
        | .object ms => ms.map (fun kv => ⟨kv.2, node.location ++ [.key kv.1]⟩)
        | .array xs => xs.enum.map (fun p => ⟨p.2, node.location ++ [.index p.1]⟩)
        | _ => []) ∧
      (∀ out, Selector.apply ctx node (.filter e) = .ok out →
        out = w.filter (fun c => filterHolds ctx e c.value) ∧ out.Sublist w ∧
        ∀ c ∈ w, ∃ rv, e.eval ⟨ctx, c.value⟩ = .ok rv) ∧
      ((∀ c ∈ w, ∃ rv, e.eval ⟨ctx, c.value⟩ = .ok rv) →
        Selector.apply ctx node (.filter e) =
          .ok (w.filter (fun c => filterHolds ctx e c.value))) := by
  obtain ⟨value, loc⟩ := node
  have hfun : (fun c : JSONPathNode => testHolds
      (match e.eval ⟨ctx, c.value⟩ with
        | .error err => .error err
        | .ok rv => .ok (is_truthy rv))) = fun c => filterHolds ctx e c.value := by
    funext c
    exact testHolds_filter ctx e c.value
  cases value with
  | object ms =>
    refine ⟨wildMembers loc ms, by simp [Selector.apply], wildMembers_eq_map loc ms, ?_, ?_⟩
    · intro out h
      simp only [Selector.apply] at h
      obtain ⟨ho, hall⟩ := filterMembers_ok _ loc ms out h
      rw [hfun] at ho
      refine ⟨ho, ?_, fun c hc => (test_filter_ok_iff ctx e c.value).1 (hall c hc)⟩
      rw [ho]
      exact List.filter_sublist _
    · intro hall
      simp only [Selector.apply]
      rw [filterMembers_of_ok _ loc ms
        (fun c hc => (test_filter_ok_iff ctx e c.value).2 (hall c hc)), hfun]
  | array xs =>
    refine ⟨wildElems loc 0 xs, by simp [Selector.apply], wildElems_eq_map loc xs 0, ?_, ?_⟩
    · intro out h
      simp only [Selector.apply] at h
      obtain ⟨ho, hall⟩ := filterElems_ok _ loc xs 0 out h
      rw [hfun] at ho
      refine ⟨ho, ?_, fun c hc => (test_filter_ok_iff ctx e c.value).1 (hall c hc)⟩
      rw [ho]
      exact List.filter_sublist _
    · intro hall
      simp only [Selector.apply]
      rw [filterElems_of_ok _ loc xs 0
        (fun c hc => (test_filter_ok_iff ctx e c.value).2 (hall c hc)), hfun]
  | null => exact ⟨[], by simp [Selector.apply], rfl, by simp [Selector.apply], by simp [Selector.apply]⟩
  | bool b => exact ⟨[], by simp [Selector.apply], rfl, by simp [Selector.apply], by simp [Selector.apply]⟩
  | int i => exact ⟨[], by simp [Selector.apply], rfl, by simp [Selector.apply], by simp [Selector.apply]⟩
  | float q => exact ⟨[], by simp [Selector.apply], rfl, by simp [Selector.apply], by simp [Selector.apply]⟩
  | str s => exact ⟨[], by simp [Selector.apply], rfl, by simp [Selector.apply], by simp [Selector.apply]⟩
  | sentinel k => exact ⟨[], by simp [Selector.apply], rfl, by simp [Selector.apply], by simp [Selector.apply]⟩

/-- Witness for C8: `[?@ == 1]` on `[1, 2]` keeps the first element, located at `0`. -/
theorem filter_selector_spec_witness :
    Selector.apply ⟨.null, fun _ => none, fun _ => none, .sentinel 0⟩
      ⟨.array [.int 1, .int 2], []⟩
      (.filter (.binary (.relativeQuery []) .eq (.integerLiteral 1))) =
        .ok [⟨.int 1, [.index 0]⟩] := by
  obtain ⟨w, _, hshape, _, hall⟩ :=
    filter_selector_spec ⟨.null, fun _ => none, fun _ => none, .sentinel 0⟩
      ⟨.array [.int 1, .int 2], []⟩ (.binary (.relativeQuery []) .eq (.integerLiteral 1))
  subst hshape
  rw [hall (by
    intro c hc
    simp only [List.enum, List.enumFrom, List.map_cons, List.map_nil, List.mem_cons,
      List.mem_singleton, List.not_mem_nil, or_false] at hc
    rcases hc with rfl | rfl <;> exact ⟨_, rfl⟩)]
  rfl

/-- In a dict with distinct keys, every node of the wildcard loop is found again by
looking up its key. -/
theorem wildMembers_lookup (loc : location_t) :
    ∀ ms : List (String × Value), distinctKeys ms = true →
      ∀ m ∈ wildMembers loc ms,
        ∃ k, m.location = loc ++ [.key k] ∧ lookupMember k ms = some m.value := by
  intro ms
  induction ms with
  | nil => intro _ m hm; simp [wildMembers] at hm
  | cons kv rest ih =>
    obtain ⟨k, v⟩ := kv
    intro hd m hm
    simp only [distinctKeys, Bool.and_eq_true, Option.isNone_iff_eq_none] at hd
    simp only [wildMembers, List.mem_cons] at hm
    rcases hm with rfl | hm
    · exact ⟨k, rfl, by simp [lookupMember]⟩
    · obtain ⟨k', hloc, hlook⟩ := ih hd.2 m hm
      refine ⟨k', hloc, ?_⟩
      simp only [lookupMember]
      split
      · rename_i heq
        rw [heq, hlook] at hd
        cases hd.1
      · exact hlook

/-- Every node of the wildcard loop over a list is the element at the position its
location names, counted from `index`. -/
theorem wildElems_getElem (loc : location_t) :
    ∀ (xs : List Value) (index : Nat), ∀ m ∈ wildElems loc index xs,
      ∃ j, m.location = loc ++ [.index (index + j)] ∧ xs[j]? = some m.value := by
  intro xs
  induction xs with
  | nil => intro _ m hm; simp [wildElems] at hm
  | cons x rest ih =>
    intro index m hm
    simp only [wildElems, List.mem_cons] at hm
    rcases hm with rfl | hm
    · exact ⟨0, rfl, by simp⟩
    · obtain ⟨j, hloc, hget⟩ := ih (index + 1) m hm
      refine ⟨j + 1, ?_, by simpa using hget⟩
      rw [hloc]
      congr 3
      omega

/-- Every node of the slice loop is the element at the index its location names. -/
theorem sliceNodes_getElem (xs : List Value) (loc : location_t) :
    ∀ (indicies : List Int) (out : JSONPathNodeList),
      sliceNodes xs loc indicies = .ok out →
        ∀ m ∈ out, ∃ j, m.location = loc ++ [.index j] ∧ xs[j]? = some m.value := by
  intro indicies
  induction indicies with
  | nil =>
    intro out h m hm
    simp only [sliceNodes, Except.ok.injEq] at h
    subst h
    cases hm
  | cons i rest ih =>
    intro out h m hm
    simp only [sliceNodes] at h
    split at h
    · rename_i h0
      split at h
      · cases h
      · rename_i val hval
        rw [normalized_index_nonneg _ _ h0] at h
        simp only at h
        cases hr : sliceNodes xs loc rest with
        | error e => simp [hr] at h
        | ok more =>
          simp only [hr, Except.ok.injEq] at h
          subst h
          simp only [List.mem_cons] at hm
          rcases hm with rfl | hm
          · exact ⟨i.toNat, rfl, hval⟩
          · exact ih more hr m hm
    · cases h

/-- Every node a selector pushes is a child of the node it is applied to, provided the
dicts of the document have distinct keys and the name of a name selector holds no
U+0000. -/
theorem Selector.apply_isChildOf (ctx : QueryContext) (node : JSONPathNode)
    (selector : Selector) (hu : node.value.uniqueKeys = true)
    (hname : selector.nameIsCStr = true) (out : JSONPathNodeList)
    (h : selector.apply ctx node = .ok out) : ∀ m ∈ out, IsChildOf node m := by
  obtain ⟨value, loc⟩ := node
  intro m hm
  cases selector with
  | name name =>
    have hc : c_str name = name := by simpa [Selector.nameIsCStr] using hname
    cases value <;> simp only [Selector.apply, Except.ok.injEq] at h <;>
      try (subst h; cases hm)
    rename_i ms
    rw [hc] at h
    split at h
    · rename_i val hval
      simp only [Except.ok.injEq] at h
      subst h
      simp only [List.mem_singleton] at hm
      subst hm
      exact ⟨.key name, rfl, hval⟩
    · simp only [Except.ok.injEq] at h
      subst h
      cases hm
  | index index =>
    cases value <;> simp only [Selector.apply, Except.ok.injEq] at h <;>
      try (subst h; cases hm)
    rename_i xs
    split at h
    · cases h
    · rename_i idx _
      split at h
      · rename_i val hval
        simp only [Except.ok.injEq] at h
        subst h
        simp only [List.mem_singleton] at hm
        subst hm
        exact ⟨.index idx, rfl, hval⟩
      · simp only [Except.ok.injEq] at h
        subst h
        cases hm
  | wild =>
    cases value <;> simp only [Selector.apply, Except.ok.injEq] at h <;>
      try (subst h; cases hm)
    · rename_i xs
      subst h
      obtain ⟨j, hloc, hget⟩ := wildElems_getElem loc xs 0 m hm
      refine ⟨.index j, ?_, hget⟩
      simpa using hloc
    · rename_i ms
      subst h
      simp only [Value.uniqueKeys, Bool.and_eq_true] at hu
      obtain ⟨k, hloc, hlook⟩ := wildMembers_lookup loc ms hu.1 m hm
      exact ⟨.key k, hloc, hlook⟩
  | slice start stop step =>
    cases value <;> simp only [Selector.apply, Except.ok.injEq] at h <;>
      try (subst h; cases hm)
    rename_i xs
    split at h
    · cases h
    · rename_i indicies _
      obtain ⟨j, hloc, hget⟩ := sliceNodes_getElem xs loc indicies out h m hm
      exact ⟨.index j, hloc, hget⟩
  | filter e =>
    cases value <;> simp only [Selector.apply, Except.ok.injEq] at h <;>
      try (subst h; cases hm)
    · rename_i xs
      obtain ⟨ho, _⟩ := filterElems_ok _ loc xs 0 out h
      rw [ho] at hm
      obtain ⟨j, hloc, hget⟩ := wildElems_getElem loc xs 0 m (List.mem_of_mem_filter hm)
      refine ⟨.index j, ?_, hget⟩
      simpa using hloc
    · rename_i ms
      obtain ⟨ho, _⟩ := filterMembers_ok _ loc ms out h
      rw [ho] at hm
      simp only [Value.uniqueKeys, Bool.and_eq_true] at hu
      obtain ⟨k, hloc, hlook⟩ :=
        wildMembers_lookup loc ms hu.1 m (List.mem_of_mem_filter hm)
      exact ⟨.key k, hloc, hlook⟩

mutual
/-- Every node `descend` visits lies below the node it starts from. -/
theorem descendValue_below : ∀ (v : Value) (loc : location_t), v.uniqueKeys = true →
    ∀ d ∈ descendValue v loc, ∃ path, d.location = loc ++ path ∧ follow v path = some d.value
  | .object ms, loc, hu, d, hd => by
    simp only [descendValue, List.mem_cons] at hd
    rcases hd with rfl | hd
    · exact ⟨[], by simp, rfl⟩
    · simp only [Value.uniqueKeys, Bool.and_eq_true] at hu
      obtain ⟨k, w, path, hlook, hloc, hfol⟩ := descendMembers_below ms loc hu.1 hu.2 d hd
      exact ⟨.key k :: path, hloc, by simp [follow, followStep, hlook, hfol]⟩
  | .array xs, loc, hu, d, hd => by
    simp only [descendValue, List.mem_cons] at hd
    rcases hd with rfl | hd
    · exact ⟨[], by simp, rfl⟩
    · simp only [Value.uniqueKeys] at hu
      obtain ⟨j, w, path, hget, hloc, hfol⟩ := descendElems_below xs loc 0 hu d hd
      refine ⟨.index j :: path, by simpa using hloc, by simp [follow, followStep, hget, hfol]⟩
  | .null, loc, _, d, hd => by
    simp only [descendValue, List.mem_singleton] at hd
    subst hd
    exact ⟨[], by simp, rfl⟩
  | .bool _, loc, _, d, hd => by
    simp only [descendValue, List.mem_singleton] at hd
    subst hd
    exact ⟨[], by simp, rfl⟩
  | .int _, loc, _, d, hd => by
    simp only [descendValue, List.mem_singleton] at hd
    subst hd
    exact ⟨[], by simp, rfl⟩
  | .float _, loc, _, d, hd => by
    simp only [descendValue, List.mem_singleton] at hd
    subst hd
    exact ⟨[], by simp, rfl⟩
  | .str _, loc, _, d, hd => by
    simp only [descendValue, List.mem_singleton] at hd
    subst hd
    exact ⟨[], by simp, rfl⟩
  | .sentinel _, loc, _, d, hd => by
    simp only [descendValue, List.mem_singleton] at hd
    subst hd
    exact ⟨[], by simp, rfl⟩
/-- Every node visited in the loop over the items of a dict lies below one member. -/
theorem descendMembers_below : ∀ (ms : List (String × Value)) (loc : location_t),
    distinctKeys ms = true → uniqueKeysMembers ms = true →
    ∀ d ∈ descendMembers ms loc, ∃ k w path, lookupMember k ms = some w ∧
      d.location = loc ++ .key k :: path ∧ follow w path = some d.value
  | [], _, _, _, d, hd => by simp [descendMembers] at hd
  | (k, v) :: rest, loc, hd1, hu, d, hd => by
    simp only [descendMembers, List.mem_append] at hd
    simp only [distinctKeys, Bool.and_eq_true, Option.isNone_iff_eq_none] at hd1
    simp only [uniqueKeysMembers, Bool.and_eq_true] at hu
    rcases hd with hd | hd
    · obtain ⟨path, hloc, hfol⟩ := descendValue_below v (loc ++ [.key k]) hu.1 d hd
      exact ⟨k, v, path, by simp [lookupMember], by simpa using hloc, hfol⟩
    · obtain ⟨k', w, path, hlook, hloc, hfol⟩ :=
        descendMembers_below rest loc hd1.2 hu.2 d hd
      refine ⟨k', w, path, ?_, hloc, hfol⟩
      simp only [lookupMember]
      split
      · rename_i heq
        rw [heq, hlook] at hd1
        cases hd1.1
      · exact hlook
/-- Every node visited in the loop over the items of a list lies below one element. -/
theorem descendElems_below : ∀ (xs : List Value) (loc : location_t) (index : Nat),
    uniqueKeysElems xs = true →
    ∀ d ∈ descendElems xs loc index, ∃ j w path, xs[j]? = some w ∧
      d.location = loc ++ .index (index + j) :: path ∧ follow w path = some d.value
  | [], _, _, _, d, hd => by simp [descendElems] at hd
  | x :: rest, loc, index, hu, d, hd => by
    simp only [descendElems, List.mem_append] at hd
    simp only [uniqueKeysElems, Bool.and_eq_true] at hu
    rcases hd with hd | hd
    · obtain ⟨path, hloc, hfol⟩ := descendValue_below x (loc ++ [.index index]) hu.1 d hd
      exact ⟨0, x, path, by simp, by simpa using hloc, hfol⟩
    · obtain ⟨j, w, path, hget, hloc, hfol⟩ :=
        descendElems_below rest loc (index + 1) hu.2 d hd
      refine ⟨j + 1, w, path, by simpa using hget, ?_, hfol⟩
      rw [hloc]
      congr 3
      omega
end

/-- Every node in the output of `concatMapM` comes from the output for one input. -/
theorem concatMapM_mem {α β : Type} (f : α → Except Error (List β)) :
    ∀ (xs : List α) (out : List β), concatMapM f xs = .ok out →
      ∀ m ∈ out, ∃ x ∈ xs, ∃ o, f x = .ok o ∧ m ∈ o := by
  intro xs
  induction xs with
  | nil =>
    intro out h m hm
    simp only [concatMapM, Except.ok.injEq] at h
    subst h
    cases hm
  | cons a rest ih =>
    intro out h m hm
    simp only [concatMapM] at h
    cases hf : f a with
    | error e => simp [hf] at h
    | ok o =>
      simp only [hf] at h
      cases hr : concatMapM f rest with
      | error e => simp [hr] at h
      | ok more =>
        simp only [hr, Except.ok.injEq] at h
        subst h
        rcases List.mem_append.1 hm with hm | hm
        · exact ⟨a, List.mem_cons_self _ _, o, hf, hm⟩
        · obtain ⟨x, hx, o', ho', hm'⟩ := ih more hr m hm
          exact ⟨x, List.mem_cons_of_mem _ hx, o', ho', hm'⟩

/-- Every node the selectors of a segment push for a node is a child of that node. -/
theorem applySelectors_isChildOf (ctx : QueryContext) (node : JSONPathNode)
    (hu : node.value.uniqueKeys = true) :
    ∀ (selectors : List Selector), selectors.all Selector.nameIsCStr = true →
      ∀ (out : JSONPathNodeList),
        applySelectors ctx node selectors = .ok out → ∀ m ∈ out, IsChildOf node m := by
  intro selectors
  induction selectors with
  | nil =>
    intro _ out h m hm
    simp only [applySelectors, Except.ok.injEq] at h
    subst h
    cases hm
  | cons selector rest ih =>
    intro hnames out h m hm
    simp only [List.all_cons, Bool.and_eq_true] at hnames
    simp only [applySelectors] at h
    cases hs : selector.apply ctx node with
    | error e => simp [hs] at h
    | ok o =>
      simp only [hs] at h
      cases hr : applySelectors ctx node rest with
      | error e => simp [hr] at h
      | ok more =>
        simp only [hr, Except.ok.injEq] at h
        subst h
        rcases List.mem_append.1 hm with hm | hm
        · exact Selector.apply_isChildOf ctx node selector hu hnames.1 o hs m hm
        · exact ih hnames.2 more hr m hm

/-- A child of a node that lies in the document lies in the document. -/
theorem follow_of_isChildOf (root : Value) (node m : JSONPathNode)
    (hn : follow root node.location = some node.value) (hc : IsChildOf node m) :
    follow root m.location = some m.value := by
  obtain ⟨c, hloc, hstep⟩ := hc
  rw [hloc, follow_append, hn]
  simp [follow, hstep]

/-- A node below a node that lies in the document lies in the document. -/
theorem follow_of_isBelow (root : Value) (node m : JSONPathNode)
    (hn : follow root node.location = some node.value) (hb : IsBelow node m) :
    follow root m.location = some m.value := by
  obtain ⟨path, hloc, hfol⟩ := hb
  rw [hloc, follow_append, hn]
  simpa using hfol

/-- The nodes `descend` collects lie below the node it starts from. -/
theorem descend_isBelow (node : JSONPathNode) (hu : node.value.uniqueKeys = true) :
    ∀ d ∈ descend node, IsBelow node d :=
  fun d hd => descendValue_below node.value node.location hu d hd

/-- Resolving a segment keeps every node at the place its location names. -/
theorem resolve_segment_follow (ctx : QueryContext) (root : Value)
    (hu : root.uniqueKeys = true) (nodes : JSONPathNodeList)
    (hn : ∀ n ∈ nodes, follow root n.location = some n.value) (segment : Segment)
    (hnames : segment.namesAreCStr = true)
    (out : JSONPathNodeList) (h : resolve_segment ctx nodes segment = .ok out) :
    ∀ m ∈ out, follow root m.location = some m.value := by
  intro m hm
  cases segment with
  | child selectors =>
    simp only [Segment.namesAreCStr] at hnames
    simp only [resolve_segment] at h
    obtain ⟨n, hnmem, o, ho, hmo⟩ := concatMapM_mem _ nodes out h m hm
    have hun := follow_uniqueKeys _ _ _ (hn n hnmem) hu
    exact follow_of_isChildOf root n m (hn n hnmem)
      (applySelectors_isChildOf ctx n hun selectors hnames o ho m hmo)
  | recursive selectors =>
    simp only [Segment.namesAreCStr] at hnames
    simp only [resolve_segment] at h
    obtain ⟨n, hnmem, o, ho, hmo⟩ := concatMapM_mem _ nodes out h m hm
    obtain ⟨d, hdmem, o', ho', hmo'⟩ := concatMapM_mem _ (descend n) o ho m hmo
    have hun := follow_uniqueKeys _ _ _ (hn n hnmem) hu
    have hd := follow_of_isBelow root n d (hn n hnmem) (descend_isBelow n hun d hdmem)
    have hud := follow_uniqueKeys _ _ _ hd hu
    exact follow_of_isChildOf root d m hd
      (applySelectors_isChildOf ctx d hud selectors hnames o' ho' m hmo')

/-- The loop over the segments keeps every node at the place its location names. -/
theorem resolveSegments_follow (ctx : QueryContext) (root : Value)
    (hu : root.uniqueKeys = true) (segments : List Segment)
    (hnames : segments.all Segment.namesAreCStr = true) :
    ∀ (nodes : JSONPathNodeList), (∀ n ∈ nodes, follow root n.location = some n.value) →
      ∀ out, resolveSegments ctx nodes segments = .ok out →
        ∀ m ∈ out, follow root m.location = some m.value := by
  induction segments with
  | nil =>
    intro nodes hn out h
    simp only [resolveSegments, Except.ok.injEq] at h
    subst h
    exact hn
  | cons segment rest ih =>
    intro nodes hn out h
    simp only [List.all_cons, Bool.and_eq_true] at hnames
    simp only [resolveSegments] at h
    cases hs : resolve_segment ctx nodes segment with
    | error e => simp [hs] at h
    | ok mid =>
      simp only [hs] at h
      exact ih hnames.2 mid
        (resolve_segment_follow ctx root hu nodes hn segment hnames.1 mid hs) out h

/-- Where the location invariant does hold: for a document whose dicts have distinct keys
(as Python dicts do) and a query whose segments hold no name selector with a U+0000 in
its name, every node returned by `query_` has a location that, followed from the root
component by component (a string key by member lookup in an Object, an index by element
lookup in an Array), leads exactly to the node's value; in particular the node's value
is one of the values at depth `location.length` below the root. -/
theorem query_location_of_namesAreCStr (segments : segments_t) (obj : Value)
    (functions : function_extension_map) (signatures : function_signature_map)
    (nothing : Value) (hu : obj.uniqueKeys = true)
    (hnames : segments.all Segment.namesAreCStr = true) (out : JSONPathNodeList)
    (h : query_ segments obj functions signatures nothing = .ok out) :
    ∀ m ∈ out, follow obj m.location = some m.value ∧
      m.value ∈ valuesAtDepth m.location.length obj := by
  intro m hm
  have hfol : follow obj m.location = some m.value :=
    resolveSegments_follow ⟨obj, functions, signatures, nothing⟩ obj hu segments hnames
      [⟨obj, []⟩] (by simp [follow]) out h m hm
  exact ⟨hfol, follow_mem_valuesAtDepth _ _ _ hfol⟩

/-- An instance of `query_location_of_namesAreCStr`: `$..a` on `{"a": 1, "b": {"a": 2}}`
returns the two members named `a`, each at the place its location names. -/
theorem query_location_of_namesAreCStr_witness :
    query_ [.recursive [.name "a"]]
        (.object [("a", .int 1), ("b", .object [("a", .int 2)])])
        (fun _ => none) (fun _ => none) (.sentinel 0) =
      .ok [⟨.int 1, [.key "a"]⟩, ⟨.int 2, [.key "b", .key "a"]⟩] ∧
    ∀ m ∈ [(⟨.int 1, [.key "a"]⟩ : JSONPathNode), ⟨.int 2, [.key "b", .key "a"]⟩],
      follow (.object [("a", .int 1), ("b", .object [("a", .int 2)])]) m.location =
          some m.value ∧
        m.value ∈ valuesAtDepth m.location.length
          (.object [("a", .int 1), ("b", .object [("a", .int 2)])]) :=
  ⟨rfl, query_location_of_namesAreCStr [.recursive [.name "a"]]
    (.object [("a", .int 1), ("b", .object [("a", .int 2)])])
    (fun _ => none) (fun _ => none) (.sentinel 0) (by decide) (by decide) _ rfl⟩

/-- C2: the name selector looks up the name cut at its first U+0000 (`c_str`) but appends
the whole name to the location. The query `$['a\u0000b']` on `{"a": 1}`, a document with
distinct keys, returns the value `1` at the location `$['a\u0000b']`; followed from the
root, that location leads to no value, since the Object has no member of that name. -/
theorem name_with_nul_location_leads_nowhere :
    query_ [.child [.name "a\x00b"]] (.object [("a", .int 1)])
        (fun _ => none) (fun _ => none) (.sentinel 0) =
      .ok [⟨.int 1, [.key "a\x00b"]⟩] ∧
    (Value.object [("a", .int 1)]).uniqueKeys = true ∧
    String.length "a\x00b" = 3 ∧
    c_str "a\x00b" = "a" ∧
    follow (.object [("a", .int 1)]) [.key "a\x00b"] = none :=
  ⟨rfl, by decide, by decide, by decide, rfl⟩

/-! ## Slice selector -/

/-- The upward slice loop, when its counter cannot overflow, returns the progression
from `i` while it stays below `stop`. -/
theorem sliceLoopUp_eq (stop step : Int) (hstep : 0 < step)
    (hov : stop - 1 + step ≤ INT64_MAX) :
    ∀ (m fuel : Nat) (i : Int), (stop - i).toNat ≤ fuel → (stop - i).toNat ≤ m →
      sliceLoopUp stop step fuel i =
        .ok (((List.range m).map (fun k : Nat => i + (k : Int) * step)).takeWhile
          (fun j => decide (j < stop))) := by
  intro m
  induction m with
  | zero =>
    intro fuel i _ hm
    have hge : ¬ (i < stop) := by omega
    cases fuel with
    | zero => rfl
    | succ f => simp [sliceLoopUp, hge]
  | succ m ih =>
    intro fuel i hf hm
    rw [List.range_succ_eq_map, List.map_cons, List.map_map, List.takeWhile_cons]
    by_cases hlt : i < stop
    · cases fuel with
      | zero => omega
      | succ f =>
        have hno : i + step ≤ INT64_MAX := by omega
        have hrec := ih f (i + step) (by omega) (by omega)
        have hfun : ((fun k : Nat => i + (k : Int) * step) ∘ Nat.succ) =
            fun k : Nat => i + step + (k : Int) * step := by
          funext k
          simp only [Function.comp, Nat.succ_eq_add_one, Nat.cast_add, Nat.cast_one]
          ring
        simp only [sliceLoopUp, hlt, hno, if_true, hrec, hfun, Nat.cast_zero, zero_mul,
          add_zero, decide_True]
    · cases fuel with
      | zero => simp [sliceLoopUp, hlt]
      | succ f => simp [sliceLoopUp, hlt]

/-- The downward slice loop, when its counter cannot overflow, returns the progression
from `i` while it stays above `stop`. -/
theorem sliceLoopDown_eq (stop step : Int) (hstep : step < 0)
    (hov : INT64_MIN ≤ stop + 1 + step) :
    ∀ (m fuel : Nat) (i : Int), (i - stop).toNat ≤ fuel → (i - stop).toNat ≤ m →
      sliceLoopDown stop step fuel i =
        .ok (((List.range m).map (fun k : Nat => i + (k : Int) * step)).takeWhile
          (fun j => decide (j > stop))) := by
  intro m
  induction m with
  | zero =>
    intro fuel i _ hm
    have hge : ¬ (i > stop) := by omega
    cases fuel with
    | zero => rfl
    | succ f => simp [sliceLoopDown, hge]
  | succ m ih =>
    intro fuel i hf hm
    rw [List.range_succ_eq_map, List.map_cons, List.map_map, List.takeWhile_cons]
    by_cases hlt : i > stop
    · cases fuel with
      | zero => omega
      | succ f =>
        have hno : INT64_MIN ≤ i + step := by omega
        have hrec := ih f (i + step) (by omega) (by omega)
        have hfun : ((fun k : Nat => i + (k : Int) * step) ∘ Nat.succ) =
            fun k : Nat => i + step + (k : Int) * step := by
          funext k
          simp only [Function.comp, Nat.succ_eq_add_one, Nat.cast_add, Nat.cast_one]
          ring
        simp only [sliceLoopDown, hlt, hno, if_true, hrec, hfun, Nat.cast_zero, zero_mul,
          add_zero, decide_True]
    · cases fuel with
      | zero => simp [sliceLoopDown, hlt]
      | succ f => simp [sliceLoopDown, hlt]

/-! ## The fuel of the slice loops is never exhausted -/

/-- With a positive step, any fuel of at least `stop - i` gives the upward loop the same
outcome: the loop exits through its own test (or overflows) before the fuel runs out. -/
theorem sliceLoopUp_fuel (stop step : Int) (hstep : 0 < step) :
    ∀ (f1 f2 : Nat) (i : Int), (stop - i).toNat ≤ f1 → (stop - i).toNat ≤ f2 →
      sliceLoopUp stop step f1 i = sliceLoopUp stop step f2 i := by
  intro f1
  induction f1 with
  | zero =>
    intro f2 i h1 _
    have hge : ¬ (i < stop) := by omega
    cases f2 with
    | zero => rfl
    | succ f => simp [sliceLoopUp, hge]
  | succ f ih =>
    intro f2 i h1 h2
    by_cases hlt : i < stop
    · cases f2 with
      | zero => omega
      | succ g =>
        simp only [sliceLoopUp, hlt, if_true]
        rw [ih g (i + step) (by omega) (by omega)]
    · cases f2 with
      | zero => simp [sliceLoopUp, hlt]
      | succ g => simp [sliceLoopUp, hlt]

/-- With a negative step, any fuel of at least `i - stop` gives the downward loop the
same outcome. -/
theorem sliceLoopDown_fuel (stop step : Int) (hstep : step < 0) :
    ∀ (f1 f2 : Nat) (i : Int), (i - stop).toNat ≤ f1 → (i - stop).toNat ≤ f2 →
      sliceLoopDown stop step f1 i = sliceLoopDown stop step f2 i := by
  intro f1
  induction f1 with
  | zero =>
    intro f2 i h1 _
    have hge : ¬ (i > stop) := by omega
    cases f2 with
    | zero => rfl
    | succ f => simp [sliceLoopDown, hge]
  | succ f ih =>
    intro f2 i h1 h2
    by_cases hlt : i > stop
    · cases f2 with
      | zero => omega
      | succ g =>
        simp only [sliceLoopDown, hlt, if_true]
        rw [ih g (i + step) (by omega) (by omega)]
    · cases f2 with
      | zero => simp [sliceLoopDown, hlt]
      | succ g => simp [sliceLoopDown, hlt]

/-- On in-range indices the slice loop pushes, for each index in order, the element at
that index with the index appended to the location. -/
theorem sliceNodes_of_inRange (xs : List Value) (loc : location_t) :
    ∀ indicies : List Int, (∀ i ∈ indicies, 0 ≤ i ∧ i < xs.length) →
      sliceNodes xs loc indicies =
        .ok (indicies.map
          (fun i => ⟨xs[i.toNat]?.getD .null, loc ++ [.index i.toNat]⟩)) := by
  intro indicies
  induction indicies with
  | nil => intro _; rfl
  | cons i rest ih =>
    intro h
    obtain ⟨h0, h1⟩ := h i (List.mem_cons_self _ _)
    have hlt : i.toNat < xs.length := by omega
    have hrest := ih (fun j hj => h j (List.mem_cons_of_mem _ hj))
    simp [sliceNodes, h0, List.getElem?_eq_getElem hlt, normalized_index_nonneg _ _ h0,
      hrest]

/-- Every index of the specification's slice sequence on a non-empty array is a valid
index of the array. -/
theorem specSliceIndices_inRange (n : Nat) (hn : 0 < n) (start stop step : Option Int) :
    ∀ i ∈ specSliceIndices n start stop step, 0 ≤ i ∧ i < n := by
  intro i hi
  unfold specSliceIndices at hi
  split at hi
  · cases hi
  · rename_i hstep
    unfold progressionWhile at hi
    have hpred := List.mem_takeWhile_imp hi
    obtain ⟨k, _, hk⟩ := List.mem_map.1 (List.takeWhile_subset _ hi)
    have hs0 : 0 ≤ specSliceStart n start (specSliceStep step) := by
      unfold specSliceStart
      split
      · split <;> omega
      · split <;> omega
    have hs1 : specSliceStart n start (specSliceStep step) ≤ (n : Int) - 1 := by
      unfold specSliceStart
      split
      · split <;> omega
      · split <;> omega
    have ht0 : -1 ≤ specSliceStop n stop (specSliceStep step) := by
      unfold specSliceStop
      split
      · split <;> omega
      · split <;> omega
    have ht1 : specSliceStop n stop (specSliceStep step) ≤ (n : Int) := by
      unfold specSliceStop
      split
      · split <;> omega
      · split <;> omega
    by_cases hpos : specSliceStep step > 0
    · simp only [hpos, if_true, decide_eq_true_eq] at hpred
      have hk0 : 0 ≤ (k : Int) * specSliceStep step :=
        Int.mul_nonneg (Int.ofNat_nonneg k) (le_of_lt hpos)
      omega
    · simp only [hpos, if_false, decide_eq_true_eq] at hpred
      have hk0 : (k : Int) * specSliceStep step ≤ 0 :=
        Int.mul_nonpos_of_nonneg_of_nonpos (Int.ofNat_nonneg k) (by omega)
      omega

/-- On a non-empty array whose length fits in 64 bits, and for a step that keeps the
loop counter in the 64-bit range, `slice_indicies` returns the specification's
sequence. -/
theorem slice_indicies_eq_spec (n : Nat) (start stop step : Option Int) (hn : 0 < n)
    (hlen : (n : Int) ≤ INT64_MAX) (hmin : INT64_MIN ≤ specSliceStep step)
    (hov : (n : Int) + specSliceStep step ≤ INT64_MAX + 1) :
    slice_indicies start stop step n = .ok (specSliceIndices n start stop step) := by
  have hfit : toInt64 (n : Int) = n := by
    apply toInt64_of_fits
    · unfold INT64_MIN; omega
    · exact hlen
  have hn0 : n ≠ 0 := by omega
  unfold slice_indicies specSliceIndices
  simp only [hn0, if_false, hfit]
  unfold specSliceStep at *
  generalize step.getD 1 = st at *
  by_cases hz : st = 0
  · simp [hz]
  · simp only [hz, if_false]
    have hstartEq : (match start with
        | none => if st < 0 then (n : Int) - 1 else 0
        | some s => if s < 0 then max ((n : Int) + s) 0 else min s ((n : Int) - 1)) =
        specSliceStart n start st := by
      unfold specSliceStart
      cases start with
      | none =>
        simp only
        split <;> split <;> first | rfl | omega
      | some s => rfl
    have hstopEq : (match stop with
        | none => if st < 0 then (-1 : Int) else (n : Int)
        | some s => if s < 0 then max ((n : Int) + s) (-1) else min s (n : Int)) =
        specSliceStop n stop st := by
      unfold specSliceStop
      cases stop with
      | none =>
        simp only
        split <;> split <;> first | rfl | omega
      | some s => rfl
    have ht1 : specSliceStop n stop st ≤ (n : Int) := by
      unfold specSliceStop
      split
      · split <;> omega
      · split <;> omega
    have ht0 : -1 ≤ specSliceStop n stop st := by
      unfold specSliceStop
      split
      · split <;> omega
      · split <;> omega
    rw [hstartEq, hstopEq]
    unfold progressionWhile
    by_cases hpos : st > 0
    · simp only [hpos, if_true]
      exact sliceLoopUp_eq _ _ hpos (by omega) _ _ _ (le_refl _) (by omega)
    · simp only [hpos, if_false]
      have hneg : st < 0 := by omega
      exact sliceLoopDown_eq _ _ hneg (by unfold INT64_MIN at *; omega) _ _ _ (le_refl _)
        (by omega)

/-- C4 (as stated, refuted): on the empty array the specification's formula for the
slice `[0:]` resolves start to `min 0 (0 - 1) = -1` and stop to `0`, so it lists the
index `-1`, while `slice_indicies` returns no index for an empty array and the slice
selector emits nothing. -/
theorem slice_formula_empty_array_counterexample :
    specSliceIndices 0 (some 0) none none = [-1] ∧
    slice_indicies (some 0) none none 0 = .ok [] ∧
    Selector.apply (plainContext (.array [])) ⟨.array [], []⟩ (.slice (some 0) none none) =
      .ok [] ∧
    slice_indicies (some 0) none none 0 ≠ .ok (specSliceIndices 0 (some 0) none none) := by
  have hspec : specSliceIndices 0 (some 0) none none = [-1] := by decide
  refine ⟨hspec, rfl, rfl, ?_⟩
  rw [hspec]
  intro h
  have h2 : ([] : List Int) = [-1] := Except.ok.inj h
  cases h2

/-- C4 (amended): on an empty array the slice selector emits nothing; on a non-empty
array of length `n ≤ 2^63-1`, for a slice whose resolved step `step'` satisfies
`-2^63 ≤ step'` and `n + step' ≤ 2^63` (so that the 64-bit loop counter cannot
overflow), `slice_indicies` returns exactly the indices `start', start' + step', ...`
taken while `i < stop'` (positive step) or `i > stop'` (negative step), nothing for
step `0`, with `start'` and `stop'` resolved as the specification says; these are
valid indices, and the selector emits, in that order, the element at each such index
with the index appended to the location. -/
theorem slice_selector_spec (ctx : QueryContext) (xs : List Value) (loc : location_t)
    (start stop step : Option Int) :
    (xs = [] → Selector.apply ctx ⟨.array xs, loc⟩ (.slice start stop step) = .ok []) ∧
    (xs ≠ [] → (xs.length : Int) ≤ INT64_MAX → INT64_MIN ≤ specSliceStep step →
      (xs.length : Int) + specSliceStep step ≤ INT64_MAX + 1 →
        slice_indicies start stop step xs.length =
          .ok (specSliceIndices xs.length start stop step) ∧
        (∀ i ∈ specSliceIndices xs.length start stop step, 0 ≤ i ∧ i < xs.length) ∧
        Selector.apply ctx ⟨.array xs, loc⟩ (.slice start stop step) =
          .ok ((specSliceIndices xs.length start stop step).map
            (fun i => ⟨xs[i.toNat]?.getD .null, loc ++ [.index i.toNat]⟩))) := by
  constructor
  · intro h
    subst h
    rfl
  · intro hne hlen hmin hov
    have hn : 0 < xs.length := List.length_pos.2 hne
    have hidx := slice_indicies_eq_spec xs.length start stop step hn hlen hmin hov
    have hrange := specSliceIndices_inRange xs.length hn start stop step
    refine ⟨hidx, hrange, ?_⟩
    simp only [Selector.apply, hidx]
    exact sliceNodes_of_inRange xs loc _ hrange

/-- Witness for C4 (amended): `[1:4]` on `[0, 1, 2, 3, 4]` emits the elements at `1`,
`2` and `3`. -/
theorem slice_selector_spec_witness :
    Selector.apply (plainContext .null)
        ⟨.array [.int 0, .int 1, .int 2, .int 3, .int 4], []⟩ (.slice (some 1) (some 4) none) =
      .ok ((specSliceIndices 5 (some 1) (some 4) none).map
        (fun i => ⟨[Value.int 0, .int 1, .int 2, .int 3, .int 4][i.toNat]?.getD .null,
          [] ++ [.index i.toNat]⟩)) ∧
    specSliceIndices 5 (some 1) (some 4) none = [1, 2, 3] :=
  ⟨((slice_selector_spec (plainContext .null) [.int 0, .int 1, .int 2, .int 3, .int 4] []
      (some 1) (some 4) none).2 (by simp) (by decide) (by decide) (by decide)).2.2,
    by decide⟩

/-! ## Slices and RFC 9535 -/

/-- C5 (the code at the failing inputs): for the slice `[5:]` on an array of length `5`
RFC 9535 selects nothing, but `slice_indicies` clamps the start to `length - 1` and
returns index `4`, so the selector emits the last element; likewise `[-10::-1]`
selects nothing by the RFC while `slice_indicies` returns index `0`. -/
theorem slice_start_past_end_selects_last :
    rfcSliceIndices 5 (some 5) none none = [] ∧
    slice_indicies (some 5) none none 5 = .ok [4] ∧
    Selector.apply (plainContext .null)
        ⟨.array [.int 0, .int 1, .int 2, .int 3, .int 4], []⟩ (.slice (some 5) none none) =
      .ok [⟨.int 4, [.index 4]⟩] ∧
    rfcSliceIndices 5 (some (-10)) none (some (-1)) = [] ∧
    slice_indicies (some (-10)) none (some (-1)) 5 = .ok [0] :=
  ⟨by decide, rfl, rfl, by decide, rfl⟩

/-! ## Root queries and logical operators inside filters -/

/-- C6 (the code at the failing input): on `{"k": 1, "a": [[0]]}` the query
`$.a[?@[?$.k]]` returns nothing, because the relative query `@[?$.k]` is run by
`query_` with the enclosing filter's current node `[0]` as root, where `$.k` finds
nothing; resolved against the document root `$.k` finds a node, as it does in the
top-level filter `$.a[?$.k]`, which returns the element. -/
theorem nested_root_query_uses_current_node :
    query_
        [.child [.name "a"],
          .child [.filter (.relativeQuery [.child [.filter (.rootQuery [.child [.name "k"]])]])]]
        (.object [("k", .int 1), ("a", .array [.array [.int 0]])])
        (fun _ => none) (fun _ => none) (.sentinel 0) = .ok [] ∧
    Expression.eval
        ⟨plainContext (.object [("k", .int 1), ("a", .array [.array [.int 0]])]),
          .array [.int 0]⟩
        (.relativeQuery [.child [.filter (.rootQuery [.child [.name "k"]])]]) =
      .ok (.nodes []) ∧
    Expression.eval
        ⟨plainContext (.object [("k", .int 1), ("a", .array [.array [.int 0]])]), .int 0⟩
        (.rootQuery [.child [.name "k"]]) = .ok (.nodes [⟨.int 1, [.key "k"]⟩]) ∧
    query_ [.child [.name "a"], .child [.filter (.rootQuery [.child [.name "k"]])]]
        (.object [("k", .int 1), ("a", .array [.array [.int 0]])])
        (fun _ => none) (fun _ => none) (.sentinel 0) =
      .ok [⟨.array [.int 0], [.key "a", .index 0]⟩] :=
  ⟨rfl, rfl, rfl, rfl⟩

/-- C7 (the code at the failing input): on `[{"a": false, "b": 1}]` the query
`$[?@.a && @.b]` returns nothing although both operand queries resolve to one node:
the infix visitor unpacks the single node of `@.a` to its value `false` before taking
truthiness. The same operand alone, `$[?@.a]`, is truthy and selects the element, and
`||` of the operand with itself is false. -/
theorem logical_and_unpacks_single_node :
    query_
        [.child [.filter
          (.binary (.relativeQuery [.child [.name "a"]]) .logical_and
            (.relativeQuery [.child [.name "b"]]))]]
        (.array [.object [("a", .bool false), ("b", .int 1)]])
        (fun _ => none) (fun _ => none) (.sentinel 0) = .ok [] ∧
    query_ [.child [.filter (.relativeQuery [.child [.name "a"]])]]
        (.array [.object [("a", .bool false), ("b", .int 1)]])
        (fun _ => none) (fun _ => none) (.sentinel 0) =
      .ok [⟨.object [("a", .bool false), ("b", .int 1)], [.index 0]⟩] ∧
    is_truthy (.nodes [⟨.bool false, [.key "a"]⟩]) = true ∧
    infixResult (.sentinel 0) (.nodes [⟨.bool false, [.key "a"]⟩]) .logical_and
        (.nodes [⟨.int 1, [.key "b"]⟩]) = .object (.value (.bool false)) ∧
    infixResult (.sentinel 0) (.nodes [⟨.bool false, [.key "a"]⟩]) .logical_or
        (.nodes [⟨.bool false, [.key "a"]⟩]) = .object (.value (.bool false)) :=
  ⟨rfl, rfl, rfl, rfl, rfl⟩

/-! ## Equality and ordering of scalars -/

/-- C11 (the code at the failing inputs): `==` between the boolean `true` and the integer
`1`, between `false` and `0`, and between `true` and the float `1.0` holds, because
`equals` hands both objects to Python `==`, for which `bool` is a kind of `int`; so the
query `$[?@ == 1]` on `[true]` selects the element. -/
theorem equals_boolean_and_number :
    equals (.sentinel 0) (.object (.value (.bool true))) (.object (.value (.int 1))) = true ∧
    equals (.sentinel 0) (.object (.value (.bool false))) (.object (.value (.int 0))) = true ∧
    equals (.sentinel 0) (.object (.value (.bool true))) (.object (.value (.float 1))) = true ∧
    equals (.sentinel 0) (.object (.value (.int 1))) (.object (.value (.bool true))) = true ∧
    query_ [.child [.filter (.binary (.relativeQuery []) .eq (.integerLiteral 1))]]
        (.array [.bool true]) (fun _ => none) (fun _ => none) (.sentinel 0) =
      .ok [⟨.bool true, [.index 0]⟩] ∧
    less_than (.object (.value (.bool false))) (.object (.value (.int 1))) = false :=
  ⟨by decide, by decide, by decide, by decide, rfl, rfl⟩

/-- C12: `less_than` is false whenever either operand is a node list or a boolean; for
two strings it is the lexicographic order, for two numbers (integer or float in any
combination) the numeric order; for every other pairing of objects it is false. -/
theorem less_than_spec :
    (∀ (ns : JSONPathNodeList) (r : expression_rv),
      less_than (.nodes ns) r = false ∧ less_than r (.nodes ns) = false) ∧
    (∀ (ns : JSONPathNodeList) (r : expression_rv),
      less_than (.object (.nodes ns)) r = false ∧ less_than r (.object (.nodes ns)) = false) ∧
    (∀ (b : Bool) (r : expression_rv),
      less_than (.object (.value (.bool b))) r = false ∧
      less_than r (.object (.value (.bool b))) = false) ∧
    (∀ a b : String,
      less_than (.object (.value (.str a))) (.object (.value (.str b))) = decide (a < b) ∧
      (a < b ↔ a.toList < b.toList)) ∧
    (∀ a b : Int,
      less_than (.object (.value (.int a))) (.object (.value (.int b))) = decide (a < b)) ∧
    (∀ (a : Int) (q : Rat),
      less_than (.object (.value (.int a))) (.object (.value (.float q))) =
        decide ((a : Rat) < q) ∧
      less_than (.object (.value (.float q))) (.object (.value (.int a))) =
        decide (q < (a : Rat))) ∧
    (∀ p q : Rat,
      less_than (.object (.value (.float p))) (.object (.value (.float q))) = decide (p < q)) ∧
    (∀ v w : Value, (v.isStr && w.isStr) = false → (v.isNumber && w.isNumber) = false →
      less_than (.object (.value v)) (.object (.value w)) = false) := by
  refine ⟨?_, ?_, ?_, ?_, ?_, ?_, ?_, ?_⟩
  · intro ns r
    constructor
    · rfl
    · cases r with
      | nodes _ => rfl
      | object o => cases o <;> rfl
  · intro ns r
    constructor
    · rfl
    · cases r with
      | nodes _ => rfl
      | object o => cases o <;> rfl
  · intro b r
    constructor
    · cases r with
      | nodes _ => rfl
      | object o =>
        cases o with
        | nodes _ => rfl
        | value w => cases w <;> rfl
    · cases r with
      | nodes _ => rfl
      | object o =>
        cases o with
        | nodes _ => rfl
        | value w => cases w <;> rfl
  · intro a b
    exact ⟨by simp [less_than, Value.lt], String.lt_iff_toList_lt⟩
  · intro a b
    simp [less_than, Value.lt, Value.numeric?]
  · intro a q
    simp [less_than, Value.lt, Value.numeric?]
  · intro p q
    simp [less_than, Value.lt, Value.numeric?]
  · intro v w hs hn
    cases v <;> cases w <;>
      first
        | rfl
        | simp [Value.isStr, Value.isNumber] at hs hn

/-- Witness for C12: a string is not less than a number. -/
theorem less_than_spec_witness :
    less_than (.object (.value (.str "a"))) (.object (.value (.int 1))) = false :=
  less_than_spec.2.2.2.2.2.2.2 (.str "a") (.int 1) rfl rfl

/-! ## Selectors one by one -/

/-- C15: the wildcard selector applied to an Object with `m` members yields exactly `m`
nodes, one per member in insertion order with the member's key appended to the
location; applied to an Array of length `n` it yields exactly `n` nodes, the node at
position `k` being element `k` with index `k` appended; applied to any other value it
yields no node. -/
theorem wild_selector_spec (ctx : QueryContext) (loc : location_t) :
    (∀ ms : List (String × Value),
      Selector.apply ctx ⟨.object ms, loc⟩ .wild =
        .ok (ms.map (fun kv => ⟨kv.2, loc ++ [.key kv.1]⟩)) ∧
      (ms.map (fun kv => (⟨kv.2, loc ++ [.key kv.1]⟩ : JSONPathNode))).length = ms.length) ∧
    (∀ xs : List Value,
      ∃ out, Selector.apply ctx ⟨.array xs, loc⟩ .wild = .ok out ∧
        out.length = xs.length ∧
        ∀ k : Nat, out[k]? = xs[k]?.map (fun v => ⟨v, loc ++ [.index k]⟩)) ∧
    (∀ v : Value, (∀ ms, v ≠ .object ms) → (∀ xs, v ≠ .array xs) →
      Selector.apply ctx ⟨v, loc⟩ .wild = .ok []) := by
  refine ⟨?_, ?_, ?_⟩
  · intro ms
    exact ⟨by simp [Selector.apply, wildMembers_eq_map], by simp⟩
  · intro xs
    refine ⟨wildElems loc 0 xs, by simp [Selector.apply], ?_, ?_⟩
    · simp [wildElems_eq_map]
    · intro k
      rw [wildElems_eq_map]
      simp only [List.getElem?_map, List.getElem?_enumFrom, Option.map_map]
      cases xs[k]? <;> simp
  · intro v hobj harr
    cases v with
    | object ms => exact absurd rfl (hobj ms)
    | array xs => exact absurd rfl (harr xs)
    | _ => rfl

/-- Witness for C15: `$.*` on `{"a": 1, "b": 2}` yields the two members in insertion
order, and the wildcard on the scalar `1` yields nothing. -/
theorem wild_selector_spec_witness :
    Selector.apply (plainContext .null) ⟨.object [("a", .int 1), ("b", .int 2)], []⟩ .wild =
      .ok [⟨.int 1, [.key "a"]⟩, ⟨.int 2, [.key "b"]⟩] ∧
    Selector.apply (plainContext .null) ⟨.int 1, []⟩ .wild = .ok [] :=
  ⟨((wild_selector_spec (plainContext .null) []).1 [("a", .int 1), ("b", .int 2)]).1,
    (wild_selector_spec (plainContext .null) []).2.2 (.int 1)
      (fun _ h => by cases h) (fun _ h => by cases h)⟩

/-- What the name selector for key `k` does: on an Object it looks up `c_str k`, the
part of `k` before its first U+0000, and yields exactly one node, that member's value
with the whole `k` appended to the location, when the Object has such a member, and no
node when it has none; on an Array or a scalar it yields no node. -/
theorem name_selector_outcome (ctx : QueryContext) (loc : location_t) (k : String) :
    (∀ (ms : List (String × Value)) (v : Value), lookupMember (c_str k) ms = some v →
      Selector.apply ctx ⟨.object ms, loc⟩ (.name k) = .ok [⟨v, loc ++ [.key k]⟩]) ∧
    (∀ ms : List (String × Value), lookupMember (c_str k) ms = none →
      Selector.apply ctx ⟨.object ms, loc⟩ (.name k) = .ok []) ∧
    (∀ v : Value, (∀ ms, v ≠ .object ms) →
      Selector.apply ctx ⟨v, loc⟩ (.name k) = .ok []) := by
  refine ⟨?_, ?_, ?_⟩
  · intro ms v h
    simp [Selector.apply, h]
  · intro ms h
    simp [Selector.apply, h]
  · intro v hobj
    cases v with
    | object ms => exact absurd rfl (hobj ms)
    | _ => rfl

/-- An instance of `name_selector_outcome`: `.b` on `{"a": 1, "b": 2}` yields the member
`b`; on an array it yields nothing. -/
theorem name_selector_outcome_witness :
    Selector.apply (plainContext .null) ⟨.object [("a", .int 1), ("b", .int 2)], []⟩
        (.name "b") = .ok [⟨.int 2, [.key "b"]⟩] ∧
    Selector.apply (plainContext .null) ⟨.array [.int 1], []⟩ (.name "b") = .ok [] :=
  ⟨(name_selector_outcome (plainContext .null) [] "b").1 [("a", .int 1), ("b", .int 2)]
      (.int 2) rfl,
    (name_selector_outcome (plainContext .null) [] "b").2.2 (.array [.int 1])
      (fun _ h => by cases h)⟩

/-- C16: the name selector for the key `a\u0000b`, applied to the Object `{"a": 1}`,
which does not contain that key, yields one node, the value `1` of the member `a`,
with `a\u0000b` appended to the location, where the claim says it yields no node: the
key looked up is the name cut at its first U+0000. -/
theorem name_selector_with_nul_yields_other_member :
    lookupMember "a\x00b" [("a", .int 1)] = none ∧
    Selector.apply (plainContext .null) ⟨.object [("a", .int 1)], []⟩ (.name "a\x00b") =
      .ok [⟨.int 1, [.key "a\x00b"]⟩] ∧
    lookupMember (c_str "a\x00b") [("a", .int 1)] = some (.int 1) :=
  ⟨rfl, rfl, rfl⟩

/-- C17: for every array and every start and stop, present or absent, a slice selector
whose step is `0` matches nothing and raises no error. -/
theorem slice_step_zero (ctx : QueryContext) (xs : List Value) (loc : location_t)
    (start stop : Option Int) :
    slice_indicies start stop (some 0) xs.length = .ok [] ∧
    Selector.apply ctx ⟨.array xs, loc⟩ (.slice start stop (some 0)) = .ok [] := by
  have h : slice_indicies start stop (some 0) xs.length = .ok [] := by
    unfold slice_indicies
    split
    · rfl
    · simp
  exact ⟨h, by simp [Selector.apply, h, sliceNodes]⟩

/-! ## Segments -/

/-- The loop `concatMapM` returns exactly when every step returns, and then its output
is the concatenation of the outputs of the steps, in order. -/
theorem concatMapM_eq_ok_iff {α β : Type} (f : α → Except Error (List β)) :
    ∀ (xs : List α) (out : List β),
      concatMapM f xs = .ok out ↔
        (∀ x ∈ xs, ∃ o, f x = .ok o) ∧ out = xs.flatMap (fun x => resultNodes (f x)) := by
  intro xs
  induction xs with
  | nil =>
    intro out
    simp [concatMapM, eq_comm]
  | cons a rest ih =>
    intro out
    simp only [concatMapM, List.mem_cons, forall_eq_or_imp, List.flatMap_cons]
    cases hf : f a with
    | error e => simp
    | ok o =>
      have hres : resultNodes (Except.ok o : Except Error (List β)) = o := rfl
      cases hr : concatMapM f rest with
      | error e =>
        have hno : ¬ (∀ x ∈ rest, ∃ o, f x = .ok o) := by
          intro hall
          have := (ih (rest.flatMap (fun x => resultNodes (f x)))).2 ⟨hall, rfl⟩
          rw [hr] at this
          cases this
        simp [hno]
      | ok more =>
        obtain ⟨hall, hmore⟩ := (ih more).1 hr
        rw [hres, ← hmore]
        constructor
        · intro h
          exact ⟨⟨⟨o, rfl⟩, hall⟩, (Except.ok.inj h).symm⟩
        · rintro ⟨_, h⟩
          rw [h]

/-- The loop over the selectors of a segment is `concatMapM` over the selector list. -/
theorem applySelectors_eq_concatMapM (ctx : QueryContext) (node : JSONPathNode) :
    ∀ selectors : List Selector,
      applySelectors ctx node selectors =
        concatMapM (fun selector => selector.apply ctx node) selectors := by
  intro selectors
  induction selectors with
  | nil => rfl
  | cons selector rest ih =>
    simp only [applySelectors, concatMapM, ih]
    cases Selector.apply ctx node selector with
    | error e => rfl
    | ok o =>
      cases concatMapM (fun selector => Selector.apply ctx node selector) rest <;> rfl

/-- The selectors of a segment return for a node exactly when each of them returns, and
then the output is the concatenation of their outputs in selector order. -/
theorem applySelectors_eq_ok_iff (ctx : QueryContext) (node : JSONPathNode)
    (selectors : List Selector) (out : JSONPathNodeList) :
    applySelectors ctx node selectors = .ok out ↔
      (∀ s ∈ selectors, ∃ o, s.apply ctx node = .ok o) ∧
      out = selectors.flatMap (fun s => resultNodes (s.apply ctx node)) := by
  rw [applySelectors_eq_concatMapM]
  exact concatMapM_eq_ok_iff _ selectors out

/-- Running the selectors of a segment on every node of a list returns exactly when
every selector returns on every node, and the output is then the concatenation, node by
node, of the selectors' outputs in selector order. -/
theorem concatMapM_applySelectors_eq_ok_iff (ctx : QueryContext) (nodes : JSONPathNodeList)
    (selectors : List Selector) (out : JSONPathNodeList) :
    concatMapM (fun n => applySelectors ctx n selectors) nodes = .ok out ↔
      (∀ n ∈ nodes, ∀ s ∈ selectors, ∃ o, s.apply ctx n = .ok o) ∧
      out = nodes.flatMap
        (fun n => selectors.flatMap (fun s => resultNodes (s.apply ctx n))) := by
  rw [concatMapM_eq_ok_iff]
  constructor
  · rintro ⟨hall, hout⟩
    refine ⟨fun n hn => ?_, ?_⟩
    · obtain ⟨o, ho⟩ := hall n hn
      exact ((applySelectors_eq_ok_iff ctx n selectors o).1 ho).1
    · rw [hout]
      apply List.flatMap_congr
      intro n hn
      obtain ⟨o, ho⟩ := hall n hn
      rw [ho, ((applySelectors_eq_ok_iff ctx n selectors o).1 ho).2]
      rfl
  · rintro ⟨hall, hout⟩
    have hok : ∀ n ∈ nodes, applySelectors ctx n selectors =
        .ok (selectors.flatMap (fun s => resultNodes (s.apply ctx n))) :=
      fun n hn => (applySelectors_eq_ok_iff ctx n selectors _).2 ⟨hall n hn, rfl⟩
    refine ⟨fun n hn => ⟨_, hok n hn⟩, ?_⟩
    rw [hout]
    apply List.flatMap_congr
    intro n hn
    rw [hok n hn]
    rfl

/-- C14: a child segment with selectors `s1, ..., sk` on the node list `n1, ..., nm`
returns exactly when every selector returns on every node, and its output is then
`apply(s1,n1) ++ ... ++ apply(sk,n1) ++ apply(s1,n2) ++ ... ++ apply(sk,nm)`; nothing
is merged or removed, so a segment listing a selector twice emits its matches twice;
and `query_` of the empty query returns exactly the root at the empty location. -/
theorem child_segment_spec (ctx : QueryContext) :
    (∀ (nodes : JSONPathNodeList) (selectors : List Selector) (out : JSONPathNodeList),
      resolve_segment ctx nodes (.child selectors) = .ok out ↔
        (∀ n ∈ nodes, ∀ s ∈ selectors, ∃ o, s.apply ctx n = .ok o) ∧
        out = nodes.flatMap
          (fun n => selectors.flatMap (fun s => resultNodes (s.apply ctx n)))) ∧
    (∀ (n : JSONPathNode) (s : Selector),
      resolve_segment ctx [n] (.child [s, s]) =
        (s.apply ctx n).map (fun out => out ++ out)) ∧
    (∀ (obj : Value) (functions : function_extension_map)
        (signatures : function_signature_map) (nothing : Value),
      query_ [] obj functions signatures nothing = .ok [⟨obj, []⟩]) := by
  refine ⟨?_, ?_, fun _ _ _ _ => rfl⟩
  · intro nodes selectors out
    simp only [resolve_segment]
    exact concatMapM_applySelectors_eq_ok_iff ctx nodes selectors out
  · intro n s
    simp only [resolve_segment, concatMapM_singleton, applySelectors]
    cases s.apply ctx n <;> simp [Except.map]

/-! ## Descendant segments -/

/-- The loop of `descend` over the members of a dict visits, for each child node in
order, that child's descendant list. -/
theorem descendMembers_eq_flatMap (loc : location_t) :
    ∀ ms : List (String × Value),
      descendMembers ms loc = (wildMembers loc ms).flatMap descend := by
  intro ms
  induction ms with
  | nil => rfl
  | cons kv rest ih =>
    obtain ⟨k, v⟩ := kv
    simp only [descendMembers, wildMembers, List.flatMap_cons, ih, descend]

/-- The loop of `descend` over the elements of a list visits, for each child node in
order, that child's descendant list. -/
theorem descendElems_eq_flatMap (loc : location_t) :
    ∀ (xs : List Value) (index : Nat),
      descendElems xs loc index = (wildElems loc index xs).flatMap descend := by
  intro xs
  induction xs with
  | nil => intro _; rfl
  | cons x rest ih =>
    intro index
    simp only [descendElems, wildElems, List.flatMap_cons, ih, descend]

/-- The descendant list of a node is the node itself followed, for each child in order,
by that child's descendant list. -/
theorem descend_eq (node : JSONPathNode) :
    descend node = node :: (childNodes node).flatMap descend := by
  obtain ⟨value, loc⟩ := node
  cases value with
  | object ms => simp [descend, descendValue, childNodes, descendMembers_eq_flatMap]
  | array xs => simp [descend, descendValue, childNodes, descendElems_eq_flatMap]
  | _ => simp [descend, descendValue, childNodes]

mutual
/-- Pre-order: in the descendant list of a value every node is immediately followed by
the rest of its own descendant list. -/
theorem descendValue_preorder : ∀ (v : Value) (loc : location_t)
    (pre : JSONPathNodeList) (d : JSONPathNode) (post : JSONPathNodeList),
    descendValue v loc = pre ++ d :: post → ∃ rest, d :: post = descend d ++ rest
  | .object ms, loc, pre, d, post, h => by
    simp only [descendValue] at h
    cases pre with
    | nil =>
      simp only [List.nil_append, List.cons.injEq] at h
      obtain ⟨hd, hp⟩ := h
      subst hd
      exact ⟨[], by simp [descend, descendValue, hp]⟩
    | cons p pre' =>
      simp only [List.cons_append, List.cons.injEq] at h
      exact descendMembers_preorder ms loc pre' d post h.2
  | .array xs, loc, pre, d, post, h => by
    simp only [descendValue] at h
    cases pre with
    | nil =>
      simp only [List.nil_append, List.cons.injEq] at h
      obtain ⟨hd, hp⟩ := h
      subst hd
      exact ⟨[], by simp [descend, descendValue, hp]⟩
    | cons p pre' =>
      simp only [List.cons_append, List.cons.injEq] at h
      exact descendElems_preorder xs loc 0 pre' d post h.2
  | .null, loc, pre, d, post, h => by
    cases pre with
    | nil =>
      simp only [descendValue, List.nil_append, List.cons.injEq] at h
      obtain ⟨hd, hp⟩ := h
      subst hd hp
      exact ⟨[], rfl⟩
    | cons p pre' => simp [descendValue] at h
  | .bool _, loc, pre, d, post, h => by
    cases pre with
    | nil =>
      simp only [descendValue, List.nil_append, List.cons.injEq] at h
      obtain ⟨hd, hp⟩ := h
      subst hd hp
      exact ⟨[], rfl⟩
    | cons p pre' => simp [descendValue] at h
  | .int _, loc, pre, d, post, h => by
    cases pre with
    | nil =>
      simp only [descendValue, List.nil_append, List.cons.injEq] at h
      obtain ⟨hd, hp⟩ := h
      subst hd hp
      exact ⟨[], rfl⟩
    | cons p pre' => simp [descendValue] at h
  | .float _, loc, pre, d, post, h => by
    cases pre with
    | nil =>
      simp only [descendValue, List.nil_append, List.cons.injEq] at h
      obtain ⟨hd, hp⟩ := h
      subst hd hp
      exact ⟨[], rfl⟩
    | cons p pre' => simp [descendValue] at h
  | .str _, loc, pre, d, post, h => by
    cases pre with
    | nil =>
      simp only [descendValue, List.nil_append, List.cons.injEq] at h
      obtain ⟨hd, hp⟩ := h
      subst hd hp
      exact ⟨[], rfl⟩
    | cons p pre' => simp [descendValue] at h
  | .sentinel _, loc, pre, d, post, h => by
    cases pre with
    | nil =>
      simp only [descendValue, List.nil_append, List.cons.injEq] at h
      obtain ⟨hd, hp⟩ := h
      subst hd hp
      exact ⟨[], rfl⟩
    | cons p pre' => simp [descendValue] at h
/-- Pre-order inside the loop over the members of a dict. -/
theorem descendMembers_preorder : ∀ (ms : List (String × Value)) (loc : location_t)
    (pre : JSONPathNodeList) (d : JSONPathNode) (post : JSONPathNodeList),
    descendMembers ms loc = pre ++ d :: post → ∃ rest, d :: post = descend d ++ rest
  | [], _, pre, d, post, h => by simp [descendMembers] at h
  | (k, v) :: ms, loc, pre, d, post, h => by
    simp only [descendMembers] at h
    rcases List.append_eq_append_iff.1 h with ⟨a, _, hB⟩ | ⟨c, hA, hc⟩
    · exact descendMembers_preorder ms loc a d post hB
    · cases c with
      | nil =>
        simp only [List.nil_append] at hc
        exact descendMembers_preorder ms loc [] d post hc.symm
      | cons c0 c' =>
        simp only [List.cons_append, List.cons.injEq] at hc
        obtain ⟨hd, hp⟩ := hc
        subst hd
        obtain ⟨rest, hrest⟩ := descendValue_preorder v (loc ++ [.key k]) pre d c' hA
        exact ⟨rest ++ descendMembers ms loc, by rw [hp, ← List.append_assoc, ← hrest]; rfl⟩
/-- Pre-order inside the loop over the elements of a list. -/
theorem descendElems_preorder : ∀ (xs : List Value) (loc : location_t) (index : Nat)
    (pre : JSONPathNodeList) (d : JSONPathNode) (post : JSONPathNodeList),
    descendElems xs loc index = pre ++ d :: post → ∃ rest, d :: post = descend d ++ rest
  | [], _, _, pre, d, post, h => by simp [descendElems] at h
  | x :: xs, loc, index, pre, d, post, h => by
    simp only [descendElems] at h
    rcases List.append_eq_append_iff.1 h with ⟨a, _, hB⟩ | ⟨c, hA, hc⟩
    · exact descendElems_preorder xs loc (index + 1) a d post hB
    · cases c with
      | nil =>
        simp only [List.nil_append] at hc
        exact descendElems_preorder xs loc (index + 1) [] d post hc.symm
      | cons c0 c' =>
        simp only [List.cons_append, List.cons.injEq] at hc
        obtain ⟨hd, hp⟩ := hc
        subst hd
        obtain ⟨rest, hrest⟩ := descendValue_preorder x (loc ++ [.index index]) pre d c' hA
        exact ⟨rest ++ descendElems xs loc (index + 1),
          by rw [hp, ← List.append_assoc, ← hrest]; rfl⟩
end

/-- C13 (counterexample): on `{"x": {"a": 1}, "a": 2}` the query `$..a` returns `2` at
`$['a']` and then `1` at `$['x']['a']`, whereas document pre-order, the order of the
descendant list of the root, has `$['x']['a']` before `$['a']`: the matching members are
not returned in document pre-order. -/
theorem descendant_name_not_in_preorder :
    query_ [.recursive [.name "a"]]
        (.object [("x", .object [("a", .int 1)]), ("a", .int 2)])
        (fun _ => none) (fun _ => none) (.sentinel 0) =
      .ok [⟨.int 2, [.key "a"]⟩, ⟨.int 1, [.key "x", .key "a"]⟩] ∧
    descend ⟨.object [("x", .object [("a", .int 1)]), ("a", .int 2)], []⟩ =
      [⟨.object [("x", .object [("a", .int 1)]), ("a", .int 2)], []⟩,
        ⟨.object [("a", .int 1)], [.key "x"]⟩,
        ⟨.int 1, [.key "x", .key "a"]⟩,
        ⟨.int 2, [.key "a"]⟩] ∧
    membersInPreorder "a" (.object [("x", .object [("a", .int 1)]), ("a", .int 2)]) =
      [⟨.int 1, [.key "x", .key "a"]⟩, ⟨.int 2, [.key "a"]⟩] ∧
    query_ [.recursive [.name "a"]]
        (.object [("x", .object [("a", .int 1)]), ("a", .int 2)])
        (fun _ => none) (fun _ => none) (.sentinel 0) ≠
      .ok (membersInPreorder "a" (.object [("x", .object [("a", .int 1)]), ("a", .int 2)])) := by
  refine ⟨rfl, rfl, rfl, ?_⟩
  rw [show query_ [.recursive [.name "a"]]
        (.object [("x", .object [("a", .int 1)]), ("a", .int 2)])
        (fun _ => none) (fun _ => none) (.sentinel 0) =
      .ok [⟨.int 2, [.key "a"]⟩, ⟨.int 1, [.key "x", .key "a"]⟩] from rfl,
    show membersInPreorder "a" (.object [("x", .object [("a", .int 1)]), ("a", .int 2)]) =
      [⟨.int 1, [.key "x", .key "a"]⟩, ⟨.int 2, [.key "a"]⟩] from rfl]
  intro h
  simp at h

/-- C13 (amended): the descendant list of a node is the node itself followed, for each
child in order (Object members in insertion order, Array elements in index order), by
that child's descendant list, so that every node is immediately followed by its own
descendants; a descendant segment returns exactly when every selector returns on every
element of the descendant list of every input node, and its output is then the
concatenation, over the input nodes and over their descendant lists in that order, of
the selectors' outputs in selector order. So `..name` returns, for each element of the
descendant list of the root in pre-order, what the name selector yields on that element:
the matches are ordered by the pre-order position of the Object that holds them. On
`{"a": 1, "b": {"a": 2}}` the query `$..a` returns `1` at `$['a']` and then `2` at
`$['b']['a']`. -/
theorem descendant_segment_spec (ctx : QueryContext) :
    (∀ node : JSONPathNode, descend node = node :: (childNodes node).flatMap descend) ∧
    (∀ (node : JSONPathNode) (pre : JSONPathNodeList) (d : JSONPathNode)
        (post : JSONPathNodeList),
      descend node = pre ++ d :: post → ∃ rest, d :: post = descend d ++ rest) ∧
    (∀ (nodes : JSONPathNodeList) (selectors : List Selector) (out : JSONPathNodeList),
      resolve_segment ctx nodes (.recursive selectors) = .ok out ↔
        (∀ n ∈ nodes, ∀ d ∈ descend n, ∀ s ∈ selectors, ∃ o, s.apply ctx d = .ok o) ∧
        out = nodes.flatMap (fun n => (descend n).flatMap
          (fun d => selectors.flatMap (fun s => resultNodes (s.apply ctx d))))) ∧
    (∀ (root : Value) (k : String) (functions : function_extension_map)
        (signatures : function_signature_map) (nothing : Value),
      query_ [.recursive [.name k]] root functions signatures nothing =
        .ok ((descend ⟨root, []⟩).flatMap (fun d =>
          match d.value with
          | .object ms =>
            match lookupMember (c_str k) ms with
            | some v => [⟨v, d.location ++ [.key k]⟩]
            | none => []
          | _ => []))) ∧
    query_ [.recursive [.name "a"]]
        (.object [("a", .int 1), ("b", .object [("a", .int 2)])])
        (fun _ => none) (fun _ => none) (.sentinel 0) =
      .ok [⟨.int 1, [.key "a"]⟩, ⟨.int 2, [.key "b", .key "a"]⟩] := by
  refine ⟨descend_eq, fun node pre d post h =>
    descendValue_preorder node.value node.location pre d post h, ?_, ?_, rfl⟩
  rotate_left
  · intro root k functions signatures nothing
    have hname : ∀ d : JSONPathNode,
        applySelectors ⟨root, functions, signatures, nothing⟩ d [.name k] =
          .ok (match d.value with
            | .object ms =>
              match lookupMember (c_str k) ms with
              | some v => [⟨v, d.location ++ [.key k]⟩]
              | none => []
            | _ => []) := by
      intro d
      obtain ⟨v, loc⟩ := d
      cases v with
      | object ms =>
        simp only [applySelectors, Selector.apply]
        cases lookupMember (c_str k) ms <;> simp
      | _ => rfl
    have hall := (concatMapM_eq_ok_iff
      (fun d => applySelectors ⟨root, functions, signatures, nothing⟩ d [.name k])
      (descend ⟨root, []⟩)
      ((descend ⟨root, []⟩).flatMap (fun d =>
          match d.value with
          | .object ms =>
            match lookupMember (c_str k) ms with
            | some v => [⟨v, d.location ++ [.key k]⟩]
            | none => []
          | _ => []))).2 ⟨fun d _ => ⟨_, hname d⟩, by
        apply List.flatMap_congr
        intro d _
        rw [hname d]
        rfl⟩
    simp only [query_, resolveSegments, resolve_segment, concatMapM, hall, List.append_nil]
  intro nodes selectors out
  simp only [resolve_segment]
  have hinner : ∀ (n : JSONPathNode) (o : JSONPathNodeList),
      concatMapM (fun d => applySelectors ctx d selectors) (descend n) = .ok o ↔
        (∀ d ∈ descend n, ∀ s ∈ selectors, ∃ o', s.apply ctx d = .ok o') ∧
        o = (descend n).flatMap
          (fun d => selectors.flatMap (fun s => resultNodes (s.apply ctx d))) := by
    intro n o
    exact concatMapM_applySelectors_eq_ok_iff ctx (descend n) selectors o
  rw [concatMapM_eq_ok_iff]
  constructor
  · rintro ⟨hall, hout⟩
    refine ⟨fun n hn => ?_, ?_⟩
    · obtain ⟨o, ho⟩ := hall n hn
      exact ((hinner n o).1 ho).1
    · rw [hout]
      apply List.flatMap_congr
      intro n hn
      obtain ⟨o, ho⟩ := hall n hn
      rw [ho, ((hinner n o).1 ho).2]
      rfl
  · rintro ⟨hall, hout⟩
    have hok : ∀ n ∈ nodes,
        concatMapM (fun d => applySelectors ctx d selectors) (descend n) =
          .ok ((descend n).flatMap
            (fun d => selectors.flatMap (fun s => resultNodes (s.apply ctx d)))) :=
      fun n hn => (hinner n _).2 ⟨hall n hn, rfl⟩
    refine ⟨fun n hn => ⟨_, hok n hn⟩, ?_⟩
    rw [hout]
    apply List.flatMap_congr
    intro n hn
    rw [hok n hn]
    rfl

/-! ## Reverse and tail slices -/

/-- The wildcard loop over a list, written over the positions `0, ..., n - 1`. -/
theorem wildElems_eq_map_range (loc : location_t) (xs : List Value) :
    wildElems loc 0 xs =
      (List.range xs.length).map (fun i => ⟨xs[i]?.getD .null, loc ++ [.index i]⟩) := by
  rw [wildElems_eq_map]
  apply List.ext_getElem?
  intro j
  simp only [List.getElem?_map, List.getElem?_enumFrom, Option.map_map, Nat.zero_add]
  by_cases hj : j < xs.length
  · simp [List.getElem?_range hj, List.getElem?_eq_getElem hj]
  · have hge : xs.length ≤ j := Nat.le_of_not_lt hj
    have hr : (List.range xs.length)[j]? = none :=
      List.getElem?_eq_none (by simpa using hge)
    simp [List.getElem?_eq_none hge, hr]

/-- The slice `[::-1]` on an array of length `n` lists the indices `n - 1, ..., 0`. -/
theorem specSliceIndices_reverse (n : Nat) :
    specSliceIndices n none none (some (-1)) =
      (List.range n).map (fun k : Nat => (n : Int) - 1 - (k : Int)) := by
  simp only [specSliceIndices, specSliceStep, Option.getD_some, specSliceStart,
    specSliceStop, progressionWhile]
  have hn : ((-1 : Int) - ((n : Int) - 1)).natAbs = n := by omega
  simp only [show ¬ ((-1 : Int) = 0) by decide, show ¬ ((-1 : Int) > 0) by decide, if_false,
    hn]
  have hmap : (List.range n).map (fun k : Nat => (n : Int) - 1 + (k : Int) * (-1)) =
      (List.range n).map (fun k : Nat => (n : Int) - 1 - (k : Int)) := by
    apply List.map_congr_left
    intro k _
    ring
  rw [hmap, List.takeWhile_eq_self_iff]
  intro x hx
  obtain ⟨k, hk, rfl⟩ := List.mem_map.1 hx
  have := List.mem_range.1 hk
  simp only [gt_iff_lt, decide_eq_true_eq]
  omega

/-- The slice `[-k:]` with `1 ≤ k ≤ n` on an array of length `n` lists the indices
`n - k, ..., n - 1`. -/
theorem specSliceIndices_tail (n k : Nat) (hk1 : 1 ≤ k) (hkn : k ≤ n) :
    specSliceIndices n (some (-(k : Int))) none none =
      (List.range k).map (fun j : Nat => (n : Int) - (k : Int) + (j : Int)) := by
  simp only [specSliceIndices, specSliceStep, Option.getD_none, specSliceStart,
    specSliceStop, progressionWhile]
  have hneg : -(k : Int) < 0 := by omega
  have hmax : max ((n : Int) + -(k : Int)) 0 = (n : Int) - (k : Int) := by
    rw [max_eq_left (by omega)]
    ring
  have hn : ((n : Int) - ((n : Int) - (k : Int))).natAbs = k := by omega
  simp only [show ¬ ((1 : Int) = 0) by decide, show ((1 : Int) > 0) by decide, if_false,
    if_true, hneg, hmax, hn]
  have hmap : (List.range k).map (fun j : Nat => (n : Int) - (k : Int) + (j : Int) * 1) =
      (List.range k).map (fun j : Nat => (n : Int) - (k : Int) + (j : Int)) := by
    apply List.map_congr_left
    intro j _
    ring
  rw [hmap, List.takeWhile_eq_self_iff]
  intro x hx
  obtain ⟨j, hj, rfl⟩ := List.mem_map.1 hx
  have := List.mem_range.1 hj
  simp only [decide_eq_true_eq]
  omega

/-- C19: on an array of length `n ≤ 2^63-1` the slice `[::-1]` yields all `n` elements
in reverse index order, with location indices `n - 1, n - 2, ..., 0`; and for every `k`
with `1 ≤ k ≤ n` the slice `[-k:]` yields the last `k` elements in index order, each
located at its index. -/
theorem slice_reverse_and_tail (ctx : QueryContext) (xs : List Value) (loc : location_t)
    (hlen : (xs.length : Int) ≤ INT64_MAX) :
    Selector.apply ctx ⟨.array xs, loc⟩ (.slice none none (some (-1))) =
      .ok (xs.enum.map (fun p => ⟨p.2, loc ++ [.index p.1]⟩)).reverse ∧
    ((xs.enum.map (fun p => (⟨p.2, loc ++ [.index p.1]⟩ : JSONPathNode))).reverse.map
        (fun node => node.location)) =
      (List.range xs.length).map (fun j => loc ++ [.index (xs.length - 1 - j)]) ∧
    (∀ k : Nat, 1 ≤ k → k ≤ xs.length →
      Selector.apply ctx ⟨.array xs, loc⟩ (.slice (some (-(k : Int))) none none) =
        .ok ((xs.enum.map (fun p => ⟨p.2, loc ++ [.index p.1]⟩)).drop (xs.length - k))) := by
  have henum : xs.enum.map (fun p => (⟨p.2, loc ++ [.index p.1]⟩ : JSONPathNode)) =
      (List.range xs.length).map (fun i => ⟨xs[i]?.getD .null, loc ++ [.index i]⟩) := by
    rw [← wildElems_eq_map_range, wildElems_eq_map]
    rfl
  have hrev : ((List.range xs.length).map
      (fun i => (⟨xs[i]?.getD .null, loc ++ [.index i]⟩ : JSONPathNode))).reverse =
      (List.range xs.length).map
        (fun j => ⟨xs[xs.length - 1 - j]?.getD .null, loc ++ [.index (xs.length - 1 - j)]⟩) := by
    rw [← List.map_reverse, List.range_eq_range', List.reverse_range', List.map_map,
      ← List.range_eq_range']
    apply List.map_congr_left
    intro j _
    simp only [Function.comp, Nat.zero_add]
  refine ⟨?_, ?_, ?_⟩
  · rw [henum, hrev]
    cases hxs : xs with
    | nil => rfl
    | cons x rest =>
      rw [← hxs]
      have hn : 0 < xs.length := by simp [hxs]
      have hidx := slice_indicies_eq_spec xs.length none none (some (-1)) hn hlen
        (by simp only [specSliceStep, Option.getD_some]; decide)
        (by simp only [specSliceStep, Option.getD_some]; omega)
      have hrange := specSliceIndices_inRange xs.length hn none none (some (-1))
      simp only [Selector.apply, hidx]
      rw [sliceNodes_of_inRange xs loc _ hrange, specSliceIndices_reverse, List.map_map]
      congr 1
      apply List.map_congr_left
      intro j hj
      have hj' := List.mem_range.1 hj
      have hto : ((xs.length : Int) - 1 - (j : Int)).toNat = xs.length - 1 - j := by omega
      simp only [Function.comp, hto]
  · rw [henum, hrev, List.map_map]
    rfl
  · intro k hk1 hkn
    have hn : 0 < xs.length := by omega
    have hidx := slice_indicies_eq_spec xs.length (some (-(k : Int))) none none hn hlen
      (by simp only [specSliceStep, Option.getD_none]; decide)
      (by simp only [specSliceStep, Option.getD_none]; omega)
    have hrange := specSliceIndices_inRange xs.length hn (some (-(k : Int))) none none
    simp only [Selector.apply, hidx]
    rw [sliceNodes_of_inRange xs loc _ hrange, specSliceIndices_tail xs.length k hk1 hkn,
      List.map_map, henum]
    congr 1
    have hsplit : List.range xs.length =
        List.range (xs.length - k) ++
          (List.range k).map (fun j => xs.length - k + j) := by
      rw [← List.range_add]
      congr 1
      omega
    rw [hsplit, List.map_append, List.drop_left' (by simp), List.map_map]
    apply List.map_congr_left
    intro j hj
    have hto : ((xs.length : Int) - (k : Int) + (j : Int)).toNat = xs.length - k + j := by
      omega
    simp only [Function.comp, hto]

/-- Witness for C19: on `[0, 1, 2, 3, 4]` the slice `[::-1]` yields `4, 3, 2, 1, 0`
and the slice `[-2:]` yields `3, 4`. -/
theorem slice_reverse_and_tail_witness :
    Selector.apply (plainContext .null)
        ⟨.array [.int 0, .int 1, .int 2, .int 3, .int 4], []⟩
        (.slice none none (some (-1))) =
      .ok [⟨.int 4, [.index 4]⟩, ⟨.int 3, [.index 3]⟩, ⟨.int 2, [.index 2]⟩,
        ⟨.int 1, [.index 1]⟩, ⟨.int 0, [.index 0]⟩] ∧
    Selector.apply (plainContext .null)
        ⟨.array [.int 0, .int 1, .int 2, .int 3, .int 4], []⟩
        (.slice (some (-2)) none none) =
      .ok [⟨.int 3, [.index 3]⟩, ⟨.int 4, [.index 4]⟩] :=
  ⟨(slice_reverse_and_tail (plainContext .null) [.int 0, .int 1, .int 2, .int 3, .int 4] []
      (by decide)).1,
    (slice_reverse_and_tail (plainContext .null) [.int 0, .int 1, .int 2, .int 3, .int 4] []
      (by decide)).2.2 2 (by decide) (by decide)⟩

/-! ## Slices with a start at the end of the array -/

/-- C18 (the code at the failing input): the slice `[5:5]` on `[0, 1, 2, 3, 4]` has
`0 ≤ a ≤ b ≤ n` and `b - a = 0`, but `slice_indicies` clamps the start to
`length - 1 = 4`, keeps the stop `5`, and returns index `4`, so the selector emits the
last element; the slice `[1:4]` yields the elements at `1`, `2`, `3`. -/
theorem slice_empty_range_at_end_selects_last :
    slice_indicies (some 5) (some 5) none 5 = .ok [4] ∧
    Selector.apply (plainContext .null)
        ⟨.array [.int 0, .int 1, .int 2, .int 3, .int 4], []⟩ (.slice (some 5) (some 5) none) =
      .ok [⟨.int 4, [.index 4]⟩] ∧
    rfcSliceIndices 5 (some 5) (some 5) none = [] ∧
    Selector.apply (plainContext .null)
        ⟨.array [.int 0, .int 1, .int 2, .int 3, .int 4], []⟩ (.slice (some 1) (some 4) none) =
      .ok [⟨.int 1, [.index 1]⟩, ⟨.int 2, [.index 2]⟩, ⟨.int 3, [.index 3]⟩] :=
  ⟨rfl, rfl, by decide, rfl⟩

/-! ## Filter on the equality of two members -/

/-- On an Object holding both members looked up, the expression `@.a == @.b` evaluates to
the boolean `a value == b value`, with Python `==`. -/
theorem eval_member_equality (ctx : QueryContext) (a b : String)
    (ms : List (String × Value)) (va vb : Value) (ha : lookupMember (c_str a) ms = some va)
    (hb : lookupMember (c_str b) ms = some vb) :
    Expression.eval ⟨ctx, .object ms⟩
        (.binary (.relativeQuery [.child [.name a]]) .eq (.relativeQuery [.child [.name b]])) =
      .ok (.object (.value (.bool (va.equal vb)))) := by
  simp [Expression.eval, resolveSegments, resolve_segment, concatMapM, applySelectors,
    Selector.apply, ha, hb, infixResult, unpack, compare, equals, PyObject.equal]

/-- What `$[?@.a==@.b]` does, for names `a` and `b` without U+0000: on an array whose
elements are all Objects holding both members, the query returns exactly the elements
whose `a` value is `==` to their `b` value in the sense of Python (`Value.equal`, for
which `true == 1`), in array order, each located at its array index. -/
theorem filter_member_python_equality (a b : String) (xs : List Value)
    (functions : function_extension_map) (signatures : function_signature_map)
    (nothing : Value) (hna : c_str a = a) (hnb : c_str b = b)
    (h : ∀ x ∈ xs, ∃ ms va vb, x = .object ms ∧ lookupMember a ms = some va ∧
      lookupMember b ms = some vb) :
    query_
        [.child [.filter
          (.binary (.relativeQuery [.child [.name a]]) .eq
            (.relativeQuery [.child [.name b]]))]]
        (.array xs) functions signatures nothing =
      .ok ((xs.enum.map (fun p => ⟨p.2, [.index p.1]⟩)).filter
        (fun c => memberEqual a b c.value)) := by
  have hw : xs.enum.map (fun p => (⟨p.2, [.index p.1]⟩ : JSONPathNode)) = wildElems [] 0 xs := by
    rw [wildElems_eq_map]
    rfl
  have hmem : ∀ c ∈ wildElems [] 0 xs, c.value ∈ xs := by
    intro c hc
    obtain ⟨j, _, hget⟩ := wildElems_getElem [] xs 0 c hc
    exact List.getElem?_mem hget
  have hall : ∀ c ∈ wildElems [] 0 xs, ∃ bv,
      (match Expression.eval ⟨⟨.array xs, functions, signatures, nothing⟩, c.value⟩
          (.binary (.relativeQuery [.child [.name a]]) .eq
            (.relativeQuery [.child [.name b]])) with
        | .error err => (.error err : Except Error Bool)
        | .ok rv => .ok (is_truthy rv)) = .ok bv ∧ bv = memberEqual a b c.value := by
    intro c hc
    obtain ⟨ms, va, vb, hx, ha, hb⟩ := h c.value (hmem c hc)
    refine ⟨va.equal vb, ?_, ?_⟩
    · rw [hx, eval_member_equality _ a b ms va vb (by rw [hna]; exact ha)
        (by rw [hnb]; exact hb)]
      cases va.equal vb <;> rfl
    · rw [hx]
      simp [memberEqual, ha, hb]
  have hfilter := filterElems_of_ok
    (fun val =>
      match Expression.eval ⟨⟨.array xs, functions, signatures, nothing⟩, val⟩
          (.binary (.relativeQuery [.child [.name a]]) .eq
            (.relativeQuery [.child [.name b]])) with
      | .error err => (.error err : Except Error Bool)
      | .ok rv => .ok (is_truthy rv))
    [] xs 0 (fun c hc => ⟨_, (hall c hc).choose_spec.1⟩)
  have hcongr : (wildElems [] 0 xs).filter
      (fun c => testHolds
        (match Expression.eval ⟨⟨.array xs, functions, signatures, nothing⟩, c.value⟩
            (.binary (.relativeQuery [.child [.name a]]) .eq
              (.relativeQuery [.child [.name b]])) with
          | .error err => (.error err : Except Error Bool)
          | .ok rv => .ok (is_truthy rv))) =
      (wildElems [] 0 xs).filter (fun c => memberEqual a b c.value) := by
    apply List.filter_congr
    intro c hc
    obtain ⟨bv, hbv, heq⟩ := hall c hc
    rw [hbv, ← heq]
    rfl
  rw [hw, ← hcongr, query_]
  simp only [resolveSegments, resolve_segment, concatMapM, applySelectors, Selector.apply,
    hfilter, List.append_nil]

/-- An instance of `filter_member_python_equality`: on
`[{"a": 1, "b": 1}, {"a": 1, "b": 2}]` only the first element matches `$[?@.a==@.b]`. -/
theorem filter_member_python_equality_witness :
    query_
        [.child [.filter
          (.binary (.relativeQuery [.child [.name "a"]]) .eq
            (.relativeQuery [.child [.name "b"]]))]]
        (.array [.object [("a", .int 1), ("b", .int 1)], .object [("a", .int 1), ("b", .int 2)]])
        (fun _ => none) (fun _ => none) (.sentinel 0) =
      .ok [⟨.object [("a", .int 1), ("b", .int 1)], [.index 0]⟩] := by
  rw [filter_member_python_equality "a" "b"
    [.object [("a", .int 1), ("b", .int 1)], .object [("a", .int 1), ("b", .int 2)]]
    (fun _ => none) (fun _ => none) (.sentinel 0) (by decide) (by decide) (by
      intro x hx
      simp only [List.mem_cons, List.mem_singleton, List.not_mem_nil, or_false] at hx
      rcases hx with rfl | rfl
      · exact ⟨_, .int 1, .int 1, rfl, rfl, rfl⟩
      · exact ⟨_, .int 1, .int 2, rfl, rfl, rfl⟩)]
  rfl

/-- C20: on the array `[{"a": true, "b": 1}, {"a": 1, "b": 2}]`, whose elements are
Objects having both members `a` and `b`, the query `$[?@.a==@.b]` returns the first
element, although its `a` value is the boolean `true` and its `b` value the number `1`:
the filter compares the two member values with `equals`, which hands them to Python `==`
(`true == 1`), while `less_than` does refuse a boolean against a number. -/
theorem filter_member_equality_of_true_and_one :
    query_
        [.child [.filter
          (.binary (.relativeQuery [.child [.name "a"]]) .eq
            (.relativeQuery [.child [.name "b"]]))]]
        (.array [.object [("a", .bool true), ("b", .int 1)],
          .object [("a", .int 1), ("b", .int 2)]])
        (fun _ => none) (fun _ => none) (.sentinel 0) =
      .ok [⟨.object [("a", .bool true), ("b", .int 1)], [.index 0]⟩] ∧
    equals (.sentinel 0) (.nodes [⟨.bool true, [.key "a"]⟩]) (.nodes [⟨.int 1, [.key "b"]⟩]) =
      true ∧
    less_than (.object (.value (.bool true))) (.object (.value (.int 1))) = false ∧
    less_than (.object (.value (.int 1))) (.object (.value (.bool true))) = false :=
  ⟨rfl, by decide, rfl, rfl⟩

/-! ## Selectors on scalars -/

/-- C22: applying any selector (name, index, wildcard, slice or filter) to a value that
is neither an Object nor an Array yields no node and raises no error, whatever the
selector holds; a filter's expression is not evaluated. -/
theorem selector_on_scalar (ctx : QueryContext) (v : Value) (loc : location_t)
    (selector : Selector) (hobj : ∀ ms, v ≠ .object ms) (harr : ∀ xs, v ≠ .array xs) :
    selector.apply ctx ⟨v, loc⟩ = .ok [] := by
  cases v with
  | object ms => exact absurd rfl (hobj ms)
  | array xs => exact absurd rfl (harr xs)
  | null => cases selector <;> rfl
  | bool _ => cases selector <;> rfl
  | int _ => cases selector <;> rfl
  | float _ => cases selector <;> rfl
  | str _ => cases selector <;> rfl
  | sentinel _ => cases selector <;> rfl

/-- Witness for C22: a filter calling an unknown function, applied to the number `1`,
yields nothing and raises no error. -/
theorem selector_on_scalar_witness :
    Selector.apply (plainContext .null) ⟨.int 1, []⟩
      (.filter (.functionCall "unknown" [.relativeQuery []])) = .ok [] :=
  selector_on_scalar (plainContext .null) (.int 1) []
    (.filter (.functionCall "unknown" [.relativeQuery []]))
    (fun _ h => by cases h) (fun _ h => by cases h)

/-! ## Comparison operators -/

/-- C24: for all evaluated operands, `a > b` is `b < a`, `a <= b` is `a < b or a == b`,
`a >= b` is `b < a or a == b`, and `a != b` is the negation of `a == b`; for every pair
that is not two strings or two numbers (a boolean, null, a node list or a mixed pair on
either side) `<` and `>` are false and `<=` and `>=` are exactly `==`. -/
theorem compare_spec (nothing : Value) (a b : expression_rv) :
    compare nothing a .lt b = less_than a b ∧
    compare nothing a .gt b = compare nothing b .lt a ∧
    compare nothing a .le b = (compare nothing a .lt b || compare nothing a .eq b) ∧
    compare nothing a .ge b = (compare nothing b .lt a || compare nothing a .eq b) ∧
    compare nothing a .ne b = !compare nothing a .eq b ∧
    (orderedPair a b = false →
      compare nothing a .lt b = false ∧ compare nothing a .gt b = false ∧
      compare nothing a .le b = compare nothing a .eq b ∧
      compare nothing a .ge b = compare nothing a .eq b) := by
  refine ⟨rfl, rfl, rfl, rfl, rfl, ?_⟩
  intro h
  have h1 : less_than a b = false := by
    cases a with
    | nodes _ => rfl
    | object oa =>
      cases oa with
      | nodes _ => rfl
      | value v =>
        cases b with
        | nodes _ => rfl
        | object ob =>
          cases ob with
          | nodes _ => rfl
          | value w =>
            cases v <;> cases w <;>
              first
                | rfl
                | simp [orderedPair, Value.isStr, Value.isNumber] at h
  have h2 : less_than b a = false := by
    cases a with
    | nodes _ =>
      cases b with
      | nodes _ => rfl
      | object ob => cases ob <;> rfl
    | object oa =>
      cases oa with
      | nodes _ =>
        cases b with
        | nodes _ => rfl
        | object ob => cases ob <;> rfl
      | value v =>
        cases b with
        | nodes _ => rfl
        | object ob =>
          cases ob with
          | nodes _ => rfl
          | value w =>
            cases v <;> cases w <;>
              first
                | rfl
                | simp [orderedPair, Value.isStr, Value.isNumber] at h
  simp [compare, h1, h2]

/-- Witness for C24: `null <= null` holds because `null == null` does, and `null < null`
does not. -/
theorem compare_spec_witness :
    compare (.sentinel 0) (.object (.value .null)) .lt (.object (.value .null)) = false ∧
    compare (.sentinel 0) (.object (.value .null)) .le (.object (.value .null)) = true :=
  ⟨((compare_spec (.sentinel 0) (.object (.value .null)) (.object (.value .null))).2.2.2.2.2
      rfl).1,
    by
      rw [((compare_spec (.sentinel 0) (.object (.value .null))
        (.object (.value .null))).2.2.2.2.2 rfl).2.2.1]
      rfl⟩

/-! ## Function calls -/

/-- The loop over the segments of a concatenated query runs the first part and then the
second part on its output; an error in the first part is the result. -/
theorem resolveSegments_append (ctx : QueryContext) (pre post : List Segment) :
    ∀ nodes : JSONPathNodeList,
      resolveSegments ctx nodes (pre ++ post) =
        (match resolveSegments ctx nodes pre with
          | .error e => .error e
          | .ok mid => resolveSegments ctx mid post) := by
  induction pre with
  | nil => intro nodes; rfl
  | cons segment rest ih =>
    intro nodes
    simp only [List.cons_append, resolveSegments]
    cases resolve_segment ctx nodes segment with
    | error e => rfl
    | ok mid => exact ih mid

/-- A function call whose function or whose signature is missing raises `NameError`,
whatever its arguments are. -/
theorem eval_functionCall_nameError (ctx : FilterContext) (name : String)
    (args : List Expression)
    (h : ctx.query.functions name = none ∨ ctx.query.signatures name = none) :
    (Expression.functionCall name args).eval ctx = .error .nameError := by
  rw [Expression.eval]
  cases hf : ctx.query.functions name with
  | none => rfl
  | some func =>
    rcases h with h | h
    · rw [hf] at h
      cases h
    · simp only [h]

/-- A filter selector whose expression fails for every current value fails on every node
that has a child. -/
theorem filter_fails_of_eval_fails (ctx : QueryContext) (node : JSONPathNode)
    (e : Expression) (hfail : ∀ current, ∀ rv, e.eval ⟨ctx, current⟩ ≠ .ok rv)
    (hchild : childNodes node ≠ []) :
    ∀ out, Selector.apply ctx node (.filter e) ≠ .ok out := by
  intro out h
  obtain ⟨value, loc⟩ := node
  cases value with
  | object ms =>
    simp only [Selector.apply] at h
    obtain ⟨_, hall⟩ := filterMembers_ok _ loc ms out h
    cases hw : wildMembers loc ms with
    | nil => exact hchild (by simp [childNodes, hw])
    | cons c rest =>
      obtain ⟨b, hb⟩ := hall c (by simp [hw])
      cases hev : e.eval ⟨ctx, c.value⟩ with
      | error err => simp [hev] at hb
      | ok rv => exact hfail c.value rv hev
  | array xs =>
    simp only [Selector.apply] at h
    obtain ⟨_, hall⟩ := filterElems_ok _ loc xs 0 out h
    cases hw : wildElems loc 0 xs with
    | nil => exact hchild (by simp [childNodes, hw])
    | cons c rest =>
      obtain ⟨b, hb⟩ := hall c (by simp [hw])
      cases hev : e.eval ⟨ctx, c.value⟩ with
      | error err => simp [hev] at hb
      | ok rv => exact hfail c.value rv hev
  | null => exact hchild rfl
  | bool _ => exact hchild rfl
  | int _ => exact hchild rfl
  | float _ => exact hchild rfl
  | str _ => exact hchild rfl
  | sentinel _ => exact hchild rfl

/-- The loop `concatMapM` ends at the first step that fails, with the error of that
step. -/
theorem concatMapM_error_of_first {α β : Type} (f : α → Except Error (List β)) (a : α)
    (post : List α) (x : Error) (ha : f a = .error x) :
    ∀ pre : List α, (∀ p ∈ pre, ∃ o, f p = .ok o) →
      concatMapM f (pre ++ a :: post) = .error x := by
  intro pre
  induction pre with
  | nil =>
    intro _
    simp [concatMapM, ha]
  | cons p pre ih =>
    intro h
    obtain ⟨o, ho⟩ := h p (List.mem_cons_self _ _)
    have hih := ih (fun q hq => h q (List.mem_cons_of_mem _ hq))
    show concatMapM f (p :: (pre ++ a :: post)) = _
    simp only [concatMapM, ho, hih]

/-- The loop `concatMapM` over a concatenation runs the first part, then the second. -/
theorem concatMapM_append {α β : Type} (f : α → Except Error (List β)) (ys : List α) :
    ∀ xs : List α, concatMapM f (xs ++ ys) =
      (match concatMapM f xs with
        | .error e => .error e
        | .ok a =>
          match concatMapM f ys with
          | .error e => .error e
          | .ok b => .ok (a ++ b)) := by
  intro xs
  induction xs with
  | nil =>
    simp only [List.nil_append, concatMapM]
    cases concatMapM f ys <;> simp
  | cons x xs ih =>
    show concatMapM f (x :: (xs ++ ys)) = _
    simp only [concatMapM, ih]
    cases f x with
    | error e => rfl
    | ok o =>
      cases concatMapM f xs with
      | error e => rfl
      | ok a =>
        cases concatMapM f ys with
        | error e => rfl
        | ok b => simp

/-- Two nested `concatMapM` loops are one loop over the concatenated inner lists. -/
theorem concatMapM_flatMap {α β γ : Type} (g : β → Except Error (List γ)) (h : α → List β) :
    ∀ xs : List α,
      concatMapM (fun x => concatMapM g (h x)) xs = concatMapM g (xs.flatMap h) := by
  intro xs
  induction xs with
  | nil => rfl
  | cons x xs ih =>
    rw [List.flatMap_cons, concatMapM_append]
    simp only [concatMapM, ih]

/-- The loop over the selectors of a segment ends at the first selector that fails, with
the error of that selector. -/
theorem applySelectors_error_of_first (ctx : QueryContext) (node : JSONPathNode)
    (s : Selector) (post : List Selector) (x : Error) (hs : s.apply ctx node = .error x) :
    ∀ pre : List Selector, (∀ p ∈ pre, ∃ o, p.apply ctx node = .ok o) →
      applySelectors ctx node (pre ++ s :: post) = .error x := by
  intro pre
  induction pre with
  | nil =>
    intro _
    simp [applySelectors, hs]
  | cons p pre ih =>
    intro h
    obtain ⟨o, ho⟩ := h p (List.mem_cons_self _ _)
    have hih := ih (fun q hq => h q (List.mem_cons_of_mem _ hq))
    show applySelectors ctx node (p :: (pre ++ s :: post)) = _
    simp only [applySelectors, ho, hih]

/-- The filter loop over the items of a dict ends at the first member on which the test
fails, with the error of the test. -/
theorem filterMembers_error_of_first (test : Value → Except Error Bool) (loc : location_t)
    (x : Error) :
    ∀ (ms : List (String × Value)) (pre : JSONPathNodeList) (c : JSONPathNode)
      (post : JSONPathNodeList), wildMembers loc ms = pre ++ c :: post →
      (∀ p ∈ pre, ∃ b, test p.value = .ok b) → test c.value = .error x →
        filterMembers test loc ms = .error x := by
  intro ms
  induction ms with
  | nil =>
    intro pre c post h
    simp [wildMembers] at h
  | cons m ms ih =>
    obtain ⟨k, v⟩ := m
    intro pre c post h hpre hc
    cases pre with
    | nil =>
      simp only [wildMembers, List.nil_append, List.cons.injEq] at h
      obtain ⟨hv, _⟩ := h
      subst hv
      simp only [filterMembers]
      simp only [] at hc
      rw [hc]
    | cons p pre =>
      simp only [wildMembers, List.cons_append, List.cons.injEq] at h
      obtain ⟨hv, hrest⟩ := h
      obtain ⟨b, hb⟩ := hpre p (List.mem_cons_self _ _)
      subst hv
      simp only [] at hb
      simp only [filterMembers, hb,
        ih pre c post hrest (fun q hq => hpre q (List.mem_cons_of_mem _ hq)) hc]

/-- The filter loop over the items of a list ends at the first element on which the test
fails, with the error of the test. -/
theorem filterElems_error_of_first (test : Value → Except Error Bool) (loc : location_t)
    (x : Error) :
    ∀ (xs : List Value) (index : Nat) (pre : JSONPathNodeList) (c : JSONPathNode)
      (post : JSONPathNodeList), wildElems loc index xs = pre ++ c :: post →
      (∀ p ∈ pre, ∃ b, test p.value = .ok b) → test c.value = .error x →
        filterElems test loc index xs = .error x := by
  intro xs
  induction xs with
  | nil =>
    intro index pre c post h
    simp [wildElems] at h
  | cons v xs ih =>
    intro index pre c post h hpre hc
    cases pre with
    | nil =>
      simp only [wildElems, List.nil_append, List.cons.injEq] at h
      obtain ⟨hv, _⟩ := h
      subst hv
      simp only [filterElems]
      simp only [] at hc
      rw [hc]
    | cons p pre =>
      simp only [wildElems, List.cons_append, List.cons.injEq] at h
      obtain ⟨hv, hrest⟩ := h
      obtain ⟨b, hb⟩ := hpre p (List.mem_cons_self _ _)
      subst hv
      simp only [] at hb
      simp only [filterElems, hb,
        ih (index + 1) pre c post hrest (fun q hq => hpre q (List.mem_cons_of_mem _ hq)) hc]

/-- A filter selector ends at the first child of the node on which its expression fails,
with the error of the expression. -/
theorem Selector.apply_filter_error (ctx : QueryContext) (node : JSONPathNode)
    (e : Expression) (pre : JSONPathNodeList) (c : JSONPathNode) (post : JSONPathNodeList)
    (x : Error) (hch : childNodes node = pre ++ c :: post)
    (hpre : ∀ p ∈ pre, ∃ rv, e.eval ⟨ctx, p.value⟩ = .ok rv)
    (hc : e.eval ⟨ctx, c.value⟩ = .error x) :
    Selector.apply ctx node (.filter e) = .error x := by
  obtain ⟨value, loc⟩ := node
  have htest : ∀ p ∈ pre, ∃ b,
      (match e.eval ⟨ctx, p.value⟩ with
        | .error err => (.error err : Except Error Bool)
        | .ok rv => .ok (is_truthy rv)) = .ok b := by
    intro p hp
    obtain ⟨rv, hrv⟩ := hpre p hp
    exact ⟨is_truthy rv, by rw [hrv]⟩
  have hfail :
      (match e.eval ⟨ctx, c.value⟩ with
        | .error err => (.error err : Except Error Bool)
        | .ok rv => .ok (is_truthy rv)) = .error x := by
    rw [hc]
  cases value with
  | object ms =>
    simp only [Selector.apply]
    exact filterMembers_error_of_first _ loc x ms pre c post hch htest hfail
  | array xs =>
    simp only [Selector.apply]
    exact filterElems_error_of_first _ loc x xs 0 pre c post hch htest hfail
  | null => simp [childNodes] at hch
  | bool _ => simp [childNodes] at hch
  | int _ => simp [childNodes] at hch
  | float _ => simp [childNodes] at hch
  | str _ => simp [childNodes] at hch
  | sentinel _ => simp [childNodes] at hch

/-- The loop over the arguments of a function call ends at the first argument whose
evaluation fails, with the error of that argument. -/
theorem evalArgs_error_of_first (ctx : FilterContext) (func_sig : FunctionExtensionTypes)
    (a : Expression) (post : List Expression) (x : Error) (ha : a.eval ctx = .error x) :
    ∀ (pre : List Expression) (index : Nat) (outs : List PyObject),
      evalArgs ctx func_sig index pre = .ok outs →
        evalArgs ctx func_sig index (pre ++ a :: post) = .error x := by
  intro pre
  induction pre with
  | nil =>
    intro index outs _
    simp [evalArgs, ha]
  | cons p pre ih =>
    intro index outs h
    simp only [evalArgs] at h
    split at h
    · cases h
    · rename_i rv harg
      split at h
      · cases h
      · rename_i v hco
        split at h
        · cases h
        · rename_i as hrest
          have hih := ih (index + 1) as hrest
          show evalArgs ctx func_sig index (p :: (pre ++ a :: post)) = _
          simp only [evalArgs, harg, hco, hih]

/-- A filter selector whose expression fails with the error `x` for every current value
fails with `x` on the first node of a list that has a child, whether the selector is
applied to the nodes themselves or to their descendants. -/
theorem filter_segment_error (ctx : QueryContext) (e : Expression) (x : Error)
    (hfail : ∀ current, e.eval ⟨ctx, current⟩ = .error x) :
    ∀ nodes : JSONPathNodeList, (∃ n ∈ nodes, childNodes n ≠ []) →
      concatMapM (fun n => applySelectors ctx n [.filter e]) nodes = .error x := by
  intro nodes
  induction nodes with
  | nil =>
    rintro ⟨n, hn, _⟩
    cases hn
  | cons m nodes ih =>
    intro h
    cases hch : childNodes m with
    | cons c post =>
      have hm : Selector.apply ctx m (.filter e) = .error x :=
        Selector.apply_filter_error ctx m e [] c post x hch (fun _ hp => by cases hp)
          (hfail c.value)
      simp only [concatMapM, applySelectors, hm]
    | nil =>
      have hm : Selector.apply ctx m (.filter e) = .ok [] := by
        obtain ⟨value, loc⟩ := m
        cases value with
        | object ms =>
          cases ms with
          | nil => rfl
          | cons p ms =>
            obtain ⟨k, v⟩ := p
            simp [childNodes, wildMembers] at hch
        | array xs =>
          cases xs with
          | nil => rfl
          | cons v xs => simp [childNodes, wildElems] at hch
        | _ => rfl
      have hrest : ∃ n ∈ nodes, childNodes n ≠ [] := by
        obtain ⟨n, hn, hne⟩ := h
        rcases List.mem_cons.1 hn with rfl | hn
        · exact absurd hch hne
        · exact ⟨n, hn, hne⟩
      have ha : applySelectors ctx m [.filter e] = .ok [] := by
        simp only [applySelectors, hm, List.append_nil]
      have hih := ih hrest
      simp only [concatMapM, ha, hih]

/-- C21: a function call whose name is absent from `functions`, or present there but
absent from `signatures`, fails with `NameError` whatever its arguments and whatever the
function is (no argument is evaluated, no function is invoked). Nothing catches an
error: every construct that encloses an evaluation returns the first error raised in
it, unchanged. A negation returns the error of its operand; a binary expression the
error of its left operand, or of its right operand when the left one evaluated; a
function call the error of the first argument that fails; a relative or root query the
error of the query; a filter selector the error of its expression on the first child
where it fails; a child segment and a descendant segment the error of the first selector
that fails on the first node, or descendant, where one fails; `query_` the error of the
first segment that fails. So a query whose segment `[?e]` or `..[?e]` reaches a node that
has a child fails with the error of `e` whenever `e` fails with that error for every
current value, as `foo(@)`, `!foo(@)` and `foo(@) > 2` do with `NameError` for a
missing `foo`; the queries `$[?foo(@)]`, `$[?foo(@) > 2]`, `$[?2 < foo(@)]`,
`$[?!foo(@)]`, `$..[?foo()]`, `$[?@[?foo(@)]]` and `$[0, ?foo(@)]` fail with
`NameError`. -/
theorem unknown_function_nameError :
    (∀ (ctx : FilterContext) (name : String) (args : List Expression),
      ctx.query.functions name = none →
        (Expression.functionCall name args).eval ctx = .error .nameError) ∧
    (∀ (ctx : FilterContext) (name : String) (args : List Expression) (func : PyCallable),
      ctx.query.functions name = some func → ctx.query.signatures name = none →
        (Expression.functionCall name args).eval ctx = .error .nameError) ∧
    (∀ (ctx : FilterContext) (e : Expression) (x : Error),
      e.eval ctx = .error x → (Expression.logicalNot e).eval ctx = .error x) ∧
    (∀ (ctx : FilterContext) (l : Expression) (op : BinaryOperator) (r : Expression)
        (x : Error),
      l.eval ctx = .error x → (Expression.binary l op r).eval ctx = .error x) ∧
    (∀ (ctx : FilterContext) (l : Expression) (op : BinaryOperator) (r : Expression)
        (lv : expression_rv) (x : Error),
      l.eval ctx = .ok lv → r.eval ctx = .error x →
        (Expression.binary l op r).eval ctx = .error x) ∧
    (∀ (ctx : FilterContext) (name : String) (func : PyCallable)
        (func_sig : FunctionExtensionTypes) (pre : List Expression) (a : Expression)
        (post : List Expression) (outs : List PyObject) (x : Error),
      ctx.query.functions name = some func → ctx.query.signatures name = some func_sig →
      evalArgs ctx func_sig 0 pre = .ok outs → a.eval ctx = .error x →
        (Expression.functionCall name (pre ++ a :: post)).eval ctx = .error x) ∧
    (∀ (ctx : FilterContext) (query : segments_t) (x : Error),
      query_ query ctx.current ctx.query.functions ctx.query.signatures ctx.query.nothing =
          .error x →
        (Expression.relativeQuery query).eval ctx = .error x) ∧
    (∀ (ctx : FilterContext) (query : segments_t) (x : Error),
      query_ query ctx.query.root ctx.query.functions ctx.query.signatures
          ctx.query.nothing = .error x →
        (Expression.rootQuery query).eval ctx = .error x) ∧
    (∀ (ctx : QueryContext) (node : JSONPathNode) (e : Expression)
        (pre : JSONPathNodeList) (c : JSONPathNode) (post : JSONPathNodeList) (x : Error),
      childNodes node = pre ++ c :: post →
      (∀ p ∈ pre, ∃ rv, e.eval ⟨ctx, p.value⟩ = .ok rv) →
      e.eval ⟨ctx, c.value⟩ = .error x →
        Selector.apply ctx node (.filter e) = .error x) ∧
    (∀ (ctx : QueryContext) (node : JSONPathNode) (pre : List Selector) (s : Selector)
        (post : List Selector) (x : Error),
      (∀ p ∈ pre, ∃ o, p.apply ctx node = .ok o) → s.apply ctx node = .error x →
        applySelectors ctx node (pre ++ s :: post) = .error x) ∧
    (∀ (ctx : QueryContext) (selectors : List Selector) (pre : JSONPathNodeList)
        (n : JSONPathNode) (post : JSONPathNodeList) (x : Error),
      (∀ p ∈ pre, ∃ o, applySelectors ctx p selectors = .ok o) →
      applySelectors ctx n selectors = .error x →
        resolve_segment ctx (pre ++ n :: post) (.child selectors) = .error x) ∧
    (∀ (ctx : QueryContext) (selectors : List Selector) (nodes pre : JSONPathNodeList)
        (d : JSONPathNode) (post : JSONPathNodeList) (x : Error),
      nodes.flatMap descend = pre ++ d :: post →
      (∀ p ∈ pre, ∃ o, applySelectors ctx p selectors = .ok o) →
      applySelectors ctx d selectors = .error x →
        resolve_segment ctx nodes (.recursive selectors) = .error x) ∧
    (∀ (pre : segments_t) (segment : Segment) (rest : segments_t) (obj : Value)
        (functions : function_extension_map) (signatures : function_signature_map)
        (nothing : Value) (mid : JSONPathNodeList) (x : Error),
      query_ pre obj functions signatures nothing = .ok mid →
      resolve_segment ⟨obj, functions, signatures, nothing⟩ mid segment = .error x →
        query_ (pre ++ segment :: rest) obj functions signatures nothing = .error x) ∧
    (∀ (pre : segments_t) (e : Expression) (rest : segments_t) (obj : Value)
        (functions : function_extension_map) (signatures : function_signature_map)
        (nothing : Value) (mid : JSONPathNodeList) (x : Error),
      (∀ current, e.eval ⟨⟨obj, functions, signatures, nothing⟩, current⟩ = .error x) →
      query_ pre obj functions signatures nothing = .ok mid →
      (∃ n ∈ mid, childNodes n ≠ []) →
        query_ (pre ++ .child [.filter e] :: rest) obj functions signatures nothing =
          .error x ∧
        query_ (pre ++ .recursive [.filter e] :: rest) obj functions signatures nothing =
          .error x) ∧
    query_ [.child [.filter (.functionCall "foo" [.relativeQuery []])]] (.array [.int 1])
        (fun _ => none) (fun _ => none) (.sentinel 0) = .error .nameError ∧
    query_ [.child [.filter
          (.binary (.functionCall "foo" [.relativeQuery []]) .gt (.integerLiteral 2))]]
        (.array [.int 1]) (fun _ => none) (fun _ => none) (.sentinel 0) =
      .error .nameError ∧
    query_ [.child [.filter
          (.binary (.integerLiteral 2) .lt (.functionCall "foo" [.relativeQuery []]))]]
        (.array [.int 1]) (fun _ => none) (fun _ => none) (.sentinel 0) =
      .error .nameError ∧
    query_ [.child [.filter (.logicalNot (.functionCall "foo" [.relativeQuery []]))]]
        (.array [.int 1]) (fun _ => none) (fun _ => none) (.sentinel 0) =
      .error .nameError ∧
    query_ [.recursive [.filter (.functionCall "foo" [])]]
        (.object [("a", .array [.int 1])]) (fun _ => none) (fun _ => none) (.sentinel 0) =
      .error .nameError ∧
    query_ [.child [.filter
          (.relativeQuery [.child [.filter (.functionCall "foo" [.relativeQuery []])]])]]
        (.array [.array [.int 1]]) (fun _ => none) (fun _ => none) (.sentinel 0) =
      .error .nameError ∧
    query_ [.child [.index 0, .filter (.functionCall "foo" [.relativeQuery []])]]
        (.array [.int 1]) (fun _ => none) (fun _ => none) (.sentinel 0) =
      .error .nameError := by
  refine ⟨fun ctx name args h => eval_functionCall_nameError ctx name args (Or.inl h),
    fun ctx name args _ _ h => eval_functionCall_nameError ctx name args (Or.inr h),
    ?_, ?_, ?_, ?_, ?_, ?_, Selector.apply_filter_error,
    fun ctx node pre s post x hpre hs =>
      applySelectors_error_of_first ctx node s post x hs pre hpre,
    ?_, ?_, ?_, ?_, rfl, rfl, rfl, rfl, rfl, rfl, rfl⟩
  · intro ctx e x h
    simp only [Expression.eval, h]
  · intro ctx l op r x h
    simp only [Expression.eval, h]
  · intro ctx l op r lv x hl hr
    simp only [Expression.eval, hl, hr]
  · intro ctx name func func_sig pre a post outs x hf hs hpre ha
    simp only [Expression.eval, hf, hs,
      evalArgs_error_of_first ctx func_sig a post x ha pre 0 outs hpre]
  · intro ctx query x h
    simp only [query_] at h
    simp only [Expression.eval, h]
  · intro ctx query x h
    simp only [query_] at h
    simp only [Expression.eval, h]
  · intro ctx selectors pre n post x hpre hn
    simp only [resolve_segment]
    exact concatMapM_error_of_first _ n post x hn pre hpre
  · intro ctx selectors nodes pre d post x hdesc hpre hd
    simp only [resolve_segment]
    rw [concatMapM_flatMap (fun d => applySelectors ctx d selectors) descend nodes, hdesc]
    exact concatMapM_error_of_first _ d post x hd pre hpre
  · intro pre segment rest obj functions signatures nothing mid x hpre hseg
    simp only [query_] at hpre ⊢
    rw [resolveSegments_append, hpre]
    simp only [resolveSegments, hseg]
  · intro pre e rest obj functions signatures nothing mid x hfail hpre hchild
    simp only [query_] at hpre ⊢
    have hdesc : ∃ d ∈ mid.flatMap descend, childNodes d ≠ [] := by
      obtain ⟨n, hn, hne⟩ := hchild
      refine ⟨n, List.mem_flatMap.2 ⟨n, hn, ?_⟩, hne⟩
      rw [descend_eq]
      exact List.mem_cons_self _ _
    constructor
    · rw [resolveSegments_append, hpre]
      simp only [resolveSegments, resolve_segment,
        filter_segment_error _ e x hfail mid hchild]
    · rw [resolveSegments_append, hpre]
      simp only [resolveSegments, resolve_segment]
      rw [concatMapM_flatMap
        (fun d => applySelectors ⟨obj, functions, signatures, nothing⟩ d [.filter e])
        descend mid,
        filter_segment_error _ e x hfail (mid.flatMap descend) hdesc]

/-- Witness for C21: with no function named `foo`, the call `foo(@)` fails with
`NameError`; so do, for every current value, `foo(@) > 2` and `!foo(@)`, and hence the
queries `$[?foo(@) > 2]` on `[1]` and `$..[?!foo(@)]` on `[1]`; the filter `?foo(@)`
fails on the first child of `[1]`, hence the query `$[0, ?foo(@)]` on `[1]`, whose
first selector returns, fails with `NameError`. -/
theorem unknown_function_nameError_witness :
    (Expression.functionCall "foo" [.relativeQuery []]).eval ⟨plainContext .null, .null⟩ =
      .error .nameError ∧
    query_ ([] ++ .child [.filter
          (.binary (.functionCall "foo" [.relativeQuery []]) .gt (.integerLiteral 2))] :: [])
        (.array [.int 1]) (fun _ => none) (fun _ => none) (.sentinel 0) =
      .error .nameError ∧
    query_ ([] ++ .recursive [.filter (.logicalNot (.functionCall "foo" [.relativeQuery []]))]
          :: [])
        (.array [.int 1]) (fun _ => none) (fun _ => none) (.sentinel 0) =
      .error .nameError ∧
    query_ ([] ++ .child ([Selector.index 0] ++
          Selector.filter (.functionCall "foo" [.relativeQuery []]) :: []) :: [])
        (.array [.int 1]) (fun _ => none) (fun _ => none) (.sentinel 0) =
      .error .nameError :=
  ⟨unknown_function_nameError.1 ⟨plainContext .null, .null⟩ "foo" [.relativeQuery []] rfl,
    (unknown_function_nameError.2.2.2.2.2.2.2.2.2.2.2.2.2.1 []
      (.binary (.functionCall "foo" [.relativeQuery []]) .gt (.integerLiteral 2)) []
      (.array [.int 1]) (fun _ => none) (fun _ => none) (.sentinel 0)
      [⟨.array [.int 1], []⟩] .nameError
      (fun current => unknown_function_nameError.2.2.2.1 _ _ _ _ _
        (unknown_function_nameError.1 _ "foo" _ rfl))
      rfl ⟨⟨.array [.int 1], []⟩, by simp, by simp [childNodes, wildElems]⟩).1,
    (unknown_function_nameError.2.2.2.2.2.2.2.2.2.2.2.2.2.1 []
      (.logicalNot (.functionCall "foo" [.relativeQuery []])) []
      (.array [.int 1]) (fun _ => none) (fun _ => none) (.sentinel 0)
      [⟨.array [.int 1], []⟩] .nameError
      (fun current => unknown_function_nameError.2.2.1 _ _ _
        (unknown_function_nameError.1 _ "foo" _ rfl))
      rfl ⟨⟨.array [.int 1], []⟩, by simp, by simp [childNodes, wildElems]⟩).2,
    unknown_function_nameError.2.2.2.2.2.2.2.2.2.2.2.2.1 []
      (.child ([Selector.index 0] ++ Selector.filter (.functionCall "foo" [.relativeQuery []]) :: [])) []
      (.array [.int 1]) (fun _ => none) (fun _ => none) (.sentinel 0)
      [⟨.array [.int 1], []⟩] .nameError rfl
      (unknown_function_nameError.2.2.2.2.2.2.2.2.2.2.1
        ⟨.array [.int 1], fun _ => none, fun _ => none, .sentinel 0⟩
        ([Selector.index 0] ++ Selector.filter (.functionCall "foo" [.relativeQuery []]) :: [])
        [] ⟨.array [.int 1], []⟩ [] .nameError (fun _ hp => by cases hp)
        (unknown_function_nameError.2.2.2.2.2.2.2.2.2.1
          ⟨.array [.int 1], fun _ => none, fun _ => none, .sentinel 0⟩
          ⟨.array [.int 1], []⟩ [Selector.index 0]
          (Selector.filter (.functionCall "foo" [.relativeQuery []])) [] .nameError
          (fun p hp => by
            simp only [List.mem_singleton] at hp
            subst hp
            exact ⟨_, rfl⟩)
          (unknown_function_nameError.2.2.2.2.2.2.2.2.1
            ⟨.array [.int 1], fun _ => none, fun _ => none, .sentinel 0⟩
            ⟨.array [.int 1], []⟩ (.functionCall "foo" [.relativeQuery []])
            [] ⟨.int 1, [.index 0]⟩ [] .nameError rfl (fun _ hp => by cases hp)
            (unknown_function_nameError.1 _ "foo" _ rfl))))⟩

/-- The loop over the argument expressions returns exactly when every argument, in its
written order, evaluates and is coerced for its position; the output then holds, at each
position, the coerced value of the argument written there. -/
theorem evalArgs_eq_ok_iff (ctx : FilterContext) (func_sig : FunctionExtensionTypes) :
    ∀ (args : List Expression) (index : Nat) (out : List PyObject),
      evalArgs ctx func_sig index args = .ok out ↔
        List.Forall₂
          (fun (p : Nat × Expression) (a : PyObject) =>
            ∃ rv, p.2.eval ctx = .ok rv ∧
              coerceArg ctx.query.nothing func_sig p.1 rv = .ok a)
          (args.enumFrom index) out := by
  intro args
  induction args with
  | nil =>
    intro index out
    simp [evalArgs, List.enumFrom, eq_comm]
  | cons arg rest ih =>
    intro index out
    constructor
    · intro h
      simp only [evalArgs] at h
      split at h
      · cases h
      · rename_i rv harg
        split at h
        · cases h
        · rename_i a hco
          split at h
          · cases h
          · rename_i as hrest
            cases h
            exact List.Forall₂.cons ⟨rv, harg, hco⟩ ((ih (index + 1) as).1 hrest)
    · intro h
      simp only [List.enumFrom] at h
      cases h with
      | cons hhead htail =>
        obtain ⟨rv, harg, hco⟩ := hhead
        have hrest := (ih (index + 1) _).2 htail
        simp only [evalArgs, harg, hco, hrest]

/-- C25: when a function call is evaluated, an argument whose evaluated form is a node
list and whose declared parameter type is not `nodes` is passed as `nothing` if the
list is empty, as the single node's value if it holds one node, and as the node list
itself if it holds two or more; an argument declared `nodes` receives the node list
unchanged; an argument that evaluates to an object is passed unchanged; the function is
called with the arguments in their written order, position by position. -/
theorem function_call_arguments (ctx : FilterContext) (func_sig : FunctionExtensionTypes) :
    (∀ (index : Nat) (t : ExpressionType), func_sig.args[index]? = some t → t ≠ .nodes →
      coerceArg ctx.query.nothing func_sig index (.nodes []) =
        .ok (.value ctx.query.nothing) ∧
      (∀ n : JSONPathNode,
        coerceArg ctx.query.nothing func_sig index (.nodes [n]) = .ok (.value n.value)) ∧
      (∀ (a b : JSONPathNode) (rest : JSONPathNodeList),
        coerceArg ctx.query.nothing func_sig index (.nodes (a :: b :: rest)) =
          .ok (.nodes (a :: b :: rest)))) ∧
    (∀ (index : Nat) (ns : JSONPathNodeList), func_sig.args[index]? = some .nodes →
      coerceArg ctx.query.nothing func_sig index (.nodes ns) = .ok (.nodes ns)) ∧
    (∀ (index : Nat) (o : PyObject),
      coerceArg ctx.query.nothing func_sig index (.object o) = .ok o) ∧
    (∀ (args : List Expression) (out : List PyObject),
      evalArgs ctx func_sig 0 args = .ok out ↔
        List.Forall₂
          (fun (p : Nat × Expression) (a : PyObject) =>
            ∃ rv, p.2.eval ctx = .ok rv ∧
              coerceArg ctx.query.nothing func_sig p.1 rv = .ok a)
          args.enum out) ∧
    (∀ (name : String) (args : List Expression) (func : PyCallable) (out : List PyObject),
      ctx.query.functions name = some func → ctx.query.signatures name = some func_sig →
      evalArgs ctx func_sig 0 args = .ok out →
        (Expression.functionCall name args).eval ctx =
          (match func out with
            | .error e => .error e
            | .ok rv => castResult func_sig rv)) := by
  refine ⟨?_, ?_, ?_, ?_, ?_⟩
  · intro index t ht hne
    refine ⟨?_, ?_, ?_⟩
    · simp [coerceArg, ht, hne]
    · intro n
      simp [coerceArg, ht, hne]
    · intro a b rest
      simp [coerceArg, ht, hne]
  · intro index ns ht
    simp [coerceArg, ht]
  · intro index o
    rfl
  · intro args out
    exact evalArgs_eq_ok_iff ctx func_sig args 0 out
  · intro name args func out hf hs hargs
    rw [Expression.eval]
    simp only [hf, hs, hargs]

/-- Witness for C25: with the current value `5`, the call `first(@)` passes the value
of the single node of `@` to the function, which returns it; an empty node list for a
parameter declared `value` is passed as `nothing`, for one declared `nodes` as it is. -/
theorem function_call_arguments_witness :
    (Expression.functionCall "first" [.relativeQuery []]).eval (firstArgContext (.int 5)) =
      .ok (.object (.value (.int 5))) ∧
    coerceArg (.sentinel 0) ⟨[.value, .nodes], .value⟩ 0 (.nodes []) =
      .ok (.value (.sentinel 0)) ∧
    coerceArg (.sentinel 0) ⟨[.value, .nodes], .value⟩ 1 (.nodes []) = .ok (.nodes []) :=
  ⟨(function_call_arguments (firstArgContext (.int 5)) ⟨[.value], .value⟩).2.2.2.2 "first"
      [.relativeQuery []] (fun args => .ok (args.headD (.value .null))) [.value (.int 5)]
      rfl rfl rfl,
    ((function_call_arguments ⟨plainContext .null, .null⟩ ⟨[.value, .nodes], .value⟩).1 0
      .value rfl (by decide)).1,
    (function_call_arguments ⟨plainContext .null, .null⟩ ⟨[.value, .nodes], .value⟩).2.1 1 []
      rfl⟩

/-! ## Queries without descendant, filter and wildcard -/

/-- C23 (as stated, refuted): the queries `$[0:2]` and `$[0,1]` hold no descendant
segment, no filter and no wildcard selector, and each returns two nodes on
`[1, 2, 3]`. -/
theorem slice_or_two_selectors_return_two_nodes :
    (∀ segment ∈ [Segment.child [.slice (some 0) (some 2) none]],
      segment.noDescendantFilterWild = true) ∧
    query_ [.child [.slice (some 0) (some 2) none]] (.array [.int 1, .int 2, .int 3])
        (fun _ => none) (fun _ => none) (.sentinel 0) =
      .ok [⟨.int 1, [.index 0]⟩, ⟨.int 2, [.index 1]⟩] ∧
    (∀ segment ∈ [Segment.child [.index 0, .index 1]],
      segment.noDescendantFilterWild = true) ∧
    query_ [.child [.index 0, .index 1]] (.array [.int 1, .int 2, .int 3])
        (fun _ => none) (fun _ => none) (.sentinel 0) =
      .ok [⟨.int 1, [.index 0]⟩, ⟨.int 2, [.index 1]⟩] ∧
    ¬ ([(⟨.int 1, [.index 0]⟩ : JSONPathNode), ⟨.int 2, [.index 1]⟩].length ≤ 1) :=
  ⟨by decide, rfl, by decide, rfl, by decide⟩

/-- A child segment without selectors returns no node. -/
theorem resolve_segment_no_selectors (ctx : QueryContext) (nodes : JSONPathNodeList) :
    resolve_segment ctx nodes (.child []) = .ok [] := by
  simp only [resolve_segment]
  rw [concatMapM_applySelectors_eq_ok_iff]
  exact ⟨fun _ _ s hs => (by cases hs), by simp⟩

/-- The loop over segments that each hold at most one name or index selector keeps the
node list at no more than one node. -/
theorem resolveSegments_atMostOne (ctx : QueryContext) (segments : List Segment)
    (h : ∀ segment ∈ segments, segment.atMostOneNameOrIndex = true) :
    ∀ nodes : JSONPathNodeList, nodes.length ≤ 1 →
      (∃ out, resolveSegments ctx nodes segments = .ok out ∧ out.length ≤ 1) ∨
        resolveSegments ctx nodes segments = .error .indexError := by
  induction segments with
  | nil =>
    intro nodes hn
    exact Or.inl ⟨nodes, rfl, hn⟩
  | cons segment rest ih =>
    intro nodes hn
    have hrest := ih (fun s hs => h s (List.mem_cons_of_mem _ hs))
    have hseg := h segment (List.mem_cons_self _ _)
    rw [resolveSegments]
    match segment, hseg with
    | .child [], _ =>
      rw [resolve_segment_no_selectors]
      exact hrest [] (by simp)
    | .child [selector], hseg =>
      rcases resolve_segment_singular ctx nodes (.child [selector]) hseg hn with
        ⟨out, ho, hl⟩ | he
      · rw [ho]
        exact hrest out hl
      · right
        rw [he]

/-- C23 (amended): for every document and every query none of whose segments is a
descendant segment and each of whose segments holds at most one selector, that selector
being a name or an index selector (so no filter, no wildcard and no slice), `query_`
returns at most one node; the only way it does not return is the `IndexError` of
`normalized_index` for an array longer than `INT64_MAX`. -/
theorem query_at_most_one_selector (segments : segments_t) (obj : Value)
    (functions : function_extension_map) (signatures : function_signature_map)
    (nothing : Value) (h : ∀ segment ∈ segments, segment.atMostOneNameOrIndex = true) :
    (∃ out, query_ segments obj functions signatures nothing = .ok out ∧ out.length ≤ 1) ∨
      query_ segments obj functions signatures nothing = .error .indexError :=
  resolveSegments_atMostOne _ segments h _ (by simp)

/-- Witness for C23 (amended): `$.a[1]` on `{"a": [1, 2, 3]}`, a name segment followed
by an index segment, returns the one node `2` at `$['a'][1]`, so at most one node. -/
theorem query_at_most_one_selector_witness :
    query_ [.child [.name "a"], .child [.index 1]]
        (.object [("a", .array [.int 1, .int 2, .int 3])])
        (fun _ => none) (fun _ => none) (.sentinel 0) =
      .ok [⟨.int 2, [.key "a", .index 1]⟩] ∧
    (∀ segment ∈ [Segment.child [.name "a"], Segment.child [.index 1]],
      segment.atMostOneNameOrIndex = true) ∧
    ((∃ out, query_ [.child [.name "a"], .child [.index 1]]
        (.object [("a", .array [.int 1, .int 2, .int 3])])
        (fun _ => none) (fun _ => none) (.sentinel 0) = .ok out ∧ out.length ≤ 1) ∨
      query_ [.child [.name "a"], .child [.index 1]]
        (.object [("a", .array [.int 1, .int 2, .int 3])])
        (fun _ => none) (fun _ => none) (.sentinel 0) = .error .indexError) :=
  ⟨rfl, by decide,
    query_at_most_one_selector [.child [.name "a"], .child [.index 1]]
      (.object [("a", .array [.int 1, .int 2, .int 3])])
      (fun _ => none) (fun _ => none) (.sentinel 0) (by decide)⟩

/-! ## Range of the slice indices -/

/-- Every index the upward slice loop returns lies between its start and its stop. -/
theorem sliceLoopUp_mem (stop step : Int) (hstep : 0 < step) :
    ∀ (fuel : Nat) (i : Int) (l : List Int), sliceLoopUp stop step fuel i = .ok l →
      ∀ j ∈ l, i ≤ j ∧ j < stop := by
  intro fuel
  induction fuel with
  | zero =>
    intro i l h j hj
    simp only [sliceLoopUp, Except.ok.injEq] at h
    subst h
    cases hj
  | succ f ih =>
    intro i l h j hj
    simp only [sliceLoopUp] at h
    split at h
    · rename_i hlt
      split at h
      · split at h
        · rename_i rest hrest
          simp only [Except.ok.injEq] at h
          subst h
          rcases List.mem_cons.1 hj with rfl | hj
          · exact ⟨le_refl _, hlt⟩
          · have := ih (i + step) rest hrest j hj
            omega
        · cases h
      · cases h
    · simp only [Except.ok.injEq] at h
      subst h
      cases hj

/-- Every index the downward slice loop returns lies between its stop and its start. -/
theorem sliceLoopDown_mem (stop step : Int) (hstep : step < 0) :
    ∀ (fuel : Nat) (i : Int) (l : List Int), sliceLoopDown stop step fuel i = .ok l →
      ∀ j ∈ l, stop < j ∧ j ≤ i := by
  intro fuel
  induction fuel with
  | zero =>
    intro i l h j hj
    simp only [sliceLoopDown, Except.ok.injEq] at h
    subst h
    cases hj
  | succ f ih =>
    intro i l h j hj
    simp only [sliceLoopDown] at h
    split at h
    · rename_i hlt
      split at h
      · split at h
        · rename_i rest hrest
          simp only [Except.ok.injEq] at h
          subst h
          rcases List.mem_cons.1 hj with rfl | hj
          · exact ⟨hlt, le_refl _⟩
          · have := ih (i + step) rest hrest j hj
            omega
        · cases h
      · cases h
    · simp only [Except.ok.injEq] at h
      subst h
      cases hj

/-- The slice loops return no more indices than they were given fuel. -/
theorem sliceLoop_length (stop step : Int) :
    ∀ (fuel : Nat) (i : Int) (l : List Int),
      (sliceLoopUp stop step fuel i = .ok l → l.length ≤ fuel) ∧
      (sliceLoopDown stop step fuel i = .ok l → l.length ≤ fuel) := by
  intro fuel
  induction fuel with
  | zero =>
    intro i l
    constructor <;>
    · intro h
      first
        | simp only [sliceLoopUp, Except.ok.injEq] at h
        | simp only [sliceLoopDown, Except.ok.injEq] at h
      subst h
      simp
  | succ f ih =>
    intro i l
    constructor
    · intro h
      simp only [sliceLoopUp] at h
      split at h
      · split at h
        · split at h
          · rename_i rest hrest
            simp only [Except.ok.injEq] at h
            subst h
            have := (ih (i + step) rest).1 hrest
            simp only [List.length_cons]
            omega
          · cases h
        · cases h
      · simp only [Except.ok.injEq] at h
        subst h
        simp
    · intro h
      simp only [sliceLoopDown] at h
      split at h
      · split at h
        · split at h
          · rename_i rest hrest
            simp only [Except.ok.injEq] at h
            subst h
            have := (ih (i + step) rest).2 hrest
            simp only [List.length_cons]
            omega
          · cases h
        · cases h
      · simp only [Except.ok.injEq] at h
        subst h
        simp

/-- On a non-empty array whose length fits in 64 bits, `slice_indicies` runs one of its
two loops from the start and up to the stop that the specification's formulas give. -/
theorem slice_indicies_resolved (n : Nat) (start stop step : Option Int) (hn : 0 < n)
    (hlen : (n : Int) ≤ INT64_MAX) :
    slice_indicies start stop step n =
      if specSliceStep step = 0 then .ok []
      else if specSliceStep step > 0 then
        sliceLoopUp (specSliceStop n stop (specSliceStep step)) (specSliceStep step)
          (specSliceStop n stop (specSliceStep step) -
            specSliceStart n start (specSliceStep step)).toNat
          (specSliceStart n start (specSliceStep step))
      else
        sliceLoopDown (specSliceStop n stop (specSliceStep step)) (specSliceStep step)
          (specSliceStart n start (specSliceStep step) -
            specSliceStop n stop (specSliceStep step)).toNat
          (specSliceStart n start (specSliceStep step)) := by
  have hfit : toInt64 (n : Int) = n := by
    apply toInt64_of_fits
    · unfold INT64_MIN; omega
    · exact hlen
  have hn0 : n ≠ 0 := by omega
  unfold slice_indicies
  simp only [hn0, if_false, hfit]
  unfold specSliceStep
  generalize step.getD 1 = st
  by_cases hz : st = 0
  · simp [hz]
  · have hstartEq : (match start with
        | none => if st < 0 then (n : Int) - 1 else 0
        | some s => if s < 0 then max ((n : Int) + s) 0 else min s ((n : Int) - 1)) =
        specSliceStart n start st := by
      unfold specSliceStart
      cases start with
      | none =>
        simp only
        split <;> split <;> first | rfl | omega
      | some s => rfl
    have hstopEq : (match stop with
        | none => if st < 0 then (-1 : Int) else (n : Int)
        | some s => if s < 0 then max ((n : Int) + s) (-1) else min s (n : Int)) =
        specSliceStop n stop st := by
      unfold specSliceStop
      cases stop with
      | none =>
        simp only
        split <;> split <;> first | rfl | omega
      | some s => rfl
    simp only [hz, if_false]
    rw [hstartEq, hstopEq]

/-- On a non-empty array the resolved start of a slice is a valid index and the resolved
stop lies between `-1` and the length. -/
theorem specSlice_bounds (n : Nat) (hn : 0 < n) (start stop : Option Int) (st : Int) :
    0 ≤ specSliceStart n start st ∧ specSliceStart n start st ≤ (n : Int) - 1 ∧
    -1 ≤ specSliceStop n stop st ∧ specSliceStop n stop st ≤ (n : Int) := by
  refine ⟨?_, ?_, ?_, ?_⟩
  · unfold specSliceStart
    split
    · split <;> omega
    · split <;> omega
  · unfold specSliceStart
    split
    · split <;> omega
    · split <;> omega
  · unfold specSliceStop
    split
    · split <;> omega
    · split <;> omega
  · unfold specSliceStop
    split
    · split <;> omega
    · split <;> omega

/-- Whenever `slice_indicies` returns, on an array whose length fits in 64 bits, every
index it returns is a valid index of the array, and there are at most `n` of them. -/
theorem slice_indicies_inRange (n : Nat) (start stop step : Option Int)
    (hlen : (n : Int) ≤ INT64_MAX) (l : List Int)
    (h : slice_indicies start stop step n = .ok l) :
    (∀ i ∈ l, 0 ≤ i ∧ i < n) ∧ l.length ≤ n := by
  by_cases hn : 0 < n
  · rw [slice_indicies_resolved n start stop step hn hlen] at h
    obtain ⟨hs0, hs1, ht0, ht1⟩ := specSlice_bounds n hn start stop (specSliceStep step)
    split at h
    · simp only [Except.ok.injEq] at h
      subst h
      simp
    · split at h
      · rename_i hpos
        have hmem := sliceLoopUp_mem _ _ hpos _ _ l h
        have hlen' := (sliceLoop_length _ _ _ _ l).1 h
        exact ⟨fun i hi => by have := hmem i hi; omega, by omega⟩
      · rename_i hz hpos
        have hneg : specSliceStep step < 0 := by omega
        have hmem := sliceLoopDown_mem _ _ hneg _ _ l h
        have hlen' := (sliceLoop_length _ _ _ _ l).2 h
        exact ⟨fun i hi => by have := hmem i hi; omega, by omega⟩
  · have hn0 : n = 0 := by omega
    subst hn0
    simp only [slice_indicies, if_true, Except.ok.injEq] at h
    subst h
    simp

/-- The only error the slice loops can stop on is the overflow of their counter. -/
theorem sliceLoop_error (stop step : Int) :
    ∀ (fuel : Nat) (i : Int) (e : Error),
      (sliceLoopUp stop step fuel i = .error e → e = .signedOverflow) ∧
      (sliceLoopDown stop step fuel i = .error e → e = .signedOverflow) := by
  intro fuel
  induction fuel with
  | zero =>
    intro i e
    constructor <;>
    · intro h
      cases h
  | succ f ih =>
    intro i e
    constructor
    · intro h
      simp only [sliceLoopUp] at h
      split at h
      · split at h
        · split at h
          · cases h
          · rename_i e' hrest
            cases h
            exact (ih (i + step) e).1 hrest
        · cases h
          rfl
      · cases h
    · intro h
      simp only [sliceLoopDown] at h
      split at h
      · split at h
        · split at h
          · cases h
          · rename_i e' hrest
            cases h
            exact (ih (i + step) e).2 hrest
        · cases h
          rfl
      · cases h

/-- The only error `slice_indicies` can stop on is the overflow of the loop counter. -/
theorem slice_indicies_error (n : Nat) (start stop step : Option Int) (e : Error)
    (h : slice_indicies start stop step n = .error e) : e = .signedOverflow := by
  unfold slice_indicies at h
  split at h
  · cases h
  · dsimp only at h
    split at h
    · cases h
    · split at h
      · exact (sliceLoop_error _ _ _ _ e).1 h
      · exact (sliceLoop_error _ _ _ _ e).2 h

/-- On an array whose length fits in 64 bits the slice selector either returns, for each
index of `slice_indicies` in order, the element at that index located at that index, or
stops on the overflow of the loop counter; it raises no `IndexError` and makes no
out-of-range access. -/
theorem slice_selector_outcome (ctx : QueryContext) (xs : List Value) (loc : location_t)
    (start stop step : Option Int) (hlen : (xs.length : Int) ≤ INT64_MAX) :
    (∃ l, slice_indicies start stop step xs.length = .ok l ∧
      (∀ i ∈ l, 0 ≤ i ∧ i < xs.length) ∧
      Selector.apply ctx ⟨.array xs, loc⟩ (.slice start stop step) =
        .ok (l.map (fun i => ⟨xs[i.toNat]?.getD .null, loc ++ [.index i.toNat]⟩))) ∨
    (slice_indicies start stop step xs.length = .error .signedOverflow ∧
      Selector.apply ctx ⟨.array xs, loc⟩ (.slice start stop step) =
        .error .signedOverflow) := by
  cases h : slice_indicies start stop step xs.length with
  | ok l =>
    left
    have hr := (slice_indicies_inRange xs.length start stop step hlen l h).1
    exact ⟨l, rfl, hr, by simp only [Selector.apply, h]; exact sliceNodes_of_inRange xs loc l hr⟩
  | error e =>
    right
    have he : e = .signedOverflow := slice_indicies_error _ _ _ _ e h
    subst he
    exact ⟨rfl, by simp only [Selector.apply, h]⟩

/-- C26 (the code at the failing input): for the slice `[3:5:9223372036854775807]` on
an array of length `5` the loop of `slice_indicies` pushes `3` and then adds the step
to its 64-bit counter, which overflows; the indices are not confined to `0 ≤ i < n` by
any test, the evaluation has no defined result. For the step `1` the same slice yields
the indices `3` and `4`. -/
theorem slice_counter_overflow :
    slice_indicies (some 3) (some 5) (some 9223372036854775807) 5 = .error .signedOverflow ∧
    Selector.apply (plainContext .null)
        ⟨.array [.int 0, .int 1, .int 2, .int 3, .int 4], []⟩
        (.slice (some 3) (some 5) (some 9223372036854775807)) = .error .signedOverflow ∧
    (3 : Int) + 9223372036854775807 > INT64_MAX ∧
    toInt64 (3 + 9223372036854775807) = -9223372036854775806 ∧
    slice_indicies (some 3) (some 5) (some 1) 5 = .ok [3, 4] :=
  ⟨rfl, rfl, by decide, by decide, rfl⟩

/-! ## Descendant segment with a wildcard -/

/-- The descendant list of a value starts with the value itself. -/
theorem descendValue_head (v : Value) (loc : location_t) :
    descendValue v loc = ⟨v, loc⟩ :: (descendValue v loc).tail := by
  cases v <;> rfl

mutual
/-- The children of all nodes of a descendant list are, up to order, the nodes of the list
other than its first. -/
theorem descendValue_children_perm : ∀ (v : Value) (loc : location_t),
    ((descendValue v loc).flatMap childNodes).Perm (descendValue v loc).tail
  | .object ms, loc => by
    simp only [descendValue, List.flatMap_cons, List.tail_cons]
    exact descendMembers_children_perm ms loc
  | .array xs, loc => by
    simp only [descendValue, List.flatMap_cons, List.tail_cons]
    exact descendElems_children_perm xs loc 0
  | .null, loc => by simp [descendValue, childNodes]
  | .bool _, loc => by simp [descendValue, childNodes]
  | .int _, loc => by simp [descendValue, childNodes]
  | .float _, loc => by simp [descendValue, childNodes]
  | .str _, loc => by simp [descendValue, childNodes]
  | .sentinel _, loc => by simp [descendValue, childNodes]
/-- The member nodes of a dict together with the children of all nodes visited below
them are, up to order, the nodes visited below the dict. -/
theorem descendMembers_children_perm : ∀ (ms : List (String × Value)) (loc : location_t),
    (wildMembers loc ms ++ (descendMembers ms loc).flatMap childNodes).Perm
      (descendMembers ms loc)
  | [], loc => by simp [wildMembers, descendMembers]
  | (k, v) :: ms, loc => by
    have hv := descendValue_children_perm v (loc ++ [.key k])
    have hms := descendMembers_children_perm ms loc
    simp only [wildMembers, descendMembers, List.flatMap_append, List.cons_append]
    conv_rhs => rw [descendValue_head v (loc ++ [PathElem.key k])]
    rw [List.cons_append]
    refine List.Perm.cons _ ?_
    exact (List.perm_append_comm_assoc _ _ _).trans (List.Perm.append hv hms)
/-- The element nodes of a list together with the children of all nodes visited below
them are, up to order, the nodes visited below the list. -/
theorem descendElems_children_perm : ∀ (xs : List Value) (loc : location_t) (index : Nat),
    (wildElems loc index xs ++ (descendElems xs loc index).flatMap childNodes).Perm
      (descendElems xs loc index)
  | [], loc, index => by simp [wildElems, descendElems]
  | x :: xs, loc, index => by
    have hv := descendValue_children_perm x (loc ++ [.index index])
    have hxs := descendElems_children_perm xs loc (index + 1)
    simp only [wildElems, descendElems, List.flatMap_append, List.cons_append]
    conv_rhs => rw [descendValue_head x (loc ++ [PathElem.index index])]
    rw [List.cons_append]
    refine List.Perm.cons _ ?_
    exact (List.perm_append_comm_assoc _ _ _).trans (List.Perm.append hv hxs)
end

mutual
/-- In a document whose dicts have distinct keys, no location occurs twice in a
descendant list. -/
theorem descendValue_locations_nodup : ∀ (v : Value) (loc : location_t),
    v.uniqueKeys = true → ((descendValue v loc).map (fun d => d.location)).Nodup
  | .object ms, loc, hu => by
    simp only [Value.uniqueKeys, Bool.and_eq_true] at hu
    simp only [descendValue, List.map_cons, List.nodup_cons, List.mem_map, not_exists,
      not_and]
    refine ⟨?_, descendMembers_locations_nodup ms loc hu.1 hu.2⟩
    intro d hd hloc
    obtain ⟨k, w, path, _, hl, _⟩ := descendMembers_below ms loc hu.1 hu.2 d hd
    rw [hl] at hloc
    have := congrArg List.length hloc
    simp at this
  | .array xs, loc, hu => by
    simp only [Value.uniqueKeys] at hu
    simp only [descendValue, List.map_cons, List.nodup_cons, List.mem_map, not_exists,
      not_and]
    refine ⟨?_, descendElems_locations_nodup xs loc 0 hu⟩
    intro d hd hloc
    obtain ⟨j, w, path, _, hl, _⟩ := descendElems_below xs loc 0 hu d hd
    rw [hl] at hloc
    have := congrArg List.length hloc
    simp at this
  | .null, loc, _ => by simp [descendValue]
  | .bool _, loc, _ => by simp [descendValue]
  | .int _, loc, _ => by simp [descendValue]
  | .float _, loc, _ => by simp [descendValue]
  | .str _, loc, _ => by simp [descendValue]
  | .sentinel _, loc, _ => by simp [descendValue]
/-- No location occurs twice among the nodes visited below the members of a dict with
distinct keys. -/
theorem descendMembers_locations_nodup : ∀ (ms : List (String × Value)) (loc : location_t),
    distinctKeys ms = true → uniqueKeysMembers ms = true →
    ((descendMembers ms loc).map (fun d => d.location)).Nodup
  | [], loc, _, _ => by simp [descendMembers]
  | (k, v) :: ms, loc, hd, hu => by
    simp only [distinctKeys, Bool.and_eq_true, Option.isNone_iff_eq_none] at hd
    simp only [uniqueKeysMembers, Bool.and_eq_true] at hu
    simp only [descendMembers, List.map_append]
    rw [List.nodup_append]
    refine ⟨descendValue_locations_nodup v (loc ++ [.key k]) hu.1,
      descendMembers_locations_nodup ms loc hd.2 hu.2, ?_⟩
    intro l h1 h2
    obtain ⟨d1, hd1, rfl⟩ := List.mem_map.1 h1
    obtain ⟨d2, hd2, heq⟩ := List.mem_map.1 h2
    obtain ⟨path1, hl1, _⟩ := descendValue_below v (loc ++ [.key k]) hu.1 d1 hd1
    obtain ⟨k2, w2, path2, hlook, hl2, _⟩ := descendMembers_below ms loc hd.2 hu.2 d2 hd2
    rw [hl1, hl2, List.append_assoc] at heq
    have h3 := List.append_cancel_left heq
    simp only [List.singleton_append, List.cons.injEq, PathElem.key.injEq] at h3
    rw [h3.1, hd.1] at hlook
    cases hlook
/-- No location occurs twice among the nodes visited below the elements of a list. -/
theorem descendElems_locations_nodup : ∀ (xs : List Value) (loc : location_t) (index : Nat),
    uniqueKeysElems xs = true →
    ((descendElems xs loc index).map (fun d => d.location)).Nodup
  | [], loc, index, _ => by simp [descendElems]
  | x :: xs, loc, index, hu => by
    simp only [uniqueKeysElems, Bool.and_eq_true] at hu
    simp only [descendElems, List.map_append]
    rw [List.nodup_append]
    refine ⟨descendValue_locations_nodup x (loc ++ [.index index]) hu.1,
      descendElems_locations_nodup xs loc (index + 1) hu.2, ?_⟩
    intro l h1 h2
    obtain ⟨d1, hd1, rfl⟩ := List.mem_map.1 h1
    obtain ⟨d2, hd2, heq⟩ := List.mem_map.1 h2
    obtain ⟨path1, hl1, _⟩ := descendValue_below x (loc ++ [.index index]) hu.1 d1 hd1
    obtain ⟨j, w2, path2, _, hl2, _⟩ := descendElems_below xs loc (index + 1) hu.2 d2 hd2
    rw [hl1, hl2, List.append_assoc] at heq
    have h3 := List.append_cancel_left heq
    simp only [List.singleton_append, List.cons.injEq, PathElem.index.injEq] at h3
    omega
end

/-- The wildcard selector never fails: it returns the child nodes of the node. -/
theorem Selector.apply_wild (ctx : QueryContext) (node : JSONPathNode) :
    Selector.apply ctx node .wild = .ok (childNodes node) := by
  obtain ⟨value, loc⟩ := node
  cases value <;> rfl

/-- A descendant segment holding a single wildcard, applied to one node, returns the
children of every node of the descendant list, in the order of the list. -/
theorem resolve_segment_recursive_wild (ctx : QueryContext) (node : JSONPathNode) :
    resolve_segment ctx [node] (.recursive [.wild]) =
      .ok ((descend node).flatMap childNodes) := by
  simp only [resolve_segment, concatMapM_singleton]
  rw [concatMapM_applySelectors_eq_ok_iff]
  refine ⟨fun d _ s hs => ?_, ?_⟩
  · simp only [List.mem_singleton] at hs
    subst hs
    exact ⟨_, Selector.apply_wild ctx d⟩
  · apply List.flatMap_congr
    intro d _
    simp [Selector.apply_wild, resultNodes]

/-- C27: for every document (whose dicts have distinct keys, as Python dicts do), the
query made of one descendant segment holding a single wildcard returns exactly one node
for each value strictly below the root: the number of returned nodes is the length of
`descend(root)` minus one, the returned nodes are, up to order, the nodes of
`descend(root)` after the first, their locations are pairwise distinct, and these
locations are, up to order, the locations of `descend(root)` other than the empty
location. -/
theorem descendant_wildcard_spec (root : Value) (functions : function_extension_map)
    (signatures : function_signature_map) (nothing : Value)
    (hu : root.uniqueKeys = true) :
    ∃ out, query_ [.recursive [.wild]] root functions signatures nothing = .ok out ∧
      out.length = (descend ⟨root, []⟩).length - 1 ∧
      out.Perm (descend ⟨root, []⟩).tail ∧
      (out.map (fun d => d.location)).Nodup ∧
      (out.map (fun d => d.location)).Perm
        (((descend ⟨root, []⟩).map (fun d => d.location)).filter
          (fun l => decide (l ≠ []))) := by
  have hperm : ((descend ⟨root, []⟩).flatMap childNodes).Perm (descend ⟨root, []⟩).tail :=
    descendValue_children_perm root []
  have hnodup : ((descend ⟨root, []⟩).map (fun d => d.location)).Nodup :=
    descendValue_locations_nodup root [] hu
  have hhead : descend ⟨root, []⟩ = ⟨root, []⟩ :: (descend ⟨root, []⟩).tail :=
    descendValue_head root []
  rw [hhead, List.map_cons, List.nodup_cons] at hnodup
  refine ⟨(descend ⟨root, []⟩).flatMap childNodes, ?_, ?_, hperm, ?_, ?_⟩
  · simp only [query_, resolveSegments, resolve_segment_recursive_wild]
  · rw [hperm.length_eq, List.length_tail]
  · exact ((hperm.map (fun d => d.location)).nodup_iff).2 hnodup.2
  · have hfilter : ((descend ⟨root, []⟩).map (fun d => d.location)).filter
        (fun l => decide (l ≠ [])) =
        (descend ⟨root, []⟩).tail.map (fun d => d.location) := by
      conv_lhs => rw [hhead]
      simp only [List.map_cons, List.filter_cons, ne_eq, not_true_eq_false, decide_False,
        Bool.false_eq_true, if_false]
      rw [List.filter_eq_self]
      intro l hl
      simp only [decide_eq_true_eq]
      intro hnil
      exact hnodup.1 (hnil ▸ hl)
    rw [hfilter]
    exact hperm.map _

/-- Witness for C27: `$..*` on `{"a": [1, 2], "b": 3}` returns the four values below
the root. -/
theorem descendant_wildcard_spec_witness :
    query_ [.recursive [.wild]] (.object [("a", .array [.int 1, .int 2]), ("b", .int 3)])
        (fun _ => none) (fun _ => none) (.sentinel 0) =
      .ok [⟨.array [.int 1, .int 2], [.key "a"]⟩, ⟨.int 3, [.key "b"]⟩,
        ⟨.int 1, [.key "a", .index 0]⟩, ⟨.int 2, [.key "a", .index 1]⟩] ∧
    ∃ out, query_ [.recursive [.wild]]
        (.object [("a", .array [.int 1, .int 2]), ("b", .int 3)])
        (fun _ => none) (fun _ => none) (.sentinel 0) = .ok out ∧
      out.length =
        (descend ⟨.object [("a", .array [.int 1, .int 2]), ("b", .int 3)], []⟩).length - 1 :=
  ⟨rfl, by
    obtain ⟨out, h1, h2, _⟩ := descendant_wildcard_spec
      (.object [("a", .array [.int 1, .int 2]), ("b", .int 3)])
      (fun _ => none) (fun _ => none) (.sentinel 0) (by decide)
    exact ⟨out, h1, h2⟩⟩

/-! ## Termination -/

/-- The value of a child node is a strict sub-term of the value of its parent. -/
theorem childNodes_sizeOf_lt (node c : JSONPathNode) (h : c ∈ childNodes node) :
    sizeOf c.value < sizeOf node.value := by
  obtain ⟨value, loc⟩ := node
  cases value with
  | object ms =>
    simp only [childNodes, wildMembers_eq_map, List.mem_map] at h
    obtain ⟨kv, hkv, rfl⟩ := h
    have h1 := List.sizeOf_lt_of_mem hkv
    obtain ⟨k, v⟩ := kv
    simp only [Value.object.sizeOf_spec, Prod.mk.sizeOf_spec] at h1 ⊢
    omega
  | array xs =>
    simp only [childNodes] at h
    obtain ⟨j, _, hget⟩ := wildElems_getElem loc xs 0 c h
    have h1 := List.sizeOf_lt_of_mem (List.getElem?_mem hget)
    simp only [Value.array.sizeOf_spec]
    omega
  | null => simp [childNodes] at h
  | bool _ => simp [childNodes] at h
  | int _ => simp [childNodes] at h
  | float _ => simp [childNodes] at h
  | str _ => simp [childNodes] at h
  | sentinel _ => simp [childNodes] at h

/-- The measures behind the recursion of the evaluator, as long as no slice counter
overflows: `descend` recurses on the values of the child nodes, which are strict
sub-terms of the parent's value; each turn of a slice loop that goes on without overflow
moves the counter strictly toward the stop, the fuel the loops are given is never what
ends them, and `slice_indicies` returns at most `n` indices; expression evaluation
recurses on strict sub-expressions, on the segments of sub-queries, on the selectors of
segments and on the expression of a filter selector. -/
theorem evaluation_measures :
    (∀ node c : JSONPathNode, c ∈ childNodes node → sizeOf c.value < sizeOf node.value) ∧
    (∀ stop step i : Int, 0 < step → i < stop →
      (stop - (i + step)).toNat < (stop - i).toNat) ∧
    (∀ stop step i : Int, step < 0 → i > stop →
      (i + step - stop).toNat < (i - stop).toNat) ∧
    (∀ (stop step start : Int) (extra : Nat), 0 < step →
      sliceLoopUp stop step ((stop - start).toNat + extra) start =
        sliceLoopUp stop step (stop - start).toNat start) ∧
    (∀ (stop step start : Int) (extra : Nat), step < 0 →
      sliceLoopDown stop step ((start - stop).toNat + extra) start =
        sliceLoopDown stop step (start - stop).toNat start) ∧
    (∀ (n : Nat) (start stop step : Option Int) (l : List Int), (n : Int) ≤ INT64_MAX →
      slice_indicies start stop step n = .ok l → l.length ≤ n) ∧
    (∀ e : Expression, sizeOf e < sizeOf (Expression.logicalNot e)) ∧
    (∀ (l r : Expression) (op : BinaryOperator),
      sizeOf l < sizeOf (Expression.binary l op r) ∧
      sizeOf r < sizeOf (Expression.binary l op r)) ∧
    (∀ (query : List Segment) (segment : Segment), segment ∈ query →
      sizeOf segment < sizeOf (Expression.relativeQuery query) ∧
      sizeOf segment < sizeOf (Expression.rootQuery query)) ∧
    (∀ (name : String) (args : List Expression) (arg : Expression), arg ∈ args →
      sizeOf arg < sizeOf (Expression.functionCall name args)) ∧
    (∀ e : Expression, sizeOf e < sizeOf (Selector.filter e)) ∧
    (∀ (selectors : List Selector) (selector : Selector), selector ∈ selectors →
      sizeOf selector < sizeOf (Segment.child selectors) ∧
      sizeOf selector < sizeOf (Segment.recursive selectors)) := by
  refine ⟨childNodes_sizeOf_lt, ?_, ?_, ?_, ?_, ?_, ?_, ?_, ?_, ?_, ?_, ?_⟩
  · intro stop step i hstep hlt
    omega
  · intro stop step i hstep hgt
    omega
  · intro stop step start extra hstep
    exact sliceLoopUp_fuel stop step hstep _ _ start (by omega) (le_refl _)
  · intro stop step start extra hstep
    exact sliceLoopDown_fuel stop step hstep _ _ start (by omega) (le_refl _)
  · intro n start stop step l hlen h
    exact (slice_indicies_inRange n start stop step hlen l h).2
  · intro e
    simp only [Expression.logicalNot.sizeOf_spec]
    omega
  · intro l r op
    simp only [Expression.binary.sizeOf_spec]
    constructor <;> omega
  · intro query segment h
    have := List.sizeOf_lt_of_mem h
    simp only [Expression.relativeQuery.sizeOf_spec, Expression.rootQuery.sizeOf_spec]
    constructor <;> omega
  · intro name args arg h
    have := List.sizeOf_lt_of_mem h
    simp only [Expression.functionCall.sizeOf_spec]
    omega
  · intro e
    simp only [Selector.filter.sizeOf_spec]
    omega
  · intro selectors selector h
    have := List.sizeOf_lt_of_mem h
    simp only [Segment.child.sizeOf_spec, Segment.recursive.sizeOf_spec]
    constructor <;> omega

/-- An instance of `evaluation_measures`: on `[0, 1, 2, 3, 4]` the loop of the slice
`[::2]` gives the same three indices with any amount of extra fuel, and a child of
`[[1]]` is smaller than it. -/
theorem evaluation_measures_witness :
    sliceLoopUp 5 2 ((5 - 0 : Int).toNat + 100) 0 = .ok [0, 2, 4] ∧
    sizeOf (Value.array [.int 1]) < sizeOf (Value.array [.array [.int 1]]) :=
  ⟨by
      rw [evaluation_measures.2.2.2.1 5 2 0 100 (by decide)]
      rfl,
    evaluation_measures.1 ⟨.array [.array [.int 1]], []⟩ ⟨.array [.int 1], [.index 0]⟩
      (by simp [childNodes, wildElems])⟩

/-- C28 (the code at the failing input): in the query `$[3:5:9223372036854775807]` on
`[0, 1, 2, 3, 4]` the slice has a non-zero step, and its loop does not move strictly
toward its bound. `slice_indicies` starts the counter at `3`, below the stop `5`, pushes
`3` and adds the step: `3 + 9223372036854775807` exceeds the largest 64-bit integer, so
`i += step` overflows and the evaluation of the query has no defined result. Wrapped to
64 bits the counter becomes `-9223372036854775806`, which still passes the loop test
`i < stop` and lies further from the stop than `3` did. With the step `1` the same
query returns the elements at `3` and `4`. -/
theorem slice_loop_moves_away_from_stop :
    query_ [.child [.slice (some 3) (some 5) (some 9223372036854775807)]]
        (.array [.int 0, .int 1, .int 2, .int 3, .int 4])
        (fun _ => none) (fun _ => none) (.sentinel 0) = .error .signedOverflow ∧
    Selector.apply (plainContext .null)
        ⟨.array [.int 0, .int 1, .int 2, .int 3, .int 4], []⟩
        (.slice (some 3) (some 5) (some 9223372036854775807)) = .error .signedOverflow ∧
    (∀ fuel : Nat, sliceLoopUp 5 9223372036854775807 (fuel + 1) 3 = .error .signedOverflow) ∧
    (9223372036854775807 : Int) ≠ 0 ∧
    (3 : Int) < 5 ∧
    INT64_MAX < (3 : Int) + 9223372036854775807 ∧
    toInt64 (3 + 9223372036854775807) = -9223372036854775806 ∧
    toInt64 (3 + 9223372036854775807) < 5 ∧
    (5 - (3 : Int)).toNat < (5 - toInt64 (3 + 9223372036854775807)).toNat ∧
    query_ [.child [.slice (some 3) (some 5) (some 1)]]
        (.array [.int 0, .int 1, .int 2, .int 3, .int 4])
        (fun _ => none) (fun _ => none) (.sentinel 0) =
      .ok [⟨.int 3, [.index 3]⟩, ⟨.int 4, [.index 4]⟩] :=
  ⟨rfl, rfl, fun _ => rfl, by decide, by decide, by decide, by decide, by decide,
    by decide, rfl⟩

end JsonPath
